import Mathlib

/-!
# KDevelop background parser: scheduler model

Shallow embedding of `src/language/backgroundparser/backgroundparser.cpp`
(class `BackgroundParserPrivate` and the public slots of `BackgroundParser`).

Modelling conventions
* `KUrl`, `QObject*` and `KTextEditor::SmartRange*` are natural numbers
  (identity is all the scheduler uses); `0` is the null `QObject*`.
* C++ `int` members are `Int`; the counters and priorities stay far from the
  machine bounds, so no wrap-around is modelled.
* `QMap<KUrl, DocumentParsePlan>` and the two `QHash` tables are association
  lists with unique keys; `m_documents` is never iterated by the code.
  `m_jobProgress` is iterated by `updateProgressBar`: the order of its list
  stands for the pointer order of the jobs.
* `QMap<int, QSet<KUrl>>` is an association list kept in ascending key order
  (the iteration order of a `QMap`); a `QSet<KUrl>` is a duplicate free list,
  iterated front to back.
* A `ParseJob*` stored in `m_parseJobs` is the `id` of the job object; the job
  objects themselves live in the local batch and then in the weaver queue.
* Everything the file does not contain (language backends, the enum values of
  `TopDUContext::Features`, `BestPriority`, `WorstPriority`, the settings, the
  answer of `ParseJob::addChangedRange`) is a field of `Env`.
* A `float` is the rational it denotes. Every `float` operation of the source
  (addition, multiplication, conversion of an `int`) yields the exact result
  rounded to the nearest IEEE 754 binary32 value, ties to even, as on the
  targets of the program where `float` expressions are evaluated in `float`;
  the conversion of a `float` to the `int` argument of a signal discards the
  fraction. Overflow to infinity does not occur at the sizes of the counters.

The last section of the definitions embeds the loop guard `SafetyCounter` of
`src/kdevplatform/language/duchain/safetycounter.h`.
-/

namespace KDevelop

abbrev KUrl := Nat
abbrev QObjectPtr := Nat
abbrev SmartRange := Nat

/-- The struct `BackgroundParserPrivate::DocumentParsePlan`. -/
structure DocumentParsePlan where
  priority : Int
  features : Nat
  notifyWhenReady : List QObjectPtr
deriving DecidableEq, Repr

/-- The part of a `ParseJob` object the scheduler writes or reads. -/
structure ParseJob where
  id : Nat
  document : KUrl
  minimumFeatures : Nat
  notifyWhenReady : List QObjectPtr
  changedRanges : List SmartRange
deriving DecidableEq, Repr

/-- An `ILanguage`: whether `languageSupport()->createParseJob(url)` is non-null. -/
structure ILanguage where
  createsParseJob : KUrl → Bool

/-- Signals emitted by `BackgroundParser`. -/
inductive Signal where
  | parseJobFinished (job : ParseJob)
  | showProgress (minimum maximum value : Int)
  | hideProgress
deriving DecidableEq, Repr

/-- External collaborators and constants declared outside this file. -/
structure Env where
  BestPriority : Int
  WorstPriority : Int
  VisibleDeclarationsAndContexts : Nat
  AllDeclarationsContextsAndUses : Nat
  languagesForUrl : KUrl → List ILanguage
  addChangedRange : Nat → SmartRange → Bool
  configDelay : Int
  configThreads : Int
  configEnabled : Bool

/-- Members of `BackgroundParserPrivate`, the weaver queue, the posted events
and the log of emitted signals. -/
structure BackgroundParserPrivate where
  m_timerActive : Bool
  m_delay : Int
  m_threads : Int
  m_documents : List (KUrl × DocumentParsePlan)
  m_documentsForPriority : List (Int × List KUrl)
  m_parseJobs : List (KUrl × Nat)
  m_delayedParseJobs : List (KUrl × List SmartRange)
  m_managedRanges : List (SmartRange × KUrl)
  m_weaver : List ParseJob
  m_weaverSuspended : Bool
  m_maxParseJobs : Int
  m_doneParseJobs : Int
  m_jobProgress : List (Nat × Rat)
  m_neededPriority : Int
  nextJobId : Nat
  queuedParseDocuments : Nat
  emitted : List Signal

/-! ## Containers -/

/-- Lookup `QMap::find` / `QHash::value`: the value stored under `k`, if any. -/
def mapFind {β : Type} (m : List (Nat × β)) (k : Nat) : Option β :=
  match m with
  | [] => none
  | (k', v) :: rest => if k' = k then some v else mapFind rest k

/-- Member `contains(k)`. -/
def mapContains {β : Type} (m : List (Nat × β)) (k : Nat) : Bool :=
  (mapFind m k).isSome

/-- Member `remove(k)`. -/
def mapRemove {β : Type} (m : List (Nat × β)) (k : Nat) : List (Nat × β) :=
  m.filter (fun e => decide (e.1 ≠ k))

/-- Members `insert(k, v)` and `m[k] = v`: replaces the value of an existing key. -/
def mapInsert {β : Type} (m : List (Nat × β)) (k : Nat) (v : β) : List (Nat × β) :=
  match m with
  | [] => [(k, v)]
  | (k', v') :: rest => if k' = k then (k, v) :: rest else (k', v') :: mapInsert rest k v

/-- Member `QSet::insert`. -/
def setInsert (b : List KUrl) (url : KUrl) : List KUrl :=
  if url ∈ b then b else b ++ [url]

/-- Member `QSet::remove`. -/
def setRemove (b : List KUrl) (url : KUrl) : List KUrl :=
  b.filter (fun u => decide (u ≠ url))

/-- The bucket stored under priority `p`; empty when the map has no such key. -/
def bucket (m : List (Int × List KUrl)) (p : Int) : List KUrl :=
  match m with
  | [] => []
  | (q, b) :: rest => if q = p then b else bucket rest p

/-- Whether the map has the key `p`. -/
def hasBucket (m : List (Int × List KUrl)) (p : Int) : Bool :=
  m.any (fun e => decide (e.1 = p))

/-- Insertion of a new key at its place in the ascending order. -/
def insertBucket (p : Int) (b : List KUrl) : List (Int × List KUrl) → List (Int × List KUrl)
  | [] => [(p, b)]
  | (q, c) :: rest =>
      if p < q then (p, b) :: (q, c) :: rest else (q, c) :: insertBucket p b rest

/-- Access `m[p]` followed by a member call `f` on the returned reference:
`QMap::operator[]` creates an empty bucket when the key is absent. -/
def modifyBucket (p : Int) (f : List KUrl → List KUrl)
    (m : List (Int × List KUrl)) : List (Int × List KUrl) :=
  if hasBucket m p then m.map (fun e => (e.1, if e.1 = p then f e.2 else e.2))
  else insertBucket p (f []) m

/-! ## 32 bit `float` arithmetic -/

/-- Rounding of a rational to the nearest integer, a tie going to the even
neighbour. -/
def roundHalfEven (x : Rat) : Int :=
  let f : Int := ⌊x⌋
  if x - f < 1 / 2 then f
  else if 1 / 2 < x - f then f + 1
  else if f % 2 = 0 then f else f + 1

/-- The exponent of the spacing of the `float` values around `q`: `e - 23` for
`2^e ≤ |q| < 2^(e+1)` (24 bit significand), and `-149` for subnormal `q`. -/
def floatUlpExponent (q : Rat) : Int :=
  max (Int.log 2 |q|) (-126) - 23

/-- Rounding to the nearest `float` (IEEE 754 binary32, round to nearest, ties
to even): the result of a `float` operation whose exact result is `q`. -/
def roundToFloat (q : Rat) : Rat :=
  if q = 0 then 0
  else (roundHalfEven (q / (2 : Rat) ^ floatUlpExponent q) : Rat)
        * (2 : Rat) ^ floatUlpExponent q

/-- Conversion of a `float` to `int`: the fractional part is discarded. -/
def floatToInt (q : Rat) : Int :=
  Int.tdiv q.num q.den

/-- The third argument of `showProgress` in `updateProgressBar`: the loop
`additionalProgress += *it` over the samples, then the expression
`(additionalProgress + d->m_doneParseJobs)*1000`, in which both `int` operands
are converted to `float`, converted to the `int` parameter of the signal. -/
def progressValue (samples : List Rat) (done : Int) : Int :=
  let additionalProgress : Rat := samples.foldl (fun acc x => roundToFloat (acc + x)) 0
  floatToInt
    (roundToFloat (roundToFloat (additionalProgress + roundToFloat (done : Rat))
      * roundToFloat 1000))

/-! ## BackgroundParserPrivate -/

/-- Function `BackgroundParser::updateProgressBar`. The samples are added in
the order of the list. -/
def updateProgressBar (s : BackgroundParserPrivate) : BackgroundParserPrivate :=
  if s.m_doneParseJobs = s.m_maxParseJobs then
    { s with m_doneParseJobs := 0, m_maxParseJobs := 0 }
  else
    { s with emitted := s.emitted ++
        [Signal.showProgress 0 (s.m_maxParseJobs * 1000)
          (progressValue (s.m_jobProgress.map Prod.snd) s.m_doneParseJobs)] }

/-- Function `BackgroundParserPrivate::createParseJob`: the first language that yields
a job wins; the job is registered under its url and counted. -/
def createParseJob (env : Env) (url : KUrl) (features : Nat)
    (notifyWhenReady : List QObjectPtr) (s : BackgroundParserPrivate) :
    Option ParseJob × BackgroundParserPrivate :=
  match (env.languagesForUrl url).find? (fun l => l.createsParseJob url) with
  | none => (none, s)
  | some _ =>
      let job : ParseJob :=
        { id := s.nextJobId, document := url, minimumFeatures := features,
          notifyWhenReady := notifyWhenReady, changedRanges := [] }
      (some job,
        { s with m_parseJobs := mapInsert s.m_parseJobs url job.id,
                 m_maxParseJobs := s.m_maxParseJobs + 1,
                 nextJobId := s.nextJobId + 1 })

/-- Whether `languagesForUrl(url)` has a language that yields a job. -/
def backendAccepts (env : Env) (url : KUrl) : Bool :=
  ((env.languagesForUrl url).find? (fun l => l.createsParseJob url)).isSome

/-- Body of the first loop of `parseDocumentsInternal` for one entry of
`m_delayedParseJobs`. -/
def createDelayedJob (env : Env) (url : KUrl) (tracker : List SmartRange)
    (s : BackgroundParserPrivate) (jobs : List ParseJob) :
    BackgroundParserPrivate × List ParseJob :=
  let c := createParseJob env url env.AllDeclarationsContextsAndUses [] s
  (c.2,
   match c.1 with
   | some job => jobs ++ [{ job with changedRanges := tracker }]
   | none => jobs)

/-- First loop of `parseDocumentsInternal`: one job for every entry of
`m_delayedParseJobs`, carrying the tracker's changed ranges. -/
def createDelayedJobs (env : Env) :
    List (KUrl × List SmartRange) → BackgroundParserPrivate → List ParseJob →
    BackgroundParserPrivate × List ParseJob
  | [], s, jobs => (s, jobs)
  | (url, tracker) :: rest, s, jobs =>
      let d := createDelayedJob env url tracker s jobs
      createDelayedJobs env rest d.1 d.2

/-- Value `m_documents[url]` read through the non-const `operator[]`: a missing key
yields a default constructed plan. -/
def planOrDefault (env : Env) (s : BackgroundParserPrivate) (url : KUrl) : DocumentParsePlan :=
  match mapFind s.m_documents url with
  | some plan => plan
  | none => { priority := 0, features := env.VisibleDeclarationsAndContexts,
              notifyWhenReady := [] }

/-- The admission test `m_parseJobs.size() + jobs.size() > (m_threads*2)+1`. -/
def capReached (s : BackgroundParserPrivate) (jobs : List ParseJob) : Bool :=
  decide ((s.m_parseJobs.length : Int) + (jobs.length : Int) > s.m_threads * 2 + 1)

/-- Body of the inner loop for a document that is not being parsed: ask for a
job, append it to the batch if there is one, drop the document from
`m_documents` and take back its count. -/
def dispatchDocument (env : Env) (url : KUrl) (s : BackgroundParserPrivate)
    (jobs : List ParseJob) : BackgroundParserPrivate × List ParseJob :=
  let plan := planOrDefault env s url
  let c := createParseJob env url plan.features plan.notifyWhenReady s
  ({ c.2 with m_documents := mapRemove c.2.m_documents url,
              m_maxParseJobs := c.2.m_maxParseJobs - 1 },
   match c.1 with
   | some job => jobs ++ [job]
   | none => jobs)

/-- Inner loop of `parseDocumentsInternal` over one bucket. Returns what is
left of the bucket, the state and the batch. -/
def parseBucket (env : Env) :
    List KUrl → BackgroundParserPrivate → List ParseJob →
    List KUrl × BackgroundParserPrivate × List ParseJob
  | [], s, jobs => ([], s, jobs)
  | url :: rest, s, jobs =>
      if capReached s jobs then (url :: rest, s, jobs)
      else if mapContains s.m_parseJobs url then
        let r := parseBucket env rest s jobs
        (url :: r.1, r.2.1, r.2.2)
      else
        let d := dispatchDocument env url s jobs
        parseBucket env rest d.1 d.2

/-- Outer loop of `parseDocumentsInternal` over the buckets in ascending
priority order; stops at the first priority above `m_neededPriority`. -/
def parseBuckets (env : Env) :
    List (Int × List KUrl) → BackgroundParserPrivate → List ParseJob →
    List (Int × List KUrl) × BackgroundParserPrivate × List ParseJob
  | [], s, jobs => ([], s, jobs)
  | (p, b) :: rest, s, jobs =>
      if p > s.m_neededPriority then ((p, b) :: rest, s, jobs)
      else
        let r := parseBucket env b s jobs
        let r' := parseBuckets env rest r.2.1 r.2.2
        ((p, r.1) :: r'.1, r'.2.1, r'.2.2)

/-- The two loops of `parseDocumentsInternal`: the state before the batch is
enqueued, and the batch `jobs`. -/
def collectJobs (env : Env) (s : BackgroundParserPrivate) :
    BackgroundParserPrivate × List ParseJob :=
  let d := createDelayedJobs env s.m_delayedParseJobs s []
  let s1 := { d.1 with m_delayedParseJobs := [] }
  let r := parseBuckets env s1.m_documentsForPriority s1 d.2
  ({ r.2.1 with m_documentsForPriority := r.1 }, r.2.2)

/-- Function `BackgroundParserPrivate::parseDocumentsInternal`. -/
def parseDocumentsInternal (env : Env) (s : BackgroundParserPrivate) : BackgroundParserPrivate :=
  let c := collectJobs env s
  let s1 := { c.1 with m_weaver := c.1.m_weaver ++ c.2 }
  let s2 := updateProgressBar s1
  if s2.m_doneParseJobs = s2.m_maxParseJobs then
    { s2 with emitted := s2.emitted ++ [Signal.hideProgress] }
  else s2

/-- The batch `jobs` built by one call of `parseDocumentsInternal`. -/
def parseDocumentsBatch (env : Env) (s : BackgroundParserPrivate) : List ParseJob :=
  (collectJobs env s).2

/-- Function `BackgroundParserPrivate::suspend`. -/
def suspendPrivate (s : BackgroundParserPrivate) : BackgroundParserPrivate :=
  if s.m_weaverSuspended then s
  else { s with m_timerActive := false, m_weaverSuspended := true }

/-- Function `BackgroundParserPrivate::resume`. -/
def resumePrivate (s : BackgroundParserPrivate) : BackgroundParserPrivate :=
  if s.m_timerActive && !s.m_weaverSuspended then s
  else { s with m_timerActive := true, m_weaverSuspended := false }

/-- Function `BackgroundParserPrivate::loadSettings`. -/
def loadSettings (env : Env) (s : BackgroundParserPrivate) : BackgroundParserPrivate :=
  let s1 := { s with m_delay := env.configDelay, m_threads := env.configThreads }
  if env.configEnabled then resumePrivate s1 else suspendPrivate s1

/-- The constructor of `BackgroundParserPrivate`. -/
def initial (env : Env) : BackgroundParserPrivate :=
  loadSettings env
    { m_timerActive := false, m_delay := 500, m_threads := 1,
      m_documents := [], m_documentsForPriority := [], m_parseJobs := [],
      m_delayedParseJobs := [], m_managedRanges := [], m_weaver := [],
      m_weaverSuspended := false, m_maxParseJobs := 0, m_doneParseJobs := 0,
      m_jobProgress := [], m_neededPriority := env.WorstPriority,
      nextJobId := 0, queuedParseDocuments := 0, emitted := [] }

/-! ## BackgroundParser -/

/-- Statement `if (!d->m_timer.isActive()) d->m_timer.start();`. -/
def startTimer (s : BackgroundParserPrivate) : BackgroundParserPrivate :=
  if !s.m_timerActive then { s with m_timerActive := true } else s

/-- The plan `addDocument` stores for a url that is already in `m_documents`. -/
def mergePlan (stored : DocumentParsePlan) (features : Nat) (priority : Int)
    (notifyWhenReady : QObjectPtr) : DocumentParsePlan :=
  let plan : DocumentParsePlan :=
    { priority := priority, features := features, notifyWhenReady := [notifyWhenReady] }
  let plan := if stored.priority < plan.priority then
      { plan with priority := stored.priority } else plan
  let plan := if stored.features > plan.features then
      { plan with features := stored.features } else plan
  { plan with notifyWhenReady := plan.notifyWhenReady ++ stored.notifyWhenReady }

/-- Function `BackgroundParser::addDocument`. -/
def addDocument (url : KUrl) (features : Nat) (priority : Int) (notifyWhenReady : QObjectPtr)
    (s : BackgroundParserPrivate) : BackgroundParserPrivate :=
  startTimer
    (match mapFind s.m_documents url with
     | some stored =>
        { s with
          m_documentsForPriority :=
            modifyBucket priority (fun b => setInsert b url)
              (modifyBucket stored.priority (fun b => setRemove b url)
                s.m_documentsForPriority),
          m_documents :=
            mapInsert s.m_documents url (mergePlan stored features priority notifyWhenReady) }
     | none =>
        { s with
          m_documents := mapInsert s.m_documents url
            { priority := priority, features := features,
              notifyWhenReady := [notifyWhenReady] },
          m_documentsForPriority :=
            modifyBucket priority (fun b => setInsert b url) s.m_documentsForPriority,
          m_maxParseJobs := s.m_maxParseJobs + 1 })

/-- Function `BackgroundParser::addDocumentList` (the listener defaults to null). -/
def addDocumentList (urls : List KUrl) (features : Nat) (priority : Int)
    (s : BackgroundParserPrivate) : BackgroundParserPrivate :=
  urls.foldl (fun acc url => addDocument url features priority 0 acc) s

/-- Function `BackgroundParser::removeDocument`. -/
def removeDocument (url : KUrl) (s : BackgroundParserPrivate) : BackgroundParserPrivate :=
  match mapFind s.m_documents url with
  | some stored =>
      { s with
        m_documentsForPriority :=
          modifyBucket stored.priority (fun b => setRemove b url) s.m_documentsForPriority,
        m_documents := mapRemove s.m_documents url,
        m_maxParseJobs := s.m_maxParseJobs - 1 }
  | none => s

/-- Function `BackgroundParser::parseDocuments`. -/
def parseDocuments (env : Env) (s : BackgroundParserPrivate) : BackgroundParserPrivate :=
  parseDocumentsInternal env s

/-- The single shot timer fires: it is inactive afterwards and its slot
`parseDocuments` runs. -/
def timeout (env : Env) (s : BackgroundParserPrivate) : BackgroundParserPrivate :=
  parseDocuments env { s with m_timerActive := false }

/-- Function `BackgroundParser::parseComplete` for a `ParseJob`. -/
def parseComplete (job : ParseJob) (s : BackgroundParserPrivate) : BackgroundParserPrivate :=
  let s1 := { s with
    emitted := s.emitted ++ [Signal.parseJobFinished job],
    m_parseJobs := mapRemove s.m_parseJobs job.document,
    m_jobProgress := mapRemove s.m_jobProgress job.id,
    m_weaver := s.m_weaver.filter (fun j => decide (j.id ≠ job.id)),
    m_doneParseJobs := s.m_doneParseJobs + 1 }
  let s2 := updateProgressBar s1
  { s2 with queuedParseDocuments := s2.queuedParseDocuments + 1 }

/-- Function `BackgroundParser::parseProgress`. The parameter `value` is a
`float`: the number passed is rounded to one. -/
def parseProgress (job : Nat) (value : Rat) (s : BackgroundParserPrivate) :
    BackgroundParserPrivate :=
  updateProgressBar
    { s with m_jobProgress := mapInsert s.m_jobProgress job (roundToFloat value) }

/-- Function `BackgroundParser::setNeededPriority`. -/
def setNeededPriority (priority : Int) (s : BackgroundParserPrivate) : BackgroundParserPrivate :=
  startTimer { s with m_neededPriority := priority }

/-- Function `BackgroundParser::disableProcessing`. -/
def disableProcessing (env : Env) (s : BackgroundParserPrivate) : BackgroundParserPrivate :=
  setNeededPriority env.BestPriority s

/-- Function `BackgroundParser::enableProcessing`. -/
def enableProcessing (env : Env) (s : BackgroundParserPrivate) : BackgroundParserPrivate :=
  setNeededPriority env.WorstPriority s

/-- Function `BackgroundParser::suspend`. -/
def suspend (s : BackgroundParserPrivate) : BackgroundParserPrivate :=
  let s1 := suspendPrivate s
  { s1 with emitted := s1.emitted ++ [Signal.hideProgress] }

/-- Function `BackgroundParser::resume`. -/
def resume (s : BackgroundParserPrivate) : BackgroundParserPrivate :=
  updateProgressBar (resumePrivate s)

/-- Function `BackgroundParser::parseJobForDocument`. -/
def parseJobForDocument (s : BackgroundParserPrivate) (document : KUrl) : Option Nat :=
  if mapContains s.m_parseJobs document then mapFind s.m_parseJobs document else none

/-- Function `BackgroundParser::setThreadCount`. -/
def setThreadCount (threadCount : Int) (s : BackgroundParserPrivate) : BackgroundParserPrivate :=
  if s.m_threads ≠ threadCount then { s with m_threads := threadCount } else s

/-- Function `BackgroundParser::setDelay`. -/
def setDelay (miliseconds : Int) (s : BackgroundParserPrivate) : BackgroundParserPrivate :=
  if s.m_delay ≠ miliseconds then { s with m_delay := miliseconds } else s

/-- Modelled from the spec: `DocumentChangeTracker::addChangedRange` is not in
this file; section 4.2 says a tracker accumulates edit ranges by set union. -/
def trackerAdd (tracker : List SmartRange) (range : SmartRange) : List SmartRange :=
  if range ∈ tracker then tracker else tracker ++ [range]

/-- Function `BackgroundParser::rangeContentsChanged`; `documentUrl` is
`range->document()->url()`. -/
def rangeContentsChanged (env : Env) (documentUrl : KUrl) (mostSpecificChild : SmartRange)
    (s : BackgroundParserPrivate) : BackgroundParserPrivate :=
  let accepted : Bool :=
    match mapFind s.m_parseJobs documentUrl with
    | some job => env.addChangedRange job mostSpecificChild
    | none => false
  if accepted then s
  else
    let tracker : List SmartRange :=
      match mapFind s.m_delayedParseJobs documentUrl with
      | some t => t
      | none => []
    startTimer
      { s with m_delayedParseJobs :=
          mapInsert s.m_delayedParseJobs documentUrl (trackerAdd tracker mostSpecificChild) }

/-! ## Operations and reachable states -/

/-- The calls that drive the scheduler. -/
inductive Op where
  | addDocument (url : KUrl) (features : Nat) (priority : Int) (notifyWhenReady : QObjectPtr)
  | removeDocument (url : KUrl)
  | rangeContentsChanged (documentUrl : KUrl) (mostSpecificChild : SmartRange)
  | setNeededPriority (priority : Int)
  | disableProcessing
  | enableProcessing
  | parseDocuments
  | timeout
  | parseComplete (job : ParseJob)
  | parseProgress (job : Nat) (value : Rat)
  | suspend
  | resume
  | setThreadCount (threadCount : Int)
  | setDelay (miliseconds : Int)

/-- The effect of one call. -/
def Op.apply (env : Env) : Op → BackgroundParserPrivate → BackgroundParserPrivate
  | Op.addDocument url features priority notifyWhenReady =>
      KDevelop.addDocument url features priority notifyWhenReady
  | Op.removeDocument url => KDevelop.removeDocument url
  | Op.rangeContentsChanged documentUrl mostSpecificChild =>
      KDevelop.rangeContentsChanged env documentUrl mostSpecificChild
  | Op.setNeededPriority priority => KDevelop.setNeededPriority priority
  | Op.disableProcessing => KDevelop.disableProcessing env
  | Op.enableProcessing => KDevelop.enableProcessing env
  | Op.parseDocuments => KDevelop.parseDocuments env
  | Op.timeout => KDevelop.timeout env
  | Op.parseComplete job => KDevelop.parseComplete job
  | Op.parseProgress job value => KDevelop.parseProgress job value
  | Op.suspend => KDevelop.suspend
  | Op.resume => KDevelop.resume
  | Op.setThreadCount threadCount => KDevelop.setThreadCount threadCount
  | Op.setDelay miliseconds => KDevelop.setDelay miliseconds

/-- States reachable from the constructor by calls that `allowed` admits in
the state they are made in. -/
inductive ReachableBy (env : Env) (allowed : BackgroundParserPrivate → Op → Prop) :
    BackgroundParserPrivate → Prop
  | init : ReachableBy env allowed (initial env)
  | step (s : BackgroundParserPrivate) (op : Op) :
      ReachableBy env allowed s → allowed s op → ReachableBy env allowed (op.apply env s)

/-- The scheduler operations add, remove, notifyEdit, tick and completion of a
job that was enqueued and has not completed yet. -/
def schedulerOp (s : BackgroundParserPrivate) : Op → Prop
  | Op.addDocument _ _ _ _ => True
  | Op.removeDocument _ => True
  | Op.rangeContentsChanged _ _ => True
  | Op.parseDocuments => True
  | Op.timeout => True
  | Op.parseComplete job => job ∈ s.m_weaver
  | _ => False

/-- The scheduler operations and `setNeededPriority`. -/
def schedulerOrFloorOp (s : BackgroundParserPrivate) : Op → Prop
  | Op.setNeededPriority _ => True
  | op => schedulerOp s op

/-- Runs `n` consecutive calls of `parseDocuments`. -/
def parseDocumentsTimes (env : Env) : Nat → BackgroundParserPrivate → BackgroundParserPrivate
  | 0, s => s
  | n + 1, s => parseDocumentsTimes env n (parseDocuments env s)

/-! ## Concrete environments and states used in the examples -/

/-- An environment whose single language accepts every url and whose jobs
refuse `addChangedRange`; the enum values are those of the KDevelop headers. -/
def acceptAll : Env :=
  { BestPriority := -10000, WorstPriority := 100000,
    VisibleDeclarationsAndContexts := 1, AllDeclarationsContextsAndUses := 7,
    languagesForUrl := fun _ => [{ createsParseJob := fun _ => true }],
    addChangedRange := fun _ _ => false,
    configDelay := 500, configThreads := 1, configEnabled := true }

/-- As `acceptAll`, with no language for any url. -/
def declineAll : Env :=
  { acceptAll with languagesForUrl := fun _ => [] }

/-- One pending document: `add(7, f=1, p=1)` on the fresh scheduler. -/
def onePending (env : Env) : BackgroundParserPrivate :=
  addDocument 7 1 1 0 (initial env)

/-- The document of `onePending` added again with the worse priority 5. -/
def readded (env : Env) : BackgroundParserPrivate :=
  addDocument 7 1 5 0 (onePending env)

/-- The document of `readded` removed again. -/
def readdedRemoved (env : Env) : BackgroundParserPrivate :=
  removeDocument 7 (readded env)

/-- Document 7 is being parsed: `add(7); tick`. -/
def oneRunning : BackgroundParserPrivate :=
  parseDocuments acceptAll (onePending acceptAll)

/-- The job created by the tick of `oneRunning`. -/
def firstJob : ParseJob :=
  { id := 0, document := 7, minimumFeatures := 1, notifyWhenReady := [0], changedRanges := [] }

/-- The job a tick creates for document 7 in `readdedRemoved acceptAll`. -/
def staleJob : ParseJob :=
  { id := 0, document := 7, minimumFeatures := 1, notifyWhenReady := [], changedRanges := [] }

/-- An edit of document 7 arrives while it is parsed and the job refuses it. -/
def editedWhileRunning : BackgroundParserPrivate :=
  rangeContentsChanged acceptAll 7 33 oneRunning

/-- Two pending documents, 7 and 8, on a scheduler with one thread. -/
def twoPending : BackgroundParserPrivate :=
  addDocument 8 1 0 0 (addDocument 7 1 0 0 (initial acceptAll))

/-- Four pending documents 7, 8, 9, 10 with priorities 0, 1, 2, 3. -/
def fourPending : BackgroundParserPrivate :=
  addDocument 10 1 3 0 (addDocument 9 1 2 0 (addDocument 8 1 1 0
    (addDocument 7 1 0 0 (initial acceptAll))))

/-- Scenario 4 of the spec: `add(A=7, p=10); add(B=8, p=1)`. -/
def scenarioFour : BackgroundParserPrivate :=
  addDocument 8 1 1 0 (addDocument 7 1 10 0 (initial acceptAll))

/-- The scheduler operations, with a document added only while it is neither
being parsed nor has a recorded edit, and an edit notified only for a document
that is not pending. -/
def disjointOp (s : BackgroundParserPrivate) : Op → Prop
  | Op.addDocument url _ _ _ =>
      mapContains s.m_parseJobs url = false ∧ mapContains s.m_delayedParseJobs url = false
  | Op.rangeContentsChanged documentUrl _ => mapContains s.m_documents documentUrl = false
  | op => schedulerOp s op

/-- The scheduler operations without notifyEdit. -/
def uneditedOp (s : BackgroundParserPrivate) : Op → Prop
  | Op.rangeContentsChanged _ _ => False
  | op => schedulerOp s op

/-- An edit of document 7 recorded on the fresh scheduler, where 7 is neither
pending nor being parsed. -/
def strayEdit : BackgroundParserPrivate :=
  rangeContentsChanged acceptAll 7 33 (initial acceptAll)

/-- Document 7 pending with a recorded edit: `add(7); notifyEdit(7)`. -/
def pendingEdited : BackgroundParserPrivate :=
  rangeContentsChanged acceptAll 7 33 (onePending acceptAll)

/-- Three running documents on a scheduler with one thread:
`add(7); add(8); tick; add(9); add(10); tick`. -/
def threeRunning : BackgroundParserPrivate :=
  parseDocuments acceptAll (addDocument 10 1 0 0 (addDocument 9 1 0 0
    (parseDocuments acceptAll twoPending)))

/-- Scenario 5 of the spec, first half: `add(A, f, 0); disableProcessing()`
on the fresh scheduler. -/
def disabledScenario (env : Env) (A : KUrl) (f : Nat) (l : QObjectPtr) :
    BackgroundParserPrivate :=
  disableProcessing env (addDocument A f 0 l (initial env))

/-- Scenario 5 of the spec, second half: after the tick of the disabled
scheduler, `enableProcessing()`. -/
def enabledScenario (env : Env) (A : KUrl) (f : Nat) (l : QObjectPtr) :
    BackgroundParserPrivate :=
  enableProcessing env (parseDocuments env (disabledScenario env A f l))

/-- Scenario 3 of the spec up to the start of the parse: `add(A, f, 0); tick`
on the fresh scheduler. -/
def runningScenario (env : Env) (A : KUrl) (f : Nat) (l : QObjectPtr) :
    BackgroundParserPrivate :=
  parseDocuments env (addDocument A f 0 l (initial env))

/-- The job the tick of `runningScenario` creates. -/
def runningJob (A : KUrl) (f : Nat) (l : QObjectPtr) : ParseJob :=
  { id := 0, document := A, minimumFeatures := f, notifyWhenReady := [l], changedRanges := [] }

/-- Scenario 3 of the spec: `add(A, full, 0); tick; notifyEdit(A, r1);
notifyEdit(A, r2); completion of the job of A`. -/
def editScenario (env : Env) (A : KUrl) (l : QObjectPtr) (r1 r2 : SmartRange) :
    BackgroundParserPrivate :=
  parseComplete (runningJob A env.AllDeclarationsContextsAndUses l)
    (rangeContentsChanged env A r2
      (rangeContentsChanged env A r1
        (runningScenario env A env.AllDeclarationsContextsAndUses l)))

/-- Document 7 added again while its job is running: `add(7); tick; add(7)`. -/
def pendingWhileRunning : BackgroundParserPrivate :=
  addDocument 7 1 1 0 oneRunning

/-! ## SafetyCounter (`src/kdevplatform/language/duchain/safetycounter.h`) -/

/-- The struct `SafetyCounter`; the constructor argument defaults to 40000. -/
structure SafetyCounter where
  safetyCounter : Int := 0
  maxSafetyCounter : Int := 40000
deriving DecidableEq, Repr

/-- Member `SafetyCounter::init`. -/
def SafetyCounter.init (c : SafetyCounter) : SafetyCounter :=
  { c with safetyCounter := 0 }

/-- Member `SafetyCounter::operator++`. -/
def SafetyCounter.increment (c : SafetyCounter) : SafetyCounter :=
  { c with safetyCounter := c.safetyCounter + 1 }

/-- Member `SafetyCounter::ok`: the returned value; the member is `const`. -/
def SafetyCounter.ok (c : SafetyCounter) : Bool :=
  decide (c.safetyCounter < c.maxSafetyCounter)

/-- Member `SafetyCounter::operator bool`: the returned value and the counter
after the call (the branch under `!ret` only logs). -/
def SafetyCounter.toBool (c : SafetyCounter) : Bool × SafetyCounter :=
  let c1 : SafetyCounter := { c with safetyCounter := c.safetyCounter + 1 }
  let ret : Bool := decide (c1.safetyCounter < c1.maxSafetyCounter)
  (ret, c1)

/-- The counter after `i` successive evaluations of `operator bool`. -/
def SafetyCounter.evaluations : Nat → SafetyCounter → SafetyCounter
  | 0, c => c
  | i + 1, c => SafetyCounter.evaluations i c.toBool.2

/-- The largest value of a 32 bit `int`. -/
def INT_MAX : Int := 2147483647

/-- The calls add, notifyEdit, setNeededPriority, suspend and resume. -/
def controlOp (_s : BackgroundParserPrivate) : Op → Prop
  | Op.addDocument _ _ _ _ => True
  | Op.rangeContentsChanged _ _ => True
  | Op.setNeededPriority _ => True
  | Op.suspend => True
  | Op.resume => True
  | _ => False

/-- A document added to a suspended scheduler: `suspend(); add(7, f=1, p=0)`. -/
def addedWhileSuspended : BackgroundParserPrivate :=
  addDocument 7 1 0 0 (suspend (initial acceptAll))

/-- The spec's reading of `addAll(keys, features, priority)`: one
`add(k, features, priority)` without listener for each key, in list order. -/
def addAllSpec : List KUrl → Nat → Int → BackgroundParserPrivate → BackgroundParserPrivate
  | [], _, _, s => s
  | k :: keys, features, priority, s =>
      addAllSpec keys features priority (addDocument k features priority 0 s)

/-- The tick after the refused edit of document 7: `add(7); tick;
notifyEdit(7); tick`. -/
def overwritten : BackgroundParserPrivate :=
  parseDocuments acceptAll editedWhileRunning

/-- The first job of document 7 completes while the second is in flight. -/
def orphaned : BackgroundParserPrivate :=
  parseComplete firstJob overwritten

/-- The job the second tick creates for document 7 from the delayed table. -/
def secondJob : ParseJob :=
  { id := 1, document := 7, minimumFeatures := 7, notifyWhenReady := [],
    changedRanges := [33] }

/-- Three running documents and a pending one on one thread, then edits of the
documents 20 and 21 and `disableProcessing()`. -/
def delayedBurst : BackgroundParserPrivate :=
  disableProcessing acceptAll
    (rangeContentsChanged acceptAll 21 34 (rangeContentsChanged acceptAll 20 33 threeRunning))

/-- Scenario 1 of the spec: `add(A, f, 0); tick; completion of the job of A`
on the fresh scheduler. -/
def finishedScenario (env : Env) (A : KUrl) (f : Nat) (l : QObjectPtr) :
    BackgroundParserPrivate :=
  parseComplete (runningJob A f l) (runningScenario env A f l)

/-- A sequence of `addDocument` calls, one for each entry
`(url, features, priority, notifyWhenReady)` of the list, in order. -/
def addDocuments (adds : List (KUrl × Nat × Int × QObjectPtr)) (s : BackgroundParserPrivate) :
    BackgroundParserPrivate :=
  adds.foldl (fun acc a => addDocument a.1 a.2.1 a.2.2.1 a.2.2.2 acc) s

/-- The documents of all buckets in the order the outer and inner loop of
`parseDocumentsInternal` visit them. -/
def pendingUrls : List (Int × List KUrl) → List KUrl
  | [] => []
  | (_, b) :: rest => b ++ pendingUrls rest

/-- An idle scheduler with `t` threads and floor `floor` in which exactly the
documents `keys` are pending: each is in `m_documents` and in one bucket at or
below the floor, and nothing is being parsed or delayed. -/
def IdleWith (keys : List KUrl) (floor : Int) (t : Int) (s : BackgroundParserPrivate) : Prop :=
  s.m_documents.map Prod.fst = keys ∧
  (pendingUrls s.m_documentsForPriority).Perm keys ∧
  (s.m_documentsForPriority.map Prod.fst).Nodup ∧
  (∀ e ∈ s.m_documentsForPriority, e.1 ≤ floor) ∧
  s.m_parseJobs = [] ∧ s.m_delayedParseJobs = [] ∧
  s.m_threads = t ∧ s.m_neededPriority = floor

/-- Every call except `addDocument` for `k` and `rangeContentsChanged` for a
range of `k`: `k` is neither added again nor edited. -/
def notAddedOrEditedOp (k : KUrl) (_s : BackgroundParserPrivate) : Op → Prop
  | Op.addDocument url _ _ _ => url ≠ k
  | Op.rangeContentsChanged documentUrl _ => documentUrl ≠ k
  | _ => True

/-- States reached from the state `origin` by calls that `allowed` admits in
the state they are made in. -/
inductive ReachableFrom (env : Env) (allowed : BackgroundParserPrivate → Op → Prop)
    (origin : BackgroundParserPrivate) : BackgroundParserPrivate → Prop
  | refl : ReachableFrom env allowed origin origin
  | step (s : BackgroundParserPrivate) (op : Op) :
      ReachableFrom env allowed origin s → allowed s op →
      ReachableFrom env allowed origin (op.apply env s)

theorem mapFind_mapInsert {β : Type} (m : List (Nat × β)) (k k' : Nat) (v : β) :
    mapFind (mapInsert m k v) k' = if k' = k then some v else mapFind m k' := by
  induction m with
  | nil =>
    by_cases h : k = k'
    · subst h; simp [mapInsert, mapFind]
    · have h' : ¬ k' = k := fun e => h e.symm
      simp [mapInsert, mapFind, h, h']
  | cons e rest ih =>
    obtain ⟨a, b⟩ := e
    by_cases h1 : a = k
    · subst h1
      by_cases h2 : a = k'
      · subst h2; simp [mapInsert, mapFind]
      · have h3 : ¬ k' = a := fun e => h2 e.symm
        simp [mapInsert, mapFind, h2, h3]
    · by_cases h2 : a = k'
      · subst h2
        simp [mapInsert, mapFind, h1]
      · simp [mapInsert, mapFind, h1, h2, ih]

theorem mapFind_mapRemove {β : Type} (m : List (Nat × β)) (k k' : Nat) :
    mapFind (mapRemove m k) k' = if k' = k then none else mapFind m k' := by
  induction m with
  | nil => simp [mapRemove, mapFind]
  | cons e rest ih =>
    obtain ⟨a, b⟩ := e
    have hcons : mapRemove ((a, b) :: rest) k
        = if a = k then mapRemove rest k else (a, b) :: mapRemove rest k := by
      by_cases h : a = k <;> simp [mapRemove, List.filter_cons, h]
    rw [hcons]
    by_cases h1 : a = k
    · subst h1
      by_cases h2 : a = k'
      · subst h2; simp [ih]
      · have h3 : ¬ k' = a := fun e => h2 e.symm
        simp [ih, mapFind, h2, h3]
    · by_cases h2 : a = k'
      · subst h2
        simp [mapFind, h1]
      · simp [mapFind, h1, h2, ih]

theorem mem_setInsert (b : List KUrl) (url u : KUrl) :
    u ∈ setInsert b url ↔ u ∈ b ∨ u = url := by
  unfold setInsert
  by_cases h : url ∈ b
  · simp only [h, if_true]
    constructor
    · intro hu; exact Or.inl hu
    · rintro (hu | hu)
      · exact hu
      · rw [hu]; exact h
  · simp [h]

theorem mem_setRemove (b : List KUrl) (url u : KUrl) :
    u ∈ setRemove b url ↔ u ∈ b ∧ u ≠ url := by
  simp [setRemove]

theorem hasBucket_cons (q : Int) (c : List KUrl) (rest : List (Int × List KUrl)) (p : Int) :
    hasBucket ((q, c) :: rest) p = (decide (q = p) || hasBucket rest p) := by
  simp [hasBucket]

theorem bucket_eq_nil_of_hasBucket_false (m : List (Int × List KUrl)) (p : Int)
    (h : hasBucket m p = false) : bucket m p = [] := by
  induction m with
  | nil => rfl
  | cons e rest ih =>
    obtain ⟨q, c⟩ := e
    rw [hasBucket_cons] at h
    simp only [Bool.or_eq_false_iff, decide_eq_false_iff_not] at h
    simp only [bucket, h.1, if_false]
    exact ih h.2

theorem bucket_insertBucket (m : List (Int × List KUrl)) (p q : Int) (b : List KUrl)
    (h : hasBucket m p = false) :
    bucket (insertBucket p b m) q = if q = p then b else bucket m q := by
  induction m with
  | nil =>
    by_cases hq : p = q
    · subst hq; simp [insertBucket, bucket]
    · have hq' : ¬ q = p := fun e => hq e.symm
      simp [insertBucket, bucket, hq, hq']
  | cons e rest ih =>
    obtain ⟨r, c⟩ := e
    rw [hasBucket_cons] at h
    simp only [Bool.or_eq_false_iff, decide_eq_false_iff_not] at h
    obtain ⟨hr, hrest⟩ := h
    by_cases hlt : p < r
    · by_cases hq : p = q
      · subst hq; simp [insertBucket, bucket, hlt]
      · have hq' : ¬ q = p := fun e => hq e.symm
        simp [insertBucket, bucket, hlt, hq, hq']
    · by_cases hrq : r = q
      · subst hrq
        simp [insertBucket, bucket, hlt, hr]
      · simp [insertBucket, bucket, hlt, hrq, ih hrest]

theorem bucket_map_modify (m : List (Int × List KUrl)) (p q : Int)
    (f : List KUrl → List KUrl) :
    bucket (m.map (fun e => (e.1, if e.1 = p then f e.2 else e.2))) q
      = if q = p then (if hasBucket m p then f (bucket m p) else []) else bucket m q := by
  induction m with
  | nil => simp [bucket, hasBucket]
  | cons e rest ih =>
    obtain ⟨r, c⟩ := e
    rw [hasBucket_cons]
    by_cases hrq : r = q
    · subst hrq
      by_cases hr : r = p
      · subst hr; simp [bucket]
      · simp [bucket, hr]
    · by_cases hq : q = p
      · subst hq
        simp only [List.map, bucket, hrq, if_false, ih, if_true, decide_False, Bool.false_or]
      · simp only [List.map, bucket, hrq, if_false, ih, hq]

theorem bucket_modifyBucket (m : List (Int × List KUrl)) (p q : Int)
    (f : List KUrl → List KUrl) :
    bucket (modifyBucket p f m) q = if q = p then f (bucket m p) else bucket m q := by
  unfold modifyBucket
  by_cases h : hasBucket m p = true
  · simp only [h, if_true]
    rw [bucket_map_modify]
    simp [h]
  · have h' : hasBucket m p = false := by simpa using h
    simp only [h', Bool.false_eq_true, if_false]
    rw [bucket_insertBucket m p q _ h', bucket_eq_nil_of_hasBucket_false m p h']

/-! ## addDocument and removeDocument -/

theorem startTimer_documents (s : BackgroundParserPrivate) :
    (startTimer s).m_documents = s.m_documents := by
  unfold startTimer; split <;> rfl

theorem startTimer_buckets (s : BackgroundParserPrivate) :
    (startTimer s).m_documentsForPriority = s.m_documentsForPriority := by
  unfold startTimer; split <;> rfl

theorem startTimer_maxParseJobs (s : BackgroundParserPrivate) :
    (startTimer s).m_maxParseJobs = s.m_maxParseJobs := by
  unfold startTimer; split <;> rfl

theorem startTimer_timerActive (s : BackgroundParserPrivate) :
    (startTimer s).m_timerActive = true := by
  unfold startTimer
  cases h : s.m_timerActive <;> simp [h]

theorem mergePlan_priority (stored : DocumentParsePlan) (f : Nat) (p : Int) (l : QObjectPtr) :
    (mergePlan stored f p l).priority = min stored.priority p := by
  unfold mergePlan
  by_cases h1 : stored.priority < p
  · by_cases h2 : stored.features > f <;> simp [h1, h2, min_eq_left (le_of_lt h1)]
  · have h3 : p ≤ stored.priority := not_lt.mp h1
    by_cases h2 : stored.features > f <;> simp [h1, h2, min_eq_right h3]

theorem mergePlan_features (stored : DocumentParsePlan) (f : Nat) (p : Int) (l : QObjectPtr) :
    (mergePlan stored f p l).features = max stored.features f := by
  unfold mergePlan
  by_cases h2 : stored.features > f
  · by_cases h1 : stored.priority < p <;> simp [h1, h2, max_eq_left (le_of_lt h2)]
  · have h3 : stored.features ≤ f := not_lt.mp h2
    by_cases h1 : stored.priority < p <;> simp [h1, h2, max_eq_right h3]

theorem mergePlan_notifyWhenReady (stored : DocumentParsePlan) (f : Nat) (p : Int)
    (l : QObjectPtr) :
    (mergePlan stored f p l).notifyWhenReady = l :: stored.notifyWhenReady := by
  unfold mergePlan
  by_cases h1 : stored.priority < p <;> by_cases h2 : stored.features > f <;> simp [h1, h2]

theorem addDocument_documents_some (s : BackgroundParserPrivate) (k : KUrl) (f : Nat) (p : Int)
    (l : QObjectPtr) (stored : DocumentParsePlan) (h : mapFind s.m_documents k = some stored) :
    (addDocument k f p l s).m_documents = mapInsert s.m_documents k (mergePlan stored f p l) := by
  unfold addDocument
  rw [startTimer_documents, h]

theorem addDocument_documents_none (s : BackgroundParserPrivate) (k : KUrl) (f : Nat) (p : Int)
    (l : QObjectPtr) (h : mapFind s.m_documents k = none) :
    (addDocument k f p l s).m_documents
      = mapInsert s.m_documents k { priority := p, features := f, notifyWhenReady := [l] } := by
  unfold addDocument
  rw [startTimer_documents, h]

theorem addDocument_find_other (s : BackgroundParserPrivate) (k : KUrl) (f : Nat) (p : Int)
    (l : QObjectPtr) (k' : KUrl) (h : k' ≠ k) :
    mapFind (addDocument k f p l s).m_documents k' = mapFind s.m_documents k' := by
  cases hs : mapFind s.m_documents k with
  | none => rw [addDocument_documents_none s k f p l hs, mapFind_mapInsert]; simp [h]
  | some stored => rw [addDocument_documents_some s k f p l stored hs, mapFind_mapInsert]; simp [h]

theorem filter_key_mapInsert_absent {β : Type} (m : List (Nat × β)) (k : Nat) (v : β)
    (h : mapFind m k = none) :
    (mapInsert m k v).filter (fun e => decide (e.1 = k)) = [(k, v)] := by
  induction m with
  | nil => simp [mapInsert]
  | cons e rest ih =>
    obtain ⟨a, b⟩ := e
    by_cases ha : a = k
    · simp [mapFind, ha] at h
    · simp only [mapFind, ha, if_false] at h
      simp [mapInsert, List.filter_cons, ha, ih h]

theorem filter_key_mapInsert_length {β : Type} (m : List (Nat × β)) (k : Nat) (v w : β)
    (h : mapFind m k = some w) :
    ((mapInsert m k v).filter (fun e => decide (e.1 = k))).length
      = (m.filter (fun e => decide (e.1 = k))).length := by
  induction m with
  | nil => simp [mapFind] at h
  | cons e rest ih =>
    obtain ⟨a, b⟩ := e
    by_cases ha : a = k
    · simp [mapInsert, List.filter_cons, ha]
    · simp only [mapFind, ha, if_false] at h
      simp [mapInsert, List.filter_cons, ha, ih h]

/-- C1: upgrade-only merge. If `k` is pending with plan `stored`, then after
`addDocument k f p l` its plan has priority `min stored.priority p`, features
`max stored.features f` and a listener list whose members are those of the
stored list plus `l`; if `k` was not pending the plan is `(p, f, [l])`; no other
key's plan changes; two adds from a state without `k` leave one entry for `k`
with priority `min p p2` and features `max f f2`; and no stored feature level
is lowered by an add. -/
theorem addDocument_upgrade_only_merge (s : BackgroundParserPrivate) (k : KUrl) (f : Nat)
    (p : Int) (l : QObjectPtr) :
    (∀ stored, mapFind s.m_documents k = some stored →
      ∃ plan, mapFind (addDocument k f p l s).m_documents k = some plan ∧
        plan.priority = min stored.priority p ∧
        plan.features = max stored.features f ∧
        (∀ x, x ∈ plan.notifyWhenReady ↔ x ∈ stored.notifyWhenReady ∨ x = l)) ∧
    (mapFind s.m_documents k = none →
      mapFind (addDocument k f p l s).m_documents k
        = some { priority := p, features := f, notifyWhenReady := [l] }) ∧
    (∀ k', k' ≠ k →
      mapFind (addDocument k f p l s).m_documents k' = mapFind s.m_documents k') ∧
    (mapFind s.m_documents k = none → ∀ (f2 : Nat) (p2 : Int) (l2 : QObjectPtr),
      (∃ plan, mapFind (addDocument k f2 p2 l2 (addDocument k f p l s)).m_documents k
          = some plan ∧ plan.priority = min p p2 ∧ plan.features = max f f2) ∧
      ((addDocument k f2 p2 l2 (addDocument k f p l s)).m_documents.filter
          (fun e => decide (e.1 = k))).length = 1) ∧
    (∀ k' stored, mapFind s.m_documents k' = some stored →
      ∃ plan, mapFind (addDocument k f p l s).m_documents k' = some plan ∧
        stored.features ≤ plan.features) := by
  have hsome : ∀ stored, mapFind s.m_documents k = some stored →
      mapFind (addDocument k f p l s).m_documents k = some (mergePlan stored f p l) := by
    intro stored h
    rw [addDocument_documents_some s k f p l stored h, mapFind_mapInsert]; simp
  have hnone : mapFind s.m_documents k = none →
      mapFind (addDocument k f p l s).m_documents k
        = some { priority := p, features := f, notifyWhenReady := [l] } := by
    intro h
    rw [addDocument_documents_none s k f p l h, mapFind_mapInsert]; simp
  refine ⟨?_, hnone, addDocument_find_other s k f p l, ?_, ?_⟩
  · intro stored h
    refine ⟨mergePlan stored f p l, hsome stored h, mergePlan_priority _ _ _ _,
      mergePlan_features _ _ _ _, ?_⟩
    intro x
    rw [mergePlan_notifyWhenReady]
    simp only [List.mem_cons]
    exact Or.comm
  · intro h f2 p2 l2
    have h1 := hnone h
    constructor
    · refine ⟨mergePlan { priority := p, features := f, notifyWhenReady := [l] } f2 p2 l2, ?_,
        mergePlan_priority _ _ _ _, mergePlan_features _ _ _ _⟩
      rw [addDocument_documents_some _ k f2 p2 l2 _ h1, mapFind_mapInsert]; simp
    · rw [addDocument_documents_some _ k f2 p2 l2 _ h1,
        filter_key_mapInsert_length _ k _ _ h1, addDocument_documents_none s k f p l h,
        filter_key_mapInsert_absent _ k _ h]
      rfl
  · intro k' stored h
    by_cases hk : k' = k
    · subst hk
      refine ⟨mergePlan stored f p l, hsome stored h, ?_⟩
      rw [mergePlan_features]
      exact le_max_left _ _
    · exact ⟨stored, by rw [addDocument_find_other s k f p l k' hk]; exact h, le_refl _⟩

/-! ## The loops of parseDocumentsInternal -/

theorem mapContains_mapInsert {β : Type} (m : List (Nat × β)) (k k' : Nat) (v : β) :
    mapContains (mapInsert m k v) k' = (decide (k' = k) || mapContains m k') := by
  unfold mapContains
  rw [mapFind_mapInsert]
  by_cases h : k' = k <;> simp [h]

theorem mapContains_mapRemove {β : Type} (m : List (Nat × β)) (k k' : Nat) :
    mapContains (mapRemove m k) k' = (!decide (k' = k) && mapContains m k') := by
  unfold mapContains
  rw [mapFind_mapRemove]
  by_cases h : k' = k <;> simp [h]

theorem mapContains_of_mem {β : Type} (m : List (Nat × β)) (k : Nat) (v : β)
    (h : (k, v) ∈ m) : mapContains m k = true := by
  induction m with
  | nil => simp at h
  | cons e rest ih =>
    obtain ⟨a, b⟩ := e
    by_cases ha : a = k
    · simp [mapContains, mapFind, ha]
    · have hrest : (k, v) ∈ rest := by
        rcases List.mem_cons.mp h with h1 | h1
        · exact absurd (congrArg Prod.fst h1).symm ha
        · exact h1
      have := ih hrest
      simpa [mapContains, mapFind, ha] using this

theorem length_mapInsert_le {β : Type} (m : List (Nat × β)) (k : Nat) (v : β) :
    (mapInsert m k v).length ≤ m.length + 1 := by
  induction m with
  | nil => simp [mapInsert]
  | cons e rest ih =>
    obtain ⟨a, b⟩ := e
    by_cases ha : a = k
    · simp [mapInsert, ha]
    · simp [mapInsert, ha]; omega

theorem createParseJob_declined (env : Env) (url : KUrl) (features : Nat)
    (notifyWhenReady : List QObjectPtr) (s : BackgroundParserPrivate)
    (h : backendAccepts env url = false) :
    createParseJob env url features notifyWhenReady s = (none, s) := by
  unfold backendAccepts at h
  unfold createParseJob
  cases hf : (env.languagesForUrl url).find? (fun l => l.createsParseJob url) with
  | none => rfl
  | some l => rw [hf] at h; simp at h

theorem createParseJob_accepted (env : Env) (url : KUrl) (features : Nat)
    (notifyWhenReady : List QObjectPtr) (s : BackgroundParserPrivate)
    (h : backendAccepts env url = true) :
    createParseJob env url features notifyWhenReady s
      = (some { id := s.nextJobId, document := url, minimumFeatures := features,
                notifyWhenReady := notifyWhenReady, changedRanges := [] },
         { s with m_parseJobs := mapInsert s.m_parseJobs url s.nextJobId,
                  m_maxParseJobs := s.m_maxParseJobs + 1,
                  nextJobId := s.nextJobId + 1 }) := by
  unfold backendAccepts at h
  unfold createParseJob
  cases hf : (env.languagesForUrl url).find? (fun l => l.createsParseJob url) with
  | none => rw [hf] at h; simp at h
  | some l => rfl

theorem parseBucket_invariant (env : Env)
    (Inv : BackgroundParserPrivate → List ParseJob → Prop) (b : List KUrl)
    (hstep : ∀ url ∈ b, ∀ s jobs, Inv s jobs → capReached s jobs = false →
      mapContains s.m_parseJobs url = false →
      Inv (dispatchDocument env url s jobs).1 (dispatchDocument env url s jobs).2)
    (s : BackgroundParserPrivate) (jobs : List ParseJob) (h : Inv s jobs) :
    Inv (parseBucket env b s jobs).2.1 (parseBucket env b s jobs).2.2 := by
  induction b generalizing s jobs with
  | nil => exact h
  | cons url rest ih =>
    have ih' := ih (fun u hu => hstep u (List.mem_cons_of_mem _ hu))
    unfold parseBucket
    by_cases hcap : capReached s jobs = true
    · simp only [hcap, if_true]; exact h
    · have hcap' : capReached s jobs = false := by simpa using hcap
      by_cases hrun : mapContains s.m_parseJobs url = true
      · simp only [hcap', hrun, Bool.false_eq_true, if_false, if_true]
        exact ih' s jobs h
      · have hrun' : mapContains s.m_parseJobs url = false := by simpa using hrun
        simp only [hcap', hrun', Bool.false_eq_true, if_false]
        exact ih' _ _ (hstep url (List.mem_cons_self _ _) s jobs h hcap' hrun')

theorem parseBuckets_invariant (env : Env)
    (Inv : BackgroundParserPrivate → List ParseJob → Prop) (bs : List (Int × List KUrl))
    (hstep : ∀ e ∈ bs, ∀ url ∈ e.2, ∀ s jobs, Inv s jobs → e.1 ≤ s.m_neededPriority →
      capReached s jobs = false → mapContains s.m_parseJobs url = false →
      Inv (dispatchDocument env url s jobs).1 (dispatchDocument env url s jobs).2)
    (hprio : ∀ url s jobs,
      (dispatchDocument env url s jobs).1.m_neededPriority = s.m_neededPriority)
    (s : BackgroundParserPrivate) (jobs : List ParseJob) (h : Inv s jobs) :
    Inv (parseBuckets env bs s jobs).2.1 (parseBuckets env bs s jobs).2.2 := by
  induction bs generalizing s jobs with
  | nil => exact h
  | cons e rest ih =>
    obtain ⟨p, b⟩ := e
    have ih' := ih (fun e he => hstep e (List.mem_cons_of_mem _ he))
    unfold parseBuckets
    by_cases hp : p > s.m_neededPriority
    · simp only [hp, if_true]; exact h
    · simp only [hp, if_false]
      apply ih'
      have hle : p ≤ s.m_neededPriority := not_lt.mp hp
      have := parseBucket_invariant env
        (fun s' jobs' => Inv s' jobs' ∧ s'.m_neededPriority = s.m_neededPriority) b
        (by
          intro url hu s' jobs' hi hcap hrun
          refine ⟨hstep (p, b) (List.mem_cons_self _ _) url hu s' jobs' hi.1 ?_ hcap hrun, ?_⟩
          · rw [hi.2]; exact hle
          · rw [hprio, hi.2])
        s jobs ⟨h, rfl⟩
      exact this.1

theorem createDelayedJobs_invariant (env : Env)
    (Inv : BackgroundParserPrivate → List ParseJob → Prop) (ds : List (KUrl × List SmartRange))
    (hstep : ∀ e ∈ ds, ∀ s jobs, Inv s jobs →
      Inv (createDelayedJob env e.1 e.2 s jobs).1 (createDelayedJob env e.1 e.2 s jobs).2)
    (s : BackgroundParserPrivate) (jobs : List ParseJob) (h : Inv s jobs) :
    Inv (createDelayedJobs env ds s jobs).1 (createDelayedJobs env ds s jobs).2 := by
  induction ds generalizing s jobs with
  | nil => exact h
  | cons e rest ih =>
    obtain ⟨url, tracker⟩ := e
    unfold createDelayedJobs
    exact ih (fun e he => hstep e (List.mem_cons_of_mem _ he)) _ _
      (hstep (url, tracker) (List.mem_cons_self _ _) s jobs h)

theorem dispatchDocument_neededPriority (env : Env) (url : KUrl) (s : BackgroundParserPrivate)
    (jobs : List ParseJob) :
    (dispatchDocument env url s jobs).1.m_neededPriority = s.m_neededPriority := by
  unfold dispatchDocument
  cases h : backendAccepts env url
  · simp [createParseJob_declined env url _ _ s h]
  · simp [createParseJob_accepted env url _ _ s h]

theorem createDelayedJob_buckets (env : Env) (url : KUrl) (tracker : List SmartRange)
    (s : BackgroundParserPrivate) (jobs : List ParseJob) :
    (createDelayedJob env url tracker s jobs).1.m_documentsForPriority
      = s.m_documentsForPriority := by
  unfold createDelayedJob
  cases h : backendAccepts env url
  · simp [createParseJob_declined env url _ _ s h]
  · simp [createParseJob_accepted env url _ _ s h]

theorem createDelayedJobs_buckets (env : Env) (ds : List (KUrl × List SmartRange))
    (s : BackgroundParserPrivate) (jobs : List ParseJob) :
    (createDelayedJobs env ds s jobs).1.m_documentsForPriority = s.m_documentsForPriority :=
  createDelayedJobs_invariant env
    (fun s' _ => s'.m_documentsForPriority = s.m_documentsForPriority) ds
    (by intro e _ s' jobs' hi; rw [createDelayedJob_buckets]; exact hi) s jobs rfl

/-- Invariant rule for the two loops of one tick. -/
theorem collectJobs_invariant (env : Env) (s : BackgroundParserPrivate)
    (Inv : BackgroundParserPrivate → List ParseJob → Prop)
    (h0 : Inv s [])
    (hdelayed : ∀ e ∈ s.m_delayedParseJobs, ∀ s' jobs, Inv s' jobs →
      Inv (createDelayedJob env e.1 e.2 s' jobs).1 (createDelayedJob env e.1 e.2 s' jobs).2)
    (hclear : ∀ s' jobs, Inv s' jobs → Inv { s' with m_delayedParseJobs := [] } jobs)
    (hstep : ∀ e ∈ s.m_documentsForPriority, ∀ url ∈ e.2, ∀ s' jobs, Inv s' jobs →
      e.1 ≤ s'.m_neededPriority → capReached s' jobs = false →
      mapContains s'.m_parseJobs url = false →
      Inv (dispatchDocument env url s' jobs).1 (dispatchDocument env url s' jobs).2)
    (hbuckets : ∀ s' jobs bk, Inv s' jobs → Inv { s' with m_documentsForPriority := bk } jobs) :
    Inv (collectJobs env s).1 (collectJobs env s).2 := by
  unfold collectJobs
  apply hbuckets
  apply parseBuckets_invariant env Inv _ _ (dispatchDocument_neededPriority env)
  · apply hclear
    exact createDelayedJobs_invariant env Inv _ hdelayed s [] h0
  · intro e he
    simp only [createDelayedJobs_buckets] at he
    exact hstep e he

/-! ## Frame lemmas -/

@[simp] theorem updateProgressBar_documents (s : BackgroundParserPrivate) :
    (updateProgressBar s).m_documents = s.m_documents := by
  unfold updateProgressBar; split <;> rfl

@[simp] theorem updateProgressBar_buckets (s : BackgroundParserPrivate) :
    (updateProgressBar s).m_documentsForPriority = s.m_documentsForPriority := by
  unfold updateProgressBar; split <;> rfl

@[simp] theorem updateProgressBar_parseJobs (s : BackgroundParserPrivate) :
    (updateProgressBar s).m_parseJobs = s.m_parseJobs := by
  unfold updateProgressBar; split <;> rfl

@[simp] theorem updateProgressBar_delayed (s : BackgroundParserPrivate) :
    (updateProgressBar s).m_delayedParseJobs = s.m_delayedParseJobs := by
  unfold updateProgressBar; split <;> rfl

@[simp] theorem updateProgressBar_threads (s : BackgroundParserPrivate) :
    (updateProgressBar s).m_threads = s.m_threads := by
  unfold updateProgressBar; split <;> rfl

@[simp] theorem updateProgressBar_neededPriority (s : BackgroundParserPrivate) :
    (updateProgressBar s).m_neededPriority = s.m_neededPriority := by
  unfold updateProgressBar; split <;> rfl

@[simp] theorem updateProgressBar_weaver (s : BackgroundParserPrivate) :
    (updateProgressBar s).m_weaver = s.m_weaver := by
  unfold updateProgressBar; split <;> rfl

theorem parseDocumentsInternal_documents (env : Env) (s : BackgroundParserPrivate) :
    (parseDocumentsInternal env s).m_documents = (collectJobs env s).1.m_documents := by
  unfold parseDocumentsInternal; simp only []; split <;> simp

theorem parseDocumentsInternal_buckets (env : Env) (s : BackgroundParserPrivate) :
    (parseDocumentsInternal env s).m_documentsForPriority
      = (collectJobs env s).1.m_documentsForPriority := by
  unfold parseDocumentsInternal; simp only []; split <;> simp

theorem parseDocumentsInternal_parseJobs (env : Env) (s : BackgroundParserPrivate) :
    (parseDocumentsInternal env s).m_parseJobs = (collectJobs env s).1.m_parseJobs := by
  unfold parseDocumentsInternal; simp only []; split <;> simp

theorem parseDocumentsInternal_delayed (env : Env) (s : BackgroundParserPrivate) :
    (parseDocumentsInternal env s).m_delayedParseJobs
      = (collectJobs env s).1.m_delayedParseJobs := by
  unfold parseDocumentsInternal; simp only []; split <;> simp

theorem parseDocumentsInternal_threads (env : Env) (s : BackgroundParserPrivate) :
    (parseDocumentsInternal env s).m_threads = (collectJobs env s).1.m_threads := by
  unfold parseDocumentsInternal; simp only []; split <;> simp

theorem parseDocumentsInternal_neededPriority (env : Env) (s : BackgroundParserPrivate) :
    (parseDocumentsInternal env s).m_neededPriority
      = (collectJobs env s).1.m_neededPriority := by
  unfold parseDocumentsInternal; simp only []; split <;> simp

theorem parseDocumentsInternal_weaver (env : Env) (s : BackgroundParserPrivate) :
    (parseDocumentsInternal env s).m_weaver
      = (collectJobs env s).1.m_weaver ++ (collectJobs env s).2 := by
  unfold parseDocumentsInternal; simp only []; split <;> simp

theorem initial_tables (env : Env) :
    (initial env).m_documents = [] ∧ (initial env).m_documentsForPriority = [] ∧
    (initial env).m_parseJobs = [] ∧ (initial env).m_delayedParseJobs = [] ∧
    (initial env).m_weaver = [] ∧ (initial env).m_threads = env.configThreads ∧
    (initial env).m_maxParseJobs = 0 ∧ (initial env).m_doneParseJobs = 0 ∧
    (initial env).m_neededPriority = env.WorstPriority := by
  unfold initial loadSettings resumePrivate suspendPrivate
  cases env.configEnabled <;> simp

theorem dispatchDocument_documents (env : Env) (url : KUrl) (s : BackgroundParserPrivate)
    (jobs : List ParseJob) :
    (dispatchDocument env url s jobs).1.m_documents = mapRemove s.m_documents url := by
  unfold dispatchDocument
  cases h : backendAccepts env url
  · simp [createParseJob_declined env url _ _ s h]
  · simp [createParseJob_accepted env url _ _ s h]

theorem dispatchDocument_parseJobs (env : Env) (url : KUrl) (s : BackgroundParserPrivate)
    (jobs : List ParseJob) :
    (dispatchDocument env url s jobs).1.m_parseJobs
      = if backendAccepts env url then mapInsert s.m_parseJobs url s.nextJobId
        else s.m_parseJobs := by
  unfold dispatchDocument
  cases h : backendAccepts env url
  · simp [createParseJob_declined env url _ _ s h]
  · simp [createParseJob_accepted env url _ _ s h]

theorem dispatchDocument_delayed (env : Env) (url : KUrl) (s : BackgroundParserPrivate)
    (jobs : List ParseJob) :
    (dispatchDocument env url s jobs).1.m_delayedParseJobs = s.m_delayedParseJobs := by
  unfold dispatchDocument
  cases h : backendAccepts env url
  · simp [createParseJob_declined env url _ _ s h]
  · simp [createParseJob_accepted env url _ _ s h]

theorem dispatchDocument_threads (env : Env) (url : KUrl) (s : BackgroundParserPrivate)
    (jobs : List ParseJob) :
    (dispatchDocument env url s jobs).1.m_threads = s.m_threads := by
  unfold dispatchDocument
  cases h : backendAccepts env url
  · simp [createParseJob_declined env url _ _ s h]
  · simp [createParseJob_accepted env url _ _ s h]

theorem createDelayedJob_documents (env : Env) (url : KUrl) (tracker : List SmartRange)
    (s : BackgroundParserPrivate) (jobs : List ParseJob) :
    (createDelayedJob env url tracker s jobs).1.m_documents = s.m_documents := by
  unfold createDelayedJob
  cases h : backendAccepts env url
  · simp [createParseJob_declined env url _ _ s h]
  · simp [createParseJob_accepted env url _ _ s h]

theorem createDelayedJob_parseJobs (env : Env) (url : KUrl) (tracker : List SmartRange)
    (s : BackgroundParserPrivate) (jobs : List ParseJob) :
    (createDelayedJob env url tracker s jobs).1.m_parseJobs
      = if backendAccepts env url then mapInsert s.m_parseJobs url s.nextJobId
        else s.m_parseJobs := by
  unfold createDelayedJob
  cases h : backendAccepts env url
  · simp [createParseJob_declined env url _ _ s h]
  · simp [createParseJob_accepted env url _ _ s h]

theorem createDelayedJob_neededPriority (env : Env) (url : KUrl) (tracker : List SmartRange)
    (s : BackgroundParserPrivate) (jobs : List ParseJob) :
    (createDelayedJob env url tracker s jobs).1.m_neededPriority = s.m_neededPriority := by
  unfold createDelayedJob
  cases h : backendAccepts env url
  · simp [createParseJob_declined env url _ _ s h]
  · simp [createParseJob_accepted env url _ _ s h]

theorem removeDocument_contains (url k : KUrl) (s : BackgroundParserPrivate) :
    mapContains (removeDocument url s).m_documents k
      = (!decide (k = url) && mapContains s.m_documents k) := by
  unfold removeDocument
  cases h : mapFind s.m_documents url with
  | none =>
    by_cases hk : k = url
    · subst hk; simp [mapContains, h]
    · simp [hk]
  | some stored => simp [mapContains_mapRemove]

theorem removeDocument_frame (url : KUrl) (s : BackgroundParserPrivate) :
    (removeDocument url s).m_parseJobs = s.m_parseJobs ∧
    (removeDocument url s).m_delayedParseJobs = s.m_delayedParseJobs ∧
    (removeDocument url s).m_threads = s.m_threads ∧
    (removeDocument url s).m_weaver = s.m_weaver := by
  unfold removeDocument
  cases h : mapFind s.m_documents url <;> simp

theorem addDocument_contains (url : KUrl) (f : Nat) (p : Int) (l : QObjectPtr) (k : KUrl)
    (s : BackgroundParserPrivate) :
    mapContains (addDocument url f p l s).m_documents k
      = (decide (k = url) || mapContains s.m_documents k) := by
  cases h : mapFind s.m_documents url with
  | none => rw [addDocument_documents_none s url f p l h, mapContains_mapInsert]
  | some stored => rw [addDocument_documents_some s url f p l stored h, mapContains_mapInsert]

theorem startTimer_frame (s : BackgroundParserPrivate) :
    (startTimer s).m_parseJobs = s.m_parseJobs ∧
    (startTimer s).m_delayedParseJobs = s.m_delayedParseJobs ∧
    (startTimer s).m_threads = s.m_threads ∧
    (startTimer s).m_weaver = s.m_weaver ∧
    (startTimer s).m_neededPriority = s.m_neededPriority ∧
    (startTimer s).m_doneParseJobs = s.m_doneParseJobs := by
  unfold startTimer; split <;> simp

theorem addDocument_frame (url : KUrl) (f : Nat) (p : Int) (l : QObjectPtr)
    (s : BackgroundParserPrivate) :
    (addDocument url f p l s).m_parseJobs = s.m_parseJobs ∧
    (addDocument url f p l s).m_delayedParseJobs = s.m_delayedParseJobs ∧
    (addDocument url f p l s).m_threads = s.m_threads ∧
    (addDocument url f p l s).m_weaver = s.m_weaver ∧
    (addDocument url f p l s).m_neededPriority = s.m_neededPriority ∧
    (addDocument url f p l s).m_doneParseJobs = s.m_doneParseJobs := by
  unfold addDocument
  have := startTimer_frame
  cases h : mapFind s.m_documents url <;> simp [this]

theorem rangeContentsChanged_frame (env : Env) (url : KUrl) (r : SmartRange)
    (s : BackgroundParserPrivate) :
    (rangeContentsChanged env url r s).m_documents = s.m_documents ∧
    (rangeContentsChanged env url r s).m_documentsForPriority = s.m_documentsForPriority ∧
    (rangeContentsChanged env url r s).m_parseJobs = s.m_parseJobs ∧
    (rangeContentsChanged env url r s).m_threads = s.m_threads ∧
    (rangeContentsChanged env url r s).m_weaver = s.m_weaver ∧
    (rangeContentsChanged env url r s).m_maxParseJobs = s.m_maxParseJobs ∧
    (rangeContentsChanged env url r s).m_doneParseJobs = s.m_doneParseJobs := by
  unfold rangeContentsChanged
  simp only []
  split
  · simp
  · simp [startTimer_frame, startTimer_documents, startTimer_buckets, startTimer_maxParseJobs]

theorem rangeContentsChanged_delayed (env : Env) (url : KUrl) (r : SmartRange) (k : KUrl)
    (s : BackgroundParserPrivate) (hk : k ≠ url) :
    mapContains (rangeContentsChanged env url r s).m_delayedParseJobs k
      = mapContains s.m_delayedParseJobs k := by
  unfold rangeContentsChanged
  simp only []
  split
  · rfl
  · simp [startTimer_frame, mapContains_mapInsert, hk]

theorem parseComplete_frame (job : ParseJob) (s : BackgroundParserPrivate) :
    (parseComplete job s).m_documents = s.m_documents ∧
    (parseComplete job s).m_documentsForPriority = s.m_documentsForPriority ∧
    (parseComplete job s).m_parseJobs = mapRemove s.m_parseJobs job.document ∧
    (parseComplete job s).m_delayedParseJobs = s.m_delayedParseJobs ∧
    (parseComplete job s).m_threads = s.m_threads ∧
    (parseComplete job s).m_neededPriority = s.m_neededPriority := by
  unfold parseComplete
  simp

/-! ## Pending and running documents -/

theorem collectJobs_delayed (env : Env) (s : BackgroundParserPrivate) :
    (collectJobs env s).1.m_delayedParseJobs = [] := by
  unfold collectJobs
  simp only []
  exact parseBuckets_invariant env (fun s' _ => s'.m_delayedParseJobs = []) _
    (by intro e _ url _ s' jobs hi _ _ _; rw [dispatchDocument_delayed]; exact hi)
    (dispatchDocument_neededPriority env) _ _ rfl

theorem parseDocumentsInternal_disjoint (env : Env) (s : BackgroundParserPrivate)
    (hinv : ∀ k, mapContains s.m_documents k = true →
      mapContains s.m_parseJobs k = false ∧ mapContains s.m_delayedParseJobs k = false) :
    ∀ k, mapContains (parseDocumentsInternal env s).m_documents k = true →
      mapContains (parseDocumentsInternal env s).m_parseJobs k = false ∧
      mapContains (parseDocumentsInternal env s).m_delayedParseJobs k = false := by
  have key := collectJobs_invariant env s
    (fun s' _ => (∀ k, mapContains s'.m_documents k = true → mapContains s.m_documents k = true) ∧
      (∀ k, mapContains s'.m_documents k = true → mapContains s'.m_parseJobs k = false))
    ⟨fun _ h => h, fun k h => (hinv k h).1⟩
    (by
      rintro ⟨url, tracker⟩ he s' jobs ⟨h1, h2⟩
      have hd : mapContains s.m_delayedParseJobs url = true := mapContains_of_mem _ _ _ he
      refine ⟨?_, ?_⟩
      · intro k hk
        rw [createDelayedJob_documents] at hk
        exact h1 k hk
      · intro k hk
        rw [createDelayedJob_documents] at hk
        rw [createDelayedJob_parseJobs]
        have hne : k ≠ url := by
          intro e
          subst e
          have := (hinv k (h1 k hk)).2
          rw [hd] at this
          exact Bool.noConfusion this
        cases backendAccepts env url
        · simpa using h2 k hk
        · simp [mapContains_mapInsert, hne, h2 k hk])
    (by intro s' jobs hi; exact hi)
    (by
      rintro e _ url _ s' jobs ⟨h1, h2⟩ _ _ _
      refine ⟨?_, ?_⟩
      · intro k hk
        rw [dispatchDocument_documents, mapContains_mapRemove] at hk
        simp only [Bool.and_eq_true] at hk
        exact h1 k hk.2
      · intro k hk
        rw [dispatchDocument_documents, mapContains_mapRemove] at hk
        simp only [Bool.and_eq_true, Bool.not_eq_true', decide_eq_false_iff_not] at hk
        rw [dispatchDocument_parseJobs]
        cases backendAccepts env url
        · simpa using h2 k hk.2
        · simp [mapContains_mapInsert, hk.1, h2 k hk.2])
    (by intro s' jobs bk hi; exact hi)
  intro k hk
  rw [parseDocumentsInternal_documents] at hk
  rw [parseDocumentsInternal_parseJobs, parseDocumentsInternal_delayed, collectJobs_delayed]
  exact ⟨key.2 k hk, rfl⟩

theorem disjointOp_invariant (env : Env) (s : BackgroundParserPrivate)
    (h : ReachableBy env disjointOp s) :
    ∀ k, mapContains s.m_documents k = true →
      mapContains s.m_parseJobs k = false ∧ mapContains s.m_delayedParseJobs k = false := by
  induction h with
  | init =>
    intro k hk
    rw [(initial_tables env).1] at hk
    simp [mapContains, mapFind] at hk
  | step s op _ hop ih =>
    cases op with
    | addDocument url f p l =>
      simp only [disjointOp] at hop
      intro k hk
      simp only [Op.apply] at hk ⊢
      rw [addDocument_contains] at hk
      rw [(addDocument_frame url f p l s).1, (addDocument_frame url f p l s).2.1]
      by_cases hku : k = url
      · subst hku; exact hop
      · simp [hku] at hk
        exact ih k hk
    | removeDocument url =>
      intro k hk
      simp only [Op.apply] at hk ⊢
      rw [removeDocument_contains] at hk
      simp only [Bool.and_eq_true] at hk
      rw [(removeDocument_frame url s).1, (removeDocument_frame url s).2.1]
      exact ih k hk.2
    | rangeContentsChanged url r =>
      simp only [disjointOp] at hop
      intro k hk
      simp only [Op.apply] at hk ⊢
      rw [(rangeContentsChanged_frame env url r s).1] at hk
      have hne : k ≠ url := by
        intro e; subst e; rw [hop] at hk; exact Bool.noConfusion hk
      rw [(rangeContentsChanged_frame env url r s).2.2.1,
        rangeContentsChanged_delayed env url r k s hne]
      exact ih k hk
    | parseDocuments =>
      exact parseDocumentsInternal_disjoint env s ih
    | timeout =>
      exact parseDocumentsInternal_disjoint env { s with m_timerActive := false } ih
    | parseComplete job =>
      intro k hk
      simp only [Op.apply] at hk ⊢
      rw [(parseComplete_frame job s).1] at hk
      rw [(parseComplete_frame job s).2.2.1, (parseComplete_frame job s).2.2.2.1,
        mapContains_mapRemove]
      have := ih k hk
      simp [this.1, this.2]
    | setNeededPriority p => simp [disjointOp, schedulerOp] at hop
    | disableProcessing => simp [disjointOp, schedulerOp] at hop
    | enableProcessing => simp [disjointOp, schedulerOp] at hop
    | parseProgress j v => simp [disjointOp, schedulerOp] at hop
    | suspend => simp [disjointOp, schedulerOp] at hop
    | resume => simp [disjointOp, schedulerOp] at hop
    | setThreadCount n => simp [disjointOp, schedulerOp] at hop
    | setDelay n => simp [disjointOp, schedulerOp] at hop

/-- C4, as stated, fails: after `add(7); tick; add(7)`, a sequence of scheduler
operations, document 7 is both in `m_documents` and in `m_parseJobs`; the same
happens after `add(7); notifyEdit(7); tick`. -/
theorem pending_and_running_reachable :
    ReachableBy acceptAll schedulerOp (addDocument 7 1 1 0 oneRunning) ∧
    mapContains (addDocument 7 1 1 0 oneRunning).m_documents 7 = true ∧
    mapContains (addDocument 7 1 1 0 oneRunning).m_parseJobs 7 = true ∧
    ReachableBy acceptAll schedulerOp
      (parseDocuments acceptAll (rangeContentsChanged acceptAll 7 33 (onePending acceptAll))) ∧
    mapContains (parseDocuments acceptAll
      (rangeContentsChanged acceptAll 7 33 (onePending acceptAll))).m_documents 7 = true ∧
    mapContains (parseDocuments acceptAll
      (rangeContentsChanged acceptAll 7 33 (onePending acceptAll))).m_parseJobs 7 = true := by
  have h0 : ReachableBy acceptAll schedulerOp (initial acceptAll) := ReachableBy.init
  have h1 := ReachableBy.step _ (Op.addDocument 7 1 1 0) h0 (by simp [schedulerOp])
  have h2 := ReachableBy.step _ Op.parseDocuments h1 (by simp [schedulerOp])
  have h3 := ReachableBy.step _ (Op.addDocument 7 1 1 0) h2 (by simp [schedulerOp])
  have h4 := ReachableBy.step _ (Op.rangeContentsChanged 7 33) h1 (by simp [schedulerOp])
  have h5 := ReachableBy.step _ Op.parseDocuments h4 (by simp [schedulerOp])
  exact ⟨h3, by decide, by decide, h5, by decide, by decide⟩

/-- C4 (amended): in every state reachable by addDocument of a document that
is at that moment neither in `m_parseJobs` nor in `m_delayedParseJobs`,
removeDocument, rangeContentsChanged for a document that is not pending,
parseDocuments and parseComplete, no key is both in `m_documents` and in
`m_parseJobs`. -/
theorem pending_running_disjoint (env : Env) (s : BackgroundParserPrivate)
    (h : ReachableBy env disjointOp s) (k : KUrl) :
    ¬ (mapContains s.m_documents k = true ∧ mapContains s.m_parseJobs k = true) := by
  rintro ⟨h1, h2⟩
  have := (disjointOp_invariant env s h k h1).1
  rw [h2] at this
  exact Bool.noConfusion this

/-- Witness for C4 (amended): the state after `add(7); tick; completion; add(7)`. -/
theorem pending_running_disjoint_witness :
    ReachableBy acceptAll disjointOp (addDocument 7 1 1 0 (parseComplete firstJob oneRunning)) ∧
    ¬ (mapContains (addDocument 7 1 1 0 (parseComplete firstJob oneRunning)).m_documents 7 = true ∧
       mapContains (addDocument 7 1 1 0 (parseComplete firstJob oneRunning)).m_parseJobs 7
         = true) := by
  have h0 : ReachableBy acceptAll disjointOp (initial acceptAll) := ReachableBy.init
  have h1 := ReachableBy.step _ (Op.addDocument 7 1 1 0) h0
    (by simp only [disjointOp]; decide)
  have h2 := ReachableBy.step _ Op.parseDocuments h1 (by simp [disjointOp, schedulerOp])
  have h3 := ReachableBy.step _ (Op.parseComplete firstJob) h2
    (by simp only [disjointOp, schedulerOp]; decide)
  have h4 := ReachableBy.step _ (Op.addDocument 7 1 1 0) h3
    (by simp only [disjointOp]; decide)
  exact ⟨h4, pending_running_disjoint acceptAll _ h4 7⟩

/-! ## Behaviour at concrete inputs -/

/-- C2: code defect. Document 7 is pending with stored priority 1 and lies in
bucket 1; after `addDocument(7, f, 5, l)` the stored priority is `min 1 5 = 1`
but the document has left bucket 1 and sits in bucket 5, the bucket of the
argument `priority` instead of the merged `plan.priority`. -/
theorem addDocument_bucket_of_argument :
    mapFind (onePending acceptAll).m_documents 7
      = some { priority := 1, features := 1, notifyWhenReady := [0] } ∧
    7 ∈ bucket (onePending acceptAll).m_documentsForPriority 1 ∧
    (mapFind (readded acceptAll).m_documents 7).map (fun plan => plan.priority) = some 1 ∧
    7 ∉ bucket (readded acceptAll).m_documentsForPriority 1 ∧
    7 ∈ bucket (readded acceptAll).m_documentsForPriority 5 := by
  decide

/-- C3: code defect. After `add(7, p=1); add(7, p=5); remove(7)`, a sequence of
scheduler operations, document 7 is not in `m_documents` but still a member of
bucket 5; a further `add(7, p=1)` makes it a member of buckets 1 and 5. -/
theorem index_invariant_broken :
    ReachableBy acceptAll schedulerOrFloorOp (readdedRemoved acceptAll) ∧
    mapContains (readdedRemoved acceptAll).m_documents 7 = false ∧
    7 ∈ bucket (readdedRemoved acceptAll).m_documentsForPriority 5 ∧
    ReachableBy acceptAll schedulerOrFloorOp (addDocument 7 1 1 0 (readdedRemoved acceptAll)) ∧
    7 ∈ bucket (addDocument 7 1 1 0 (readdedRemoved acceptAll)).m_documentsForPriority 1 ∧
    7 ∈ bucket (addDocument 7 1 1 0 (readdedRemoved acceptAll)).m_documentsForPriority 5 := by
  have h0 : ReachableBy acceptAll schedulerOrFloorOp (initial acceptAll) := ReachableBy.init
  have h1 := ReachableBy.step _ (Op.addDocument 7 1 1 0) h0
    (by simp [schedulerOrFloorOp, schedulerOp])
  have h2 := ReachableBy.step _ (Op.addDocument 7 1 5 0) h1
    (by simp [schedulerOrFloorOp, schedulerOp])
  have h3 := ReachableBy.step _ (Op.removeDocument 7) h2
    (by simp [schedulerOrFloorOp, schedulerOp])
  have h4 := ReachableBy.step _ (Op.addDocument 7 1 1 0) h3
    (by simp [schedulerOrFloorOp, schedulerOp])
  exact ⟨h3, by decide, by decide, h4, by decide, by decide⟩

/-- C5: code defect. After `add(7); tick; notifyEdit(7)` with a job that
refuses the range, the job with id 0 for document 7 is enqueued and not
completed; the next tick builds a batch with a second job (id 1) for document
7 from the delayed table, and both jobs are in the weaver queue afterwards. -/
theorem second_job_while_running :
    ReachableBy acceptAll schedulerOp editedWhileRunning ∧
    firstJob ∈ editedWhileRunning.m_weaver ∧
    mapFind editedWhileRunning.m_parseJobs 7 = some 0 ∧
    (parseDocumentsBatch acceptAll editedWhileRunning).map (fun j => (j.id, j.document))
      = [(1, 7)] ∧
    (parseDocuments acceptAll editedWhileRunning).m_weaver.map (fun j => (j.id, j.document))
      = [(0, 7), (1, 7)] := by
  have h0 : ReachableBy acceptAll schedulerOp (initial acceptAll) := ReachableBy.init
  have h1 := ReachableBy.step _ (Op.addDocument 7 1 1 0) h0 (by simp [schedulerOp])
  have h2 := ReachableBy.step _ Op.parseDocuments h1 (by simp [schedulerOp])
  have h3 := ReachableBy.step _ (Op.rangeContentsChanged 7 33) h2 (by simp [schedulerOp])
  exact ⟨h3, by decide, by decide, by decide, by decide⟩

/-- C7: code defect. After `add(7, p=1); add(7, p=5); remove(7); tick` the
stale entry of bucket 5 is dispatched; with an accepting backend the job is
enqueued with `m_maxParseJobs = 0`, and its completion leaves
`m_doneParseJobs = 1 > m_maxParseJobs = 0`; with a declining backend the tick
leaves `m_maxParseJobs = -1 < m_doneParseJobs = 0`. -/
theorem progress_counters_broken :
    ReachableBy acceptAll schedulerOp
      (parseComplete staleJob (parseDocuments acceptAll (readdedRemoved acceptAll))) ∧
    (parseComplete staleJob
      (parseDocuments acceptAll (readdedRemoved acceptAll))).m_doneParseJobs = 1 ∧
    (parseComplete staleJob
      (parseDocuments acceptAll (readdedRemoved acceptAll))).m_maxParseJobs = 0 ∧
    ReachableBy declineAll schedulerOp (parseDocuments declineAll (readdedRemoved declineAll)) ∧
    (parseDocuments declineAll (readdedRemoved declineAll)).m_maxParseJobs = -1 ∧
    (parseDocuments declineAll (readdedRemoved declineAll)).m_doneParseJobs = 0 := by
  have h0 : ReachableBy acceptAll schedulerOp (initial acceptAll) := ReachableBy.init
  have h1 := ReachableBy.step _ (Op.addDocument 7 1 1 0) h0 (by simp [schedulerOp])
  have h2 := ReachableBy.step _ (Op.addDocument 7 1 5 0) h1 (by simp [schedulerOp])
  have h3 := ReachableBy.step _ (Op.removeDocument 7) h2 (by simp [schedulerOp])
  have h4 := ReachableBy.step _ Op.parseDocuments h3 (by simp [schedulerOp])
  have h5 := ReachableBy.step _ (Op.parseComplete staleJob) h4
    (by simp only [schedulerOp]; decide)
  have g0 : ReachableBy declineAll schedulerOp (initial declineAll) := ReachableBy.init
  have g1 := ReachableBy.step _ (Op.addDocument 7 1 1 0) g0 (by simp [schedulerOp])
  have g2 := ReachableBy.step _ (Op.addDocument 7 1 5 0) g1 (by simp [schedulerOp])
  have g3 := ReachableBy.step _ (Op.removeDocument 7) g2 (by simp [schedulerOp])
  have g4 := ReachableBy.step _ Op.parseDocuments g3 (by simp [schedulerOp])
  exact ⟨h5, by decide, by decide, g4, by decide, by decide⟩

/-! ## Size of the running table -/

theorem capReached_false (s : BackgroundParserPrivate) (jobs : List ParseJob)
    (h : capReached s jobs = false) :
    (s.m_parseJobs.length : Int) + (jobs.length : Int) ≤ s.m_threads * 2 + 1 := by
  unfold capReached at h
  simpa using h

theorem parseDocumentsInternal_running_bound (env : Env) (s : BackgroundParserPrivate) (t : Int)
    (ht : s.m_threads = t) (hd : s.m_delayedParseJobs = [])
    (hlen : (s.m_parseJobs.length : Int) ≤ 2 * t + 2) :
    (parseDocumentsInternal env s).m_threads = t ∧
    (parseDocumentsInternal env s).m_delayedParseJobs = [] ∧
    ((parseDocumentsInternal env s).m_parseJobs.length : Int) ≤ 2 * t + 2 := by
  have key := collectJobs_invariant env s
    (fun s' _ => s'.m_threads = t ∧ (s'.m_parseJobs.length : Int) ≤ 2 * t + 2)
    ⟨ht, hlen⟩
    (by intro e he; rw [hd] at he; simp at he)
    (by intro s' jobs hi; exact hi)
    (by
      rintro e _ url _ s' jobs ⟨h1, _⟩ _ hcap _
      have hc := capReached_false s' jobs hcap
      rw [h1] at hc
      refine ⟨by rw [dispatchDocument_threads]; exact h1, ?_⟩
      rw [dispatchDocument_parseJobs]
      have hj : (0 : Int) ≤ (jobs.length : Int) := Int.ofNat_nonneg _
      cases backendAccepts env url
      · simp only [Bool.false_eq_true, if_false]; omega
      · simp only [if_true]
        have := length_mapInsert_le s'.m_parseJobs url s'.nextJobId
        omega)
    (by intro s' jobs bk hi; exact hi)
  rw [parseDocumentsInternal_threads, parseDocumentsInternal_delayed,
    parseDocumentsInternal_parseJobs]
  exact ⟨key.1, collectJobs_delayed env s, key.2⟩

theorem uneditedOp_invariant (env : Env) (s : BackgroundParserPrivate)
    (h : ReachableBy env uneditedOp s) (ht : 0 ≤ env.configThreads) :
    s.m_threads = env.configThreads ∧ s.m_delayedParseJobs = [] ∧
    (s.m_parseJobs.length : Int) ≤ 2 * env.configThreads + 2 := by
  induction h with
  | init =>
    have hi := initial_tables env
    refine ⟨hi.2.2.2.2.2.1, hi.2.2.2.1, ?_⟩
    rw [hi.2.2.1]
    simp only [List.length_nil, Int.ofNat_zero]
    omega
  | step s op _ hop ih =>
    cases op with
    | addDocument url f p l =>
      have hf := addDocument_frame url f p l s
      simp only [Op.apply]
      rw [hf.1, hf.2.1, hf.2.2.1]
      exact ih
    | removeDocument url =>
      have hf := removeDocument_frame url s
      simp only [Op.apply]
      rw [hf.1, hf.2.1, hf.2.2.1]
      exact ih
    | rangeContentsChanged url r => simp [uneditedOp] at hop
    | parseDocuments =>
      exact parseDocumentsInternal_running_bound env s _ ih.1 ih.2.1 ih.2.2
    | timeout =>
      exact parseDocumentsInternal_running_bound env { s with m_timerActive := false } _
        ih.1 ih.2.1 ih.2.2
    | parseComplete job =>
      have hf := parseComplete_frame job s
      simp only [Op.apply]
      rw [hf.2.2.1, hf.2.2.2.1, hf.2.2.2.2.1]
      refine ⟨ih.1, ih.2.1, ?_⟩
      have : (mapRemove s.m_parseJobs job.document).length ≤ s.m_parseJobs.length :=
        List.length_filter_le _ _
      have h2 := ih.2.2
      omega
    | setNeededPriority p => simp [uneditedOp, schedulerOp] at hop
    | disableProcessing => simp [uneditedOp, schedulerOp] at hop
    | enableProcessing => simp [uneditedOp, schedulerOp] at hop
    | parseProgress j v => simp [uneditedOp, schedulerOp] at hop
    | suspend => simp [uneditedOp, schedulerOp] at hop
    | resume => simp [uneditedOp, schedulerOp] at hop
    | setThreadCount n => simp [uneditedOp, schedulerOp] at hop
    | setDelay n => simp [uneditedOp, schedulerOp] at hop

/-- C6, as stated, fails: with one thread, after `add(7); add(8); tick` the
table `m_parseJobs` has two entries. -/
theorem running_exceeds_thread_count :
    ReachableBy acceptAll schedulerOp (parseDocuments acceptAll twoPending) ∧
    (parseDocuments acceptAll twoPending).m_threads = 1 ∧
    (parseDocuments acceptAll twoPending).m_parseJobs.length = 2 := by
  have h0 : ReachableBy acceptAll schedulerOp (initial acceptAll) := ReachableBy.init
  have h1 := ReachableBy.step _ (Op.addDocument 7 1 0 0) h0 (by simp [schedulerOp])
  have h2 := ReachableBy.step _ (Op.addDocument 8 1 0 0) h1 (by simp [schedulerOp])
  have h3 := ReachableBy.step _ Op.parseDocuments h2 (by simp [schedulerOp])
  exact ⟨h3, by decide, by decide⟩

/-- C6 (amended): with a fixed worker count `t ≥ 0`, in every state reachable
by add, remove, tick and completion (no notifyEdit: the delayed drain creates
its jobs without an admission test) the number of entries of `m_parseJobs` is
at most `2·t + 2`. -/
theorem running_bounded_by_admission_cap (env : Env) (s : BackgroundParserPrivate)
    (h : ReachableBy env uneditedOp s) (ht : 0 ≤ env.configThreads) :
    s.m_threads = env.configThreads ∧
    (s.m_parseJobs.length : Int) ≤ 2 * s.m_threads + 2 := by
  have hi := uneditedOp_invariant env s h ht
  refine ⟨hi.1, ?_⟩
  rw [hi.1]
  exact hi.2.2

/-- Witness for C6 (amended): one thread, `add(7); add(8); tick`. -/
theorem running_bounded_by_admission_cap_witness :
    ReachableBy acceptAll uneditedOp (parseDocuments acceptAll twoPending) ∧
    (0 : Int) ≤ acceptAll.configThreads ∧
    (parseDocuments acceptAll twoPending).m_threads = acceptAll.configThreads ∧
    ((parseDocuments acceptAll twoPending).m_parseJobs.length : Int)
      ≤ 2 * (parseDocuments acceptAll twoPending).m_threads + 2 := by
  have h0 : ReachableBy acceptAll uneditedOp (initial acceptAll) := ReachableBy.init
  have h1 := ReachableBy.step _ (Op.addDocument 7 1 0 0) h0 (by simp [uneditedOp, schedulerOp])
  have h2 := ReachableBy.step _ (Op.addDocument 8 1 0 0) h1 (by simp [uneditedOp, schedulerOp])
  have h3 := ReachableBy.step _ Op.parseDocuments h2 (by simp [uneditedOp, schedulerOp])
  exact ⟨h3, by decide, running_bounded_by_admission_cap acceptAll _ h3 (by decide)⟩

/-! ## Idempotence of addDocument -/

theorem addDocument_buckets_some (s : BackgroundParserPrivate) (k : KUrl) (f : Nat) (p : Int)
    (l : QObjectPtr) (stored : DocumentParsePlan) (h : mapFind s.m_documents k = some stored) :
    (addDocument k f p l s).m_documentsForPriority
      = modifyBucket p (fun b => setInsert b k)
          (modifyBucket stored.priority (fun b => setRemove b k) s.m_documentsForPriority) := by
  unfold addDocument
  rw [startTimer_buckets, h]

theorem addDocument_buckets_none (s : BackgroundParserPrivate) (k : KUrl) (f : Nat) (p : Int)
    (l : QObjectPtr) (h : mapFind s.m_documents k = none) :
    (addDocument k f p l s).m_documentsForPriority
      = modifyBucket p (fun b => setInsert b k) s.m_documentsForPriority := by
  unfold addDocument
  rw [startTimer_buckets, h]

theorem addDocument_maxParseJobs (s : BackgroundParserPrivate) (k : KUrl) (f : Nat) (p : Int)
    (l : QObjectPtr) :
    (addDocument k f p l s).m_maxParseJobs
      = if mapContains s.m_documents k then s.m_maxParseJobs else s.m_maxParseJobs + 1 := by
  unfold addDocument
  rw [startTimer_maxParseJobs]
  cases h : mapFind s.m_documents k <;> simp [mapContains, h]

theorem addDocument_timerActive (s : BackgroundParserPrivate) (k : KUrl) (f : Nat) (p : Int)
    (l : QObjectPtr) : (addDocument k f p l s).m_timerActive = true := by
  unfold addDocument
  exact startTimer_timerActive _

theorem mem_bucket_addDocument_some (s : BackgroundParserPrivate) (k : KUrl) (f : Nat) (p : Int)
    (l : QObjectPtr) (stored : DocumentParsePlan) (h : mapFind s.m_documents k = some stored)
    (q : Int) (u : KUrl) :
    u ∈ bucket (addDocument k f p l s).m_documentsForPriority q ↔
      (q = p ∧ u = k) ∨
      (u ∈ bucket s.m_documentsForPriority q ∧ ¬ (q = stored.priority ∧ u = k)) := by
  rw [addDocument_buckets_some s k f p l stored h]
  simp only [bucket_modifyBucket]
  by_cases hq : q = p
  · subst hq
    simp only [if_true, mem_setInsert, true_and]
    by_cases hs : q = stored.priority
    · simp only [hs, if_true, mem_setRemove, true_and]
      tauto
    · simp only [hs, if_false, false_and, not_false_eq_true, and_true]
      tauto
  · simp only [hq, if_false, false_and, false_or]
    by_cases hs : q = stored.priority
    · simp only [hs, if_true, mem_setRemove, true_and]
    · simp only [hs, if_false, false_and, not_false_eq_true, and_true]

theorem mem_bucket_addDocument_none (s : BackgroundParserPrivate) (k : KUrl) (f : Nat) (p : Int)
    (l : QObjectPtr) (h : mapFind s.m_documents k = none) (q : Int) (u : KUrl) :
    u ∈ bucket (addDocument k f p l s).m_documentsForPriority q ↔
      (q = p ∧ u = k) ∨ u ∈ bucket s.m_documentsForPriority q := by
  rw [addDocument_buckets_none s k f p l h, bucket_modifyBucket]
  by_cases hq : q = p
  · subst hq
    simp only [if_true, mem_setInsert, true_and]
    tauto
  · simp only [hq, if_false, false_and, false_or]

/-- After `addDocument k f p l` the document is pending with a priority that is
`p` or better and lies in bucket `p`; it lies in the bucket of its stored
priority only if that priority is `p`. -/
theorem addDocument_post (s : BackgroundParserPrivate) (k : KUrl) (f : Nat) (p : Int)
    (l : QObjectPtr) :
    ∃ plan, mapFind (addDocument k f p l s).m_documents k = some plan ∧
      f ≤ plan.features ∧ plan.priority ≤ p ∧
      k ∈ bucket (addDocument k f p l s).m_documentsForPriority p ∧
      (k ∈ bucket (addDocument k f p l s).m_documentsForPriority plan.priority →
        plan.priority = p) := by
  cases h : mapFind s.m_documents k with
  | none =>
    refine ⟨{ priority := p, features := f, notifyWhenReady := [l] }, ?_, le_refl _, le_refl _,
      ?_, fun _ => rfl⟩
    · rw [addDocument_documents_none s k f p l h, mapFind_mapInsert]; simp
    · rw [mem_bucket_addDocument_none s k f p l h]; exact Or.inl ⟨rfl, rfl⟩
  | some stored =>
    refine ⟨mergePlan stored f p l, ?_, ?_, ?_, ?_, ?_⟩
    · rw [addDocument_documents_some s k f p l stored h, mapFind_mapInsert]; simp
    · rw [mergePlan_features]; exact le_max_right _ _
    · rw [mergePlan_priority]; exact min_le_right _ _
    · rw [mem_bucket_addDocument_some s k f p l stored h]; exact Or.inl ⟨rfl, rfl⟩
    · intro hk
      rw [mem_bucket_addDocument_some s k f p l stored h] at hk
      rcases hk with hk | hk
      · exact hk.1
      · rw [mergePlan_priority] at hk ⊢
        rcases min_choice stored.priority p with hm | hm
        · exact absurd ⟨hm, rfl⟩ hk.2
        · exact hm

/-- C8, as stated, fails: the second of two identical calls changes
`m_documents`, because the listener is appended to `notifyWhenReady` once
more. -/
theorem addDocument_twice_changes_listeners :
    (addDocument 7 1 1 3 (addDocument 7 1 1 3 (initial acceptAll))).m_documents
      ≠ (addDocument 7 1 1 3 (initial acceptAll)).m_documents ∧
    mapFind (addDocument 7 1 1 3 (initial acceptAll)).m_documents 7
      = some { priority := 1, features := 1, notifyWhenReady := [3] } ∧
    mapFind (addDocument 7 1 1 3 (addDocument 7 1 1 3 (initial acceptAll))).m_documents 7
      = some { priority := 1, features := 1, notifyWhenReady := [3, 3] } := by
  decide

/-- C8 (amended): a second identical `addDocument k f p l` leaves the plan of
every other key, the stored priority and features of `k`, the membership of
every bucket, both counters, `m_parseJobs` and `m_delayedParseJobs` as they are
after the first call, and the timer is armed; the listener list of `k` gets `l`
in front once more, so its members are unchanged. -/
theorem addDocument_twice (s : BackgroundParserPrivate) (k : KUrl) (f : Nat) (p : Int)
    (l : QObjectPtr) :
    (∀ k', k' ≠ k →
      mapFind (addDocument k f p l (addDocument k f p l s)).m_documents k'
        = mapFind (addDocument k f p l s).m_documents k') ∧
    (∃ plan, mapFind (addDocument k f p l s).m_documents k = some plan ∧
      mapFind (addDocument k f p l (addDocument k f p l s)).m_documents k
        = some { plan with notifyWhenReady := l :: plan.notifyWhenReady } ∧
      l ∈ plan.notifyWhenReady) ∧
    (∀ q u, u ∈ bucket (addDocument k f p l (addDocument k f p l s)).m_documentsForPriority q ↔
      u ∈ bucket (addDocument k f p l s).m_documentsForPriority q) ∧
    (addDocument k f p l (addDocument k f p l s)).m_maxParseJobs
      = (addDocument k f p l s).m_maxParseJobs ∧
    (addDocument k f p l (addDocument k f p l s)).m_doneParseJobs
      = (addDocument k f p l s).m_doneParseJobs ∧
    (addDocument k f p l (addDocument k f p l s)).m_parseJobs
      = (addDocument k f p l s).m_parseJobs ∧
    (addDocument k f p l (addDocument k f p l s)).m_delayedParseJobs
      = (addDocument k f p l s).m_delayedParseJobs ∧
    (addDocument k f p l (addDocument k f p l s)).m_timerActive = true := by
  obtain ⟨plan, hplan, hf, hp, hin, honly⟩ := addDocument_post s k f p l
  have hl : l ∈ plan.notifyWhenReady := by
    cases h : mapFind s.m_documents k with
    | none =>
      rw [addDocument_documents_none s k f p l h, mapFind_mapInsert] at hplan
      simp only [if_true, Option.some.injEq] at hplan
      rw [← hplan]; simp
    | some stored =>
      rw [addDocument_documents_some s k f p l stored h, mapFind_mapInsert] at hplan
      simp only [if_true, Option.some.injEq] at hplan
      rw [← hplan, mergePlan_notifyWhenReady]; simp
  have hfr := addDocument_frame k f p l (addDocument k f p l s)
  refine ⟨fun k' hk' => addDocument_find_other _ k f p l k' hk', ⟨plan, hplan, ?_, hl⟩, ?_, ?_,
    hfr.2.2.2.2.2, hfr.1, hfr.2.1, addDocument_timerActive _ k f p l⟩
  · rw [addDocument_documents_some _ k f p l plan hplan, mapFind_mapInsert]
    simp only [if_true, Option.some.injEq]
    have h1 := mergePlan_priority plan f p l
    have h2 := mergePlan_features plan f p l
    have h3 := mergePlan_notifyWhenReady plan f p l
    rw [min_eq_left hp] at h1
    rw [max_eq_left hf] at h2
    cases hm : mergePlan plan f p l with
    | mk a b c =>
      rw [hm] at h1 h2 h3
      simp only at h1 h2 h3
      rw [h1, h2, h3]
  · intro q u
    rw [mem_bucket_addDocument_some _ k f p l plan hplan]
    constructor
    · rintro (⟨hq, hu⟩ | ⟨hu, _⟩)
      · rw [hq, hu]; exact hin
      · exact hu
    · intro hu
      by_cases hc : q = plan.priority ∧ u = k
      · left
        obtain ⟨hq, huk⟩ := hc
        rw [hq, huk] at hu
        exact ⟨hq.trans (honly hu), huk⟩
      · exact Or.inr ⟨hu, hc⟩
  · rw [addDocument_maxParseJobs]
    have : mapContains (addDocument k f p l s).m_documents k = true := by
      simp [mapContains, hplan]
    simp [this]

/-! ## The priority floor -/

theorem dispatchDocument_jobs (env : Env) (url : KUrl) (s : BackgroundParserPrivate)
    (jobs : List ParseJob) :
    ∀ j ∈ (dispatchDocument env url s jobs).2, j ∈ jobs ∨ j.document = url := by
  unfold dispatchDocument
  cases h : backendAccepts env url
  · simp only [createParseJob_declined env url _ _ s h]
    intro j hj
    exact Or.inl hj
  · simp only [createParseJob_accepted env url _ _ s h, List.mem_append, List.mem_singleton]
    rintro j (hj | hj)
    · exact Or.inl hj
    · right; rw [hj]

theorem createDelayedJob_jobs (env : Env) (url : KUrl) (tracker : List SmartRange)
    (s : BackgroundParserPrivate) (jobs : List ParseJob) :
    ∀ j ∈ (createDelayedJob env url tracker s jobs).2, j ∈ jobs ∨ j.document = url := by
  unfold createDelayedJob
  cases h : backendAccepts env url
  · simp only [createParseJob_declined env url _ _ s h]
    intro j hj
    exact Or.inl hj
  · simp only [createParseJob_accepted env url _ _ s h, List.mem_append, List.mem_singleton]
    rintro j (hj | hj)
    · exact Or.inl hj
    · right; rw [hj]

theorem parseBucket_subset (env : Env) (b : List KUrl) (s : BackgroundParserPrivate)
    (jobs : List ParseJob) : ∀ u ∈ (parseBucket env b s jobs).1, u ∈ b := by
  induction b generalizing s jobs with
  | nil => intro u hu; simp [parseBucket] at hu
  | cons url rest ih =>
    intro u hu
    unfold parseBucket at hu
    by_cases hcap : capReached s jobs = true
    · simp only [hcap, if_true] at hu; exact hu
    · have hcap' : capReached s jobs = false := by simpa using hcap
      by_cases hrun : mapContains s.m_parseJobs url = true
      · simp only [hcap', hrun, Bool.false_eq_true, if_false, if_true] at hu
        rcases List.mem_cons.mp hu with h1 | h1
        · rw [h1]; exact List.mem_cons_self _ _
        · exact List.mem_cons_of_mem _ (ih s jobs u h1)
      · have hrun' : mapContains s.m_parseJobs url = false := by simpa using hrun
        simp only [hcap', hrun', Bool.false_eq_true, if_false] at hu
        exact List.mem_cons_of_mem _ (ih _ _ u hu)

theorem parseBuckets_entries (env : Env) (bs : List (Int × List KUrl))
    (s : BackgroundParserPrivate) (jobs : List ParseJob) :
    ∀ e' ∈ (parseBuckets env bs s jobs).1, ∃ e ∈ bs, e'.1 = e.1 ∧ ∀ u ∈ e'.2, u ∈ e.2 := by
  induction bs generalizing s jobs with
  | nil => intro e' he'; simp [parseBuckets] at he'
  | cons e rest ih =>
    obtain ⟨p, b⟩ := e
    intro e' he'
    unfold parseBuckets at he'
    by_cases hp : p > s.m_neededPriority
    · simp only [hp, if_true] at he'
      exact ⟨e', he', rfl, fun u hu => hu⟩
    · simp only [hp, if_false] at he'
      rcases List.mem_cons.mp he' with h1 | h1
      · refine ⟨(p, b), List.mem_cons_self _ _, by rw [h1], ?_⟩
        intro u hu
        rw [h1] at hu
        exact parseBucket_subset env b s jobs u hu
      · obtain ⟨e, he, h2, h3⟩ := ih _ _ e' h1
        exact ⟨e, List.mem_cons_of_mem _ he, h2, h3⟩

theorem collectJobs_buckets_entries (env : Env) (s : BackgroundParserPrivate) :
    ∀ e' ∈ (collectJobs env s).1.m_documentsForPriority,
      ∃ e ∈ s.m_documentsForPriority, e'.1 = e.1 ∧ ∀ u ∈ e'.2, u ∈ e.2 := by
  intro e' he'
  unfold collectJobs at he'
  simp only [createDelayedJobs_buckets] at he'
  exact parseBuckets_entries env _ _ _ e' he'

theorem dispatchDocument_jobs_eq (env : Env) (url : KUrl) (s : BackgroundParserPrivate)
    (jobs : List ParseJob) :
    (dispatchDocument env url s jobs).2
      = if backendAccepts env url then
          jobs ++ [{ id := s.nextJobId, document := url,
                     minimumFeatures := (planOrDefault env s url).features,
                     notifyWhenReady := (planOrDefault env s url).notifyWhenReady,
                     changedRanges := [] }]
        else jobs := by
  unfold dispatchDocument
  cases h : backendAccepts env url
  · simp [createParseJob_declined env url _ _ s h]
  · simp [createParseJob_accepted env url _ _ s h]

theorem parseBucket_capped (env : Env) (b : List KUrl) (s : BackgroundParserPrivate)
    (jobs : List ParseJob) (h : capReached s jobs = true) :
    (parseBucket env b s jobs).2 = (s, jobs) := by
  cases b with
  | nil => rfl
  | cons url rest => unfold parseBucket; simp [h]

theorem parseBuckets_capped (env : Env) (bs : List (Int × List KUrl))
    (s : BackgroundParserPrivate) (jobs : List ParseJob) (h : capReached s jobs = true) :
    (parseBuckets env bs s jobs).2 = (s, jobs) := by
  induction bs with
  | nil => rfl
  | cons e rest ih =>
    obtain ⟨p, b⟩ := e
    unfold parseBuckets
    by_cases hp : p > s.m_neededPriority
    · simp [hp]
    · have hr := parseBucket_capped env b s jobs h
      have h1 : (parseBucket env b s jobs).2.1 = s := by rw [hr]
      have h2 : (parseBucket env b s jobs).2.2 = jobs := by rw [hr]
      simp only [hp, if_false, h1, h2]
      exact ih

theorem parseBucket_jobs_extend (env : Env) (b : List KUrl) (s : BackgroundParserPrivate)
    (jobs : List ParseJob) : ∃ extra, (parseBucket env b s jobs).2.2 = jobs ++ extra :=
  parseBucket_invariant env (fun _ jobs' => ∃ extra, jobs' = jobs ++ extra) b
    (by
      rintro url _ s' jobs' ⟨extra, he⟩ _ _
      rw [dispatchDocument_jobs_eq, he]
      cases backendAccepts env url
      · exact ⟨extra, by simp⟩
      · simp only [if_true, List.append_assoc]
        exact ⟨extra ++ [_], rfl⟩)
    s jobs ⟨[], by simp⟩

theorem parseBuckets_jobs_extend (env : Env) (bs : List (Int × List KUrl))
    (s : BackgroundParserPrivate) (jobs : List ParseJob) :
    ∃ extra, (parseBuckets env bs s jobs).2.2 = jobs ++ extra :=
  parseBuckets_invariant env (fun _ jobs' => ∃ extra, jobs' = jobs ++ extra) bs
    (by
      rintro e _ url _ s' jobs' ⟨extra, he⟩ _ _ _
      rw [dispatchDocument_jobs_eq, he]
      cases backendAccepts env url
      · exact ⟨extra, by simp⟩
      · simp only [if_true, List.append_assoc]
        exact ⟨extra ++ [_], rfl⟩)
    (dispatchDocument_neededPriority env) s jobs ⟨[], by simp⟩

theorem parseBucket_neededPriority (env : Env) (b : List KUrl) (s : BackgroundParserPrivate)
    (jobs : List ParseJob) :
    (parseBucket env b s jobs).2.1.m_neededPriority = s.m_neededPriority :=
  parseBucket_invariant env (fun s' _ => s'.m_neededPriority = s.m_neededPriority) b
    (by intro url _ s' jobs' hi _ _; rw [dispatchDocument_neededPriority]; exact hi) s jobs rfl

/-- Every key of `m_parseJobs` has a job in the batch; this holds during a tick
that started with an empty `m_parseJobs` and an accepting backend. -/
theorem dispatchDocument_registered (env : Env) (hacc : ∀ url, backendAccepts env url = true)
    (url : KUrl) (s : BackgroundParserPrivate) (jobs : List ParseJob)
    (h : ∀ k, mapContains s.m_parseJobs k = true → ∃ j ∈ jobs, j.document = k) :
    ∀ k, mapContains (dispatchDocument env url s jobs).1.m_parseJobs k = true →
      ∃ j ∈ (dispatchDocument env url s jobs).2, j.document = k := by
  intro k hk
  rw [dispatchDocument_parseJobs, hacc url] at hk
  simp only [if_true, mapContains_mapInsert, Bool.or_eq_true, decide_eq_true_eq] at hk
  rw [dispatchDocument_jobs_eq, hacc url]
  simp only [if_true, List.mem_append, List.mem_singleton]
  rcases hk with hk | hk
  · exact ⟨_, Or.inr rfl, hk.symm⟩
  · obtain ⟨j, hj, hd⟩ := h k hk
    exact ⟨j, Or.inl hj, hd⟩

theorem parseBucket_registered (env : Env) (hacc : ∀ url, backendAccepts env url = true)
    (b : List KUrl) (s : BackgroundParserPrivate) (jobs : List ParseJob)
    (h : ∀ k, mapContains s.m_parseJobs k = true → ∃ j ∈ jobs, j.document = k) :
    ∀ k, mapContains (parseBucket env b s jobs).2.1.m_parseJobs k = true →
      ∃ j ∈ (parseBucket env b s jobs).2.2, j.document = k :=
  parseBucket_invariant env
    (fun s' jobs' => ∀ k, mapContains s'.m_parseJobs k = true → ∃ j ∈ jobs', j.document = k) b
    (by intro url _ s' jobs' hi _ _; exact dispatchDocument_registered env hacc url s' jobs' hi)
    s jobs h

theorem parseBucket_no_job_for (env : Env) (B : KUrl) (b : List KUrl) (hB : B ∉ b)
    (s : BackgroundParserPrivate) (jobs : List ParseJob)
    (h : ∀ j ∈ jobs, j.document ≠ B) :
    ∀ j ∈ (parseBucket env b s jobs).2.2, j.document ≠ B :=
  parseBucket_invariant env (fun _ jobs' => ∀ j ∈ jobs', j.document ≠ B) b
    (by
      intro url hu s' jobs' hi _ _ j hj
      rcases dispatchDocument_jobs env url s' jobs' j hj with h1 | h1
      · exact hi j h1
      · rw [h1]; intro e; rw [e] at hu; exact hB hu)
    s jobs h

/-- Walking a bucket that contains `A` ends either at the admission cap or
with a job for `A` in the batch. -/
theorem parseBucket_reaches (env : Env) (hacc : ∀ url, backendAccepts env url = true)
    (A : KUrl) (b : List KUrl) (hA : A ∈ b) (s : BackgroundParserPrivate)
    (jobs : List ParseJob)
    (h : ∀ k, mapContains s.m_parseJobs k = true → ∃ j ∈ jobs, j.document = k) :
    capReached (parseBucket env b s jobs).2.1 (parseBucket env b s jobs).2.2 = true ∨
    ∃ j ∈ (parseBucket env b s jobs).2.2, j.document = A := by
  induction b generalizing s jobs with
  | nil => simp at hA
  | cons url rest ih =>
    unfold parseBucket
    by_cases hcap : capReached s jobs = true
    · left; simp only [hcap, if_true]
    · have hcap' : capReached s jobs = false := by simpa using hcap
      by_cases hrun : mapContains s.m_parseJobs url = true
      · simp only [hcap', hrun, Bool.false_eq_true, if_false, if_true]
        by_cases hu : url = A
        · right
          obtain ⟨j, hj, hd⟩ := h url hrun
          obtain ⟨extra, he⟩ := parseBucket_jobs_extend env rest s jobs
          rw [he]
          exact ⟨j, List.mem_append_left _ hj, hd.trans hu⟩
        · have hA' : A ∈ rest := by
            rcases List.mem_cons.mp hA with h1 | h1
            · exact absurd h1.symm hu
            · exact h1
          exact ih hA' s jobs h
      · have hrun' : mapContains s.m_parseJobs url = false := by simpa using hrun
        simp only [hcap', hrun', Bool.false_eq_true, if_false]
        have hreg := dispatchDocument_registered env hacc url s jobs h
        by_cases hu : url = A
        · right
          obtain ⟨extra, he⟩ := parseBucket_jobs_extend env rest
            (dispatchDocument env url s jobs).1 (dispatchDocument env url s jobs).2
          rw [he]
          have hj : ∃ j ∈ (dispatchDocument env url s jobs).2, j.document = url := by
            rw [dispatchDocument_jobs_eq, hacc url]
            simp only [if_true]
            exact ⟨_, List.mem_append_right _ (List.mem_singleton_self _), rfl⟩
          obtain ⟨j, hj, hd⟩ := hj
          exact ⟨j, List.mem_append_left _ hj, hd.trans hu⟩
        · have hA' : A ∈ rest := by
            rcases List.mem_cons.mp hA with h1 | h1
            · exact absurd h1.symm hu
            · exact h1
          exact ih hA' _ _ hreg

theorem bucket_eq_nil_of_lt (bs : List (Int × List KUrl)) (p : Int)
    (h : ∀ e ∈ bs, p < e.1) : bucket bs p = [] := by
  induction bs with
  | nil => rfl
  | cons e rest ih =>
    obtain ⟨q, b⟩ := e
    have hq : ¬ q = p := by
      intro e
      have := h (q, b) (List.mem_cons_self _ _)
      simp only [e] at this
      exact lt_irrefl _ this
    simp only [bucket, hq, if_false]
    exact ih (fun e he => h e (List.mem_cons_of_mem _ he))

/-- A batch `mid ++ extra` in which `mid` has no job for `B`, and `extra` is
empty unless `mid` has a job for `A`, has a job for `A` before every job for
`B`. -/
theorem job_before_of_split (A B : KUrl) (mid extra : List ParseJob)
    (hmid : ∀ j ∈ mid, j.document ≠ B)
    (h : (∃ j ∈ mid, j.document = A) ∨ extra = []) :
    ∀ l1 j l2, mid ++ extra = l1 ++ j :: l2 → j.document = B →
      ∃ j' ∈ l1, j'.document = A := by
  intro l1 j l2 heq hj
  rcases List.append_eq_append_iff.mp heq with ⟨a', h1, h2⟩ | ⟨c', h1, h2⟩
  · rcases h with ⟨j', hj', hd⟩ | he
    · exact ⟨j', by rw [h1]; exact List.mem_append_left _ hj', hd⟩
    · rw [he] at h2
      have := congrArg List.length h2
      simp at this
      omega
  · cases c' with
    | nil =>
      simp only [List.append_nil, List.nil_append] at h1 h2
      rcases h with ⟨j', hj', hd⟩ | he
      · exact ⟨j', by rw [← h1]; exact hj', hd⟩
      · rw [he] at h2
        exact absurd h2 (List.cons_ne_nil _ _)
    | cons c cs =>
      simp only [List.cons_append, List.cons.injEq] at h2
      have hjm : j ∈ mid := by
        rw [h1, h2.1]
        simp
      exact absurd hj (hmid j hjm)

theorem parseBuckets_order (env : Env) (hacc : ∀ url, backendAccepts env url = true)
    (A B : KUrl) (pA : Int) (bs : List (Int × List KUrl))
    (hsorted : bs.Pairwise (fun a b => a.1 < b.1))
    (hA : A ∈ bucket bs pA)
    (hB : ∀ q, q ≤ pA → B ∉ bucket bs q)
    (s : BackgroundParserPrivate) (jobs : List ParseJob)
    (hfloor : pA ≤ s.m_neededPriority)
    (hreg : ∀ k, mapContains s.m_parseJobs k = true → ∃ j ∈ jobs, j.document = k)
    (hno : ∀ j ∈ jobs, j.document ≠ B) :
    ∃ mid extra, (parseBuckets env bs s jobs).2.2 = mid ++ extra ∧
      (∀ j ∈ mid, j.document ≠ B) ∧
      ((∃ j ∈ mid, j.document = A) ∨
        (extra = [] ∧
          capReached (parseBuckets env bs s jobs).2.1 (parseBuckets env bs s jobs).2.2 = true)) := by
  induction bs generalizing s jobs with
  | nil => simp [bucket] at hA
  | cons e rest ih =>
    obtain ⟨q, b⟩ := e
    obtain ⟨hq_lt, hrest⟩ := List.pairwise_cons.mp hsorted
    have hnil_of_lt : pA < q → False := by
      intro hlt
      have hne : ¬ q = pA := fun e => by rw [e] at hlt; exact lt_irrefl _ hlt
      have : bucket rest pA = [] :=
        bucket_eq_nil_of_lt rest pA (fun e he => lt_trans hlt (hq_lt e he))
      simp only [bucket, hne, if_false, this] at hA
      simp at hA
    have hp : ¬ q > s.m_neededPriority := by
      intro hgt
      exact hnil_of_lt (lt_of_le_of_lt hfloor hgt)
    have hqle : q ≤ pA := by
      by_contra hc
      exact hnil_of_lt (not_le.mp hc)
    have hBb : B ∉ b := by
      have := hB q hqle
      simpa [bucket] using this
    have hno' := parseBucket_no_job_for env B b hBb s jobs hno
    have hreg' := parseBucket_registered env hacc b s jobs hreg
    have hunfold : (parseBuckets env ((q, b) :: rest) s jobs).2
        = (parseBuckets env rest (parseBucket env b s jobs).2.1
            (parseBucket env b s jobs).2.2).2 := by
      conv_lhs => unfold parseBuckets
      simp only [hp, if_false]
    rw [hunfold]
    by_cases hq : q = pA
    · have hAb : A ∈ b := by simpa [bucket, hq] using hA
      rcases parseBucket_reaches env hacc A b hAb s jobs hreg with hcap | hjob
      · have hc := parseBuckets_capped env rest _ _ hcap
        refine ⟨(parseBucket env b s jobs).2.2, [], ?_, hno', Or.inr ⟨rfl, ?_⟩⟩
        · rw [hc]; simp
        · rw [hc]; exact hcap
      · obtain ⟨extra, he⟩ := parseBuckets_jobs_extend env rest
          (parseBucket env b s jobs).2.1 (parseBucket env b s jobs).2.2
        exact ⟨(parseBucket env b s jobs).2.2, extra, he, hno', Or.inl hjob⟩
    · have hA' : A ∈ bucket rest pA := by simpa [bucket, hq] using hA
      have hB' : ∀ q', q' ≤ pA → B ∉ bucket rest q' := by
        intro q' hq'
        by_cases hqq : q = q'
        · rw [← hqq, bucket_eq_nil_of_lt rest q hq_lt]
          simp
        · have := hB q' hq'
          simpa [bucket, hqq] using this
      exact ih hrest hA' hB' _ _
        (by rw [parseBucket_neededPriority]; exact hfloor) hreg' hno'

/-- C9, as stated, fails: one thread, nothing running or delayed, an accepting
backend and a floor that admits everything; documents 9 and 10 are pending
with priorities 2 < 3, but the batch of the tick holds jobs for documents 7
and 8 only (priorities 0 and 1): the admission test stops the walk before 9. -/
theorem batch_stops_at_admission_cap :
    ReachableBy acceptAll schedulerOp fourPending ∧
    fourPending.m_threads = 1 ∧ fourPending.m_parseJobs = [] ∧
    fourPending.m_delayedParseJobs = [] ∧
    (mapFind fourPending.m_documents 9).map (fun plan => plan.priority) = some 2 ∧
    (mapFind fourPending.m_documents 10).map (fun plan => plan.priority) = some 3 ∧
    3 ≤ fourPending.m_neededPriority ∧
    (parseDocumentsBatch acceptAll fourPending).map (fun j => j.document) = [7, 8] := by
  have h0 : ReachableBy acceptAll schedulerOp (initial acceptAll) := ReachableBy.init
  have h1 := ReachableBy.step _ (Op.addDocument 7 1 0 0) h0 (by simp [schedulerOp])
  have h2 := ReachableBy.step _ (Op.addDocument 8 1 1 0) h1 (by simp [schedulerOp])
  have h3 := ReachableBy.step _ (Op.addDocument 9 1 2 0) h2 (by simp [schedulerOp])
  have h4 := ReachableBy.step _ (Op.addDocument 10 1 3 0) h3 (by simp [schedulerOp])
  exact ⟨h4, by decide, by decide, by decide, by decide, by decide, by decide, by decide⟩

/-- C9 (amended): with empty `m_parseJobs` and `m_delayedParseJobs`, a backend
that accepts every url and buckets in ascending order, let `A` and `B` be
pending with stored priorities `pA < pB ≤ m_neededPriority`, `A` a member of
bucket `pA` and `B` a member of no bucket other than `pB`. Then in the batch of
one tick every job for `B` is preceded by a job for `A`, and the batch has a
job for `A` unless the walk ended at the admission test. -/
theorem priority_order_of_batch (env : Env) (s : BackgroundParserPrivate) (A B : KUrl)
    (planA planB : DocumentParsePlan)
    (hacc : ∀ url, backendAccepts env url = true)
    (hsorted : s.m_documentsForPriority.Pairwise (fun a b => a.1 < b.1))
    (hrun : s.m_parseJobs = []) (hdel : s.m_delayedParseJobs = [])
    (_hpA : mapFind s.m_documents A = some planA)
    (_hpB : mapFind s.m_documents B = some planB)
    (hlt : planA.priority < planB.priority)
    (hfloor : planB.priority ≤ s.m_neededPriority)
    (hA : A ∈ bucket s.m_documentsForPriority planA.priority)
    (hB : ∀ q, B ∈ bucket s.m_documentsForPriority q → q = planB.priority) :
    (∀ l1 j l2, parseDocumentsBatch env s = l1 ++ j :: l2 → j.document = B →
      ∃ j' ∈ l1, j'.document = A) ∧
    ((∃ j ∈ parseDocumentsBatch env s, j.document = A) ∨
      capReached (collectJobs env s).1 (parseDocumentsBatch env s) = true) := by
  have hB' : ∀ q, q ≤ planA.priority → B ∉ bucket s.m_documentsForPriority q := by
    intro q hq hmem
    have := hB q hmem
    rw [this] at hq
    exact absurd hlt (not_lt.mpr hq)
  have hcollect : collectJobs env s
      = ({ (parseBuckets env s.m_documentsForPriority
              { s with m_delayedParseJobs := [] } []).2.1 with
            m_documentsForPriority :=
              (parseBuckets env s.m_documentsForPriority
                { s with m_delayedParseJobs := [] } []).1 },
         (parseBuckets env s.m_documentsForPriority
            { s with m_delayedParseJobs := [] } []).2.2) := by
    unfold collectJobs
    rw [hdel]
    rfl
  obtain ⟨mid, extra, he, hmid, hor⟩ := parseBuckets_order env hacc A B planA.priority
    s.m_documentsForPriority hsorted hA hB' { s with m_delayedParseJobs := [] } []
    (le_of_lt (lt_of_lt_of_le hlt hfloor))
    (by intro k hk; simp only [hrun] at hk; simp [mapContains, mapFind] at hk)
    (by intro j hj; simp at hj)
  have hbatch : parseDocumentsBatch env s = mid ++ extra := by
    unfold parseDocumentsBatch
    rw [hcollect]
    exact he
  constructor
  · rw [hbatch]
    apply job_before_of_split A B mid extra hmid
    rcases hor with h | h
    · exact Or.inl h
    · exact Or.inr h.1
  · rcases hor with ⟨j, hj, hd⟩ | ⟨_, hcap⟩
    · left
      rw [hbatch]
      exact ⟨j, List.mem_append_left _ hj, hd⟩
    · right
      unfold parseDocumentsBatch
      rw [hcollect]
      exact hcap

/-- Witness for C9 (amended), scenario 4 of the spec: `add(7, p=10);
add(8, p=1); tick` builds the batch with the job for 8 before the job for 7. -/
theorem priority_order_of_batch_witness :
    (∀ url, backendAccepts acceptAll url = true) ∧
    mapFind scenarioFour.m_documents 8
      = some { priority := 1, features := 1, notifyWhenReady := [0] } ∧
    mapFind scenarioFour.m_documents 7
      = some { priority := 10, features := 1, notifyWhenReady := [0] } ∧
    (parseDocumentsBatch acceptAll scenarioFour).map (fun j => j.document) = [8, 7] ∧
    ((∀ l1 j l2, parseDocumentsBatch acceptAll scenarioFour = l1 ++ j :: l2 → j.document = 7 →
      ∃ j' ∈ l1, j'.document = 8) ∧
     ((∃ j ∈ parseDocumentsBatch acceptAll scenarioFour, j.document = 8) ∨
      capReached (collectJobs acceptAll scenarioFour).1
        (parseDocumentsBatch acceptAll scenarioFour) = true)) :=
  ⟨fun _ => rfl, by decide, by decide, by decide,
   priority_order_of_batch acceptAll scenarioFour 8 7
     { priority := 1, features := 1, notifyWhenReady := [0] }
     { priority := 10, features := 1, notifyWhenReady := [0] }
     (fun _ => rfl) (by decide) (by decide) (by decide) (by decide) (by decide)
     (by decide) (by decide) (by decide)
     (by
       intro q hq
       have hb : scenarioFour.m_documentsForPriority = [(1, [8]), (10, [7])] := by decide
       rw [hb] at hq
       by_cases h1 : (1 : Int) = q
       · subst h1; simp [bucket] at hq
       · by_cases h2 : (10 : Int) = q
         · exact h2.symm
         · simp [bucket, h1, h2] at hq)⟩

theorem length_mapInsert_of_contains {β : Type} (m : List (Nat × β)) (k : Nat) (v : β)
    (h : mapContains m k = true) : (mapInsert m k v).length = m.length := by
  induction m with
  | nil => simp [mapContains, mapFind] at h
  | cons e rest ih =>
    obtain ⟨a, b⟩ := e
    by_cases ha : a = k
    · simp [mapInsert, ha]
    · have hrest : mapContains rest k = true := by
        simpa [mapContains, mapFind, ha] using h
      simp [mapInsert, ha, ih hrest]

theorem length_mapInsert_of_absent {β : Type} (m : List (Nat × β)) (k : Nat) (v : β)
    (h : mapContains m k = false) : (mapInsert m k v).length = m.length + 1 := by
  induction m with
  | nil => simp [mapInsert]
  | cons e rest ih =>
    obtain ⟨a, b⟩ := e
    by_cases ha : a = k
    · simp [mapContains, mapFind, ha] at h
    · have hrest : mapContains rest k = false := by
        simpa [mapContains, mapFind, ha] using h
      simp [mapInsert, ha, ih hrest]

/-! ## Frame of removeDocument and rangeContentsChanged -/

/-- C14: `removeDocument k` leaves `m_parseJobs`, `m_delayedParseJobs`,
`m_doneParseJobs`, `m_jobProgress`, `m_neededPriority`, the enqueued jobs and
the log of signals unchanged (nothing is asked of a job); it lowers
`m_maxParseJobs` by exactly one if `k` was pending and leaves the whole state
unchanged if `k` was not pending, whether or not `k` is in `m_parseJobs`. -/
theorem removeDocument_keeps_in_flight (k : KUrl) (s : BackgroundParserPrivate) :
    (removeDocument k s).m_parseJobs = s.m_parseJobs ∧
    (removeDocument k s).m_delayedParseJobs = s.m_delayedParseJobs ∧
    (removeDocument k s).m_doneParseJobs = s.m_doneParseJobs ∧
    (removeDocument k s).m_jobProgress = s.m_jobProgress ∧
    (removeDocument k s).m_neededPriority = s.m_neededPriority ∧
    (removeDocument k s).m_weaver = s.m_weaver ∧
    (removeDocument k s).emitted = s.emitted ∧
    (mapContains s.m_documents k = true →
      (removeDocument k s).m_maxParseJobs = s.m_maxParseJobs - 1) ∧
    (mapContains s.m_documents k = false → removeDocument k s = s) := by
  unfold removeDocument
  cases h : mapFind s.m_documents k with
  | none => simp [mapContains, h]
  | some stored => simp [mapContains, h]

theorem mem_trackerAdd (tracker : List SmartRange) (range x : SmartRange) :
    x ∈ trackerAdd tracker range ↔ x ∈ tracker ∨ x = range := by
  unfold trackerAdd
  by_cases h : range ∈ tracker
  · simp only [h, if_true]
    constructor
    · intro hx; exact Or.inl hx
    · rintro (hx | hx)
      · exact hx
      · rw [hx]; exact h
  · simp [h]

theorem rangeContentsChanged_accepted (env : Env) (k : KUrl) (r : SmartRange)
    (s : BackgroundParserPrivate) (job : Nat) (hjob : mapFind s.m_parseJobs k = some job)
    (hacc : env.addChangedRange job r = true) : rangeContentsChanged env k r s = s := by
  unfold rangeContentsChanged
  simp [hjob, hacc]

theorem rangeContentsChanged_refused (env : Env) (k : KUrl) (r : SmartRange)
    (s : BackgroundParserPrivate)
    (h : mapFind s.m_parseJobs k = none ∨
      ∃ job, mapFind s.m_parseJobs k = some job ∧ env.addChangedRange job r = false) :
    rangeContentsChanged env k r s
      = startTimer
          { s with
            m_delayedParseJobs :=
              mapInsert s.m_delayedParseJobs k
                (trackerAdd ((mapFind s.m_delayedParseJobs k).getD []) r) } := by
  unfold rangeContentsChanged
  have hget : (match mapFind s.m_delayedParseJobs k with
      | some t => t
      | none => []) = (mapFind s.m_delayedParseJobs k).getD [] := by
    cases mapFind s.m_delayedParseJobs k <;> rfl
  rcases h with h | ⟨job, h1, h2⟩
  · simp [h, hget]
  · simp [h1, h2, hget]

/-- C16: `rangeContentsChanged k r` leaves `m_documents`,
`m_documentsForPriority`, `m_parseJobs` and both counters unchanged. If `k` is
in `m_parseJobs` and its job accepts `r`, the whole state is unchanged.
Otherwise `m_delayedParseJobs` has an entry for `k` afterwards whose ranges are
the previous ranges of `k` (none if there was no entry) plus `r`, the entry of
every other key is unchanged, an existing entry is reused (the table keeps its
size) and a missing one is created, and the timer is armed. -/
theorem rangeContentsChanged_post (env : Env) (k : KUrl) (r : SmartRange)
    (s : BackgroundParserPrivate) :
    ((rangeContentsChanged env k r s).m_documents = s.m_documents ∧
     (rangeContentsChanged env k r s).m_documentsForPriority = s.m_documentsForPriority ∧
     (rangeContentsChanged env k r s).m_parseJobs = s.m_parseJobs ∧
     (rangeContentsChanged env k r s).m_maxParseJobs = s.m_maxParseJobs ∧
     (rangeContentsChanged env k r s).m_doneParseJobs = s.m_doneParseJobs) ∧
    (∀ job, mapFind s.m_parseJobs k = some job → env.addChangedRange job r = true →
      rangeContentsChanged env k r s = s) ∧
    ((mapFind s.m_parseJobs k = none ∨
        ∃ job, mapFind s.m_parseJobs k = some job ∧ env.addChangedRange job r = false) →
      (∃ t, mapFind (rangeContentsChanged env k r s).m_delayedParseJobs k = some t ∧
        ∀ x, x ∈ t ↔ x ∈ (mapFind s.m_delayedParseJobs k).getD [] ∨ x = r) ∧
      (∀ k', k' ≠ k → mapFind (rangeContentsChanged env k r s).m_delayedParseJobs k'
        = mapFind s.m_delayedParseJobs k') ∧
      (mapContains s.m_delayedParseJobs k = true →
        (rangeContentsChanged env k r s).m_delayedParseJobs.length
          = s.m_delayedParseJobs.length) ∧
      (mapContains s.m_delayedParseJobs k = false →
        (rangeContentsChanged env k r s).m_delayedParseJobs.length
          = s.m_delayedParseJobs.length + 1) ∧
      (rangeContentsChanged env k r s).m_timerActive = true) := by
  have hf := rangeContentsChanged_frame env k r s
  refine ⟨⟨hf.1, hf.2.1, hf.2.2.1, hf.2.2.2.2.2.1, hf.2.2.2.2.2.2⟩,
    rangeContentsChanged_accepted env k r s, ?_⟩
  intro h
  rw [rangeContentsChanged_refused env k r s h, (startTimer_frame _).2.1,
    startTimer_timerActive]
  refine ⟨⟨_, by rw [mapFind_mapInsert]; simp, fun x => mem_trackerAdd _ r x⟩, ?_, ?_, ?_, rfl⟩
  · intro k' hk'
    simp only []
    rw [mapFind_mapInsert]
    simp [hk']
  · intro hc
    exact length_mapInsert_of_contains _ k _ hc
  · intro hc
    exact length_mapInsert_of_absent _ k _ hc

/-! ## Documents that are not in the index -/

theorem mem_insertBucket (p : Int) (c : List KUrl) (m : List (Int × List KUrl))
    (e : Int × List KUrl) : e ∈ insertBucket p c m ↔ e = (p, c) ∨ e ∈ m := by
  induction m with
  | nil => simp [insertBucket]
  | cons a rest ih =>
    obtain ⟨q, b⟩ := a
    by_cases h : p < q
    · simp [insertBucket, h]
    · simp only [insertBucket, h, if_false, List.mem_cons, ih]
      tauto

theorem mem_modifyBucket (p : Int) (f : List KUrl → List KUrl) (m : List (Int × List KUrl))
    (e : Int × List KUrl) (he : e ∈ modifyBucket p f m) :
    (e.1 ≠ p ∧ e ∈ m) ∨ (e.1 = p ∧ ∃ b, e.2 = f b ∧ ((p, b) ∈ m ∨ b = [])) := by
  unfold modifyBucket at he
  by_cases h : hasBucket m p = true
  · simp only [h, if_true, List.mem_map] at he
    obtain ⟨a, ha, hae⟩ := he
    by_cases hp : a.1 = p
    · right
      simp only [hp, if_true] at hae
      rw [← hae]
      refine ⟨rfl, a.2, rfl, Or.inl ?_⟩
      rw [← hp]
      exact ha
    · left
      simp only [hp, if_false] at hae
      rw [← hae]
      exact ⟨hp, ha⟩
  · have h' : hasBucket m p = false := by simpa using h
    simp only [h', Bool.false_eq_true, if_false, mem_insertBucket] at he
    rcases he with he | he
    · right
      rw [he]
      exact ⟨rfl, [], rfl, Or.inr rfl⟩
    · left
      refine ⟨?_, he⟩
      intro hp
      have : hasBucket m p = true := by
        simp only [hasBucket, List.any_eq_true, decide_eq_true_eq]
        exact ⟨e, he, hp⟩
      rw [this] at h'
      exact Bool.noConfusion h'

theorem mem_bucket_entry (m : List (Int × List KUrl)) (q : Int) (u : KUrl)
    (h : u ∈ bucket m q) : ∃ e ∈ m, e.1 = q ∧ u ∈ e.2 := by
  induction m with
  | nil => simp [bucket] at h
  | cons a rest ih =>
    obtain ⟨r, b⟩ := a
    by_cases hr : r = q
    · simp only [bucket, hr, if_true] at h
      exact ⟨(r, b), List.mem_cons_self _ _, hr, h⟩
    · simp only [bucket, hr, if_false] at h
      obtain ⟨e, he, h1, h2⟩ := ih h
      exact ⟨e, List.mem_cons_of_mem _ he, h1, h2⟩

/-- A job for `k` in the batch of a tick comes from the delayed table or from
a bucket that contains `k`. -/
theorem batch_job_origin (env : Env) (s : BackgroundParserPrivate) (k : KUrl) :
    ∀ j ∈ parseDocumentsBatch env s, j.document = k →
      mapContains s.m_delayedParseJobs k = true ∨
      ∃ e ∈ s.m_documentsForPriority, k ∈ e.2 := by
  have key := collectJobs_invariant env s
    (fun _ jobs => ∀ j ∈ jobs, j.document = k →
      mapContains s.m_delayedParseJobs k = true ∨ ∃ e ∈ s.m_documentsForPriority, k ∈ e.2)
    (by intro j hj; simp at hj)
    (by
      rintro ⟨url, tracker⟩ he s' jobs hi j hj hd
      rcases createDelayedJob_jobs env url tracker s' jobs j hj with h | h
      · exact hi j h hd
      · left
        rw [← hd, h]
        exact mapContains_of_mem _ _ _ he)
    (by intro s' jobs hi; exact hi)
    (by
      rintro e he url hu s' jobs hi _ _ _ j hj hd
      rcases dispatchDocument_jobs env url s' jobs j hj with h | h
      · exact hi j h hd
      · right
        rw [← hd, h]
        exact ⟨e, he, hu⟩)
    (by intro s' jobs bk hi; exact hi)
  exact key

/-- A document that is in no bucket and has no recorded edit gets no job in
any of `n` consecutive ticks. -/
theorem parseDocumentsTimes_absent (env : Env) (k : KUrl) (n : Nat)
    (s : BackgroundParserPrivate)
    (hidx : ∀ e ∈ s.m_documentsForPriority, k ∉ e.2)
    (hdel : mapContains s.m_delayedParseJobs k = false) :
    ∀ i, i < n → ∀ j ∈ parseDocumentsBatch env (parseDocumentsTimes env i s),
      j.document ≠ k := by
  induction n generalizing s with
  | zero => intro i hi; exact absurd hi (Nat.not_lt_zero i)
  | succ n ih =>
    intro i hi j hj hd
    cases i with
    | zero =>
      rcases batch_job_origin env s k j hj hd with h | ⟨e, he, hk⟩
      · rw [hdel] at h; exact Bool.noConfusion h
      · exact hidx e he hk
    | succ i =>
      refine ih (parseDocuments env s) ?_ ?_ i (Nat.lt_of_succ_lt_succ hi) j hj hd
      · intro e' he' hk
        unfold parseDocuments at he'
        rw [parseDocumentsInternal_buckets] at he'
        obtain ⟨e, he, _, h2⟩ := collectJobs_buckets_entries env s e' he'
        exact hidx e he (h2 k hk)
      · unfold parseDocuments
        rw [parseDocumentsInternal_delayed, collectJobs_delayed]
        rfl

theorem removeDocument_find (url k : KUrl) (s : BackgroundParserPrivate) :
    mapFind (removeDocument url s).m_documents k
      = if k = url then none else mapFind s.m_documents k := by
  unfold removeDocument
  cases h : mapFind s.m_documents url with
  | none =>
    by_cases hk : k = url
    · subst hk; simp [h]
    · simp [hk]
  | some stored => simp [mapFind_mapRemove]

/-- C12, as stated, fails: in the state after a stray `notifyEdit(7)` document
7 is neither pending nor in any bucket, yet after `add(7); remove(7)` the tick
creates a job for 7 (from the delayed table). -/
theorem add_remove_then_delayed_job :
    ReachableBy acceptAll schedulerOp strayEdit ∧
    mapContains strayEdit.m_documents 7 = false ∧
    (∀ e ∈ strayEdit.m_documentsForPriority, 7 ∉ e.2) ∧
    (parseDocumentsBatch acceptAll
      (removeDocument 7 (addDocument 7 1 0 0 strayEdit))).map (fun j => j.document) = [7] := by
  have h0 : ReachableBy acceptAll schedulerOp (initial acceptAll) := ReachableBy.init
  have h1 := ReachableBy.step _ (Op.rangeContentsChanged 7 33) h0 (by simp [schedulerOp])
  exact ⟨h1, by decide, by decide, by decide⟩

/-- C12 (amended): if `A` is neither pending nor a member of any bucket, then
`addDocument A f p l` followed by `removeDocument A` restores the plan of every
key, the membership of every bucket and `m_maxParseJobs`, and a subsequent tick
creates a job for `A` only if `A` has an entry in `m_delayedParseJobs`. -/
theorem add_remove_round_trip (env : Env) (s : BackgroundParserPrivate) (A : KUrl) (f : Nat)
    (p : Int) (l : QObjectPtr)
    (hpend : mapFind s.m_documents A = none)
    (hidx : ∀ e ∈ s.m_documentsForPriority, A ∉ e.2) :
    (∀ k, mapFind (removeDocument A (addDocument A f p l s)).m_documents k
      = mapFind s.m_documents k) ∧
    (∀ q u, u ∈ bucket (removeDocument A (addDocument A f p l s)).m_documentsForPriority q ↔
      u ∈ bucket s.m_documentsForPriority q) ∧
    (removeDocument A (addDocument A f p l s)).m_maxParseJobs = s.m_maxParseJobs ∧
    (∀ j ∈ parseDocumentsBatch env (removeDocument A (addDocument A f p l s)),
      j.document = A → mapContains s.m_delayedParseJobs A = true) := by
  have hplan : mapFind (addDocument A f p l s).m_documents A
      = some { priority := p, features := f, notifyWhenReady := [l] } := by
    rw [addDocument_documents_none s A f p l hpend, mapFind_mapInsert]; simp
  have hrem : removeDocument A (addDocument A f p l s)
      = { addDocument A f p l s with
          m_documentsForPriority :=
            modifyBucket p (fun b => setRemove b A) (addDocument A f p l s).m_documentsForPriority,
          m_documents := mapRemove (addDocument A f p l s).m_documents A,
          m_maxParseJobs := (addDocument A f p l s).m_maxParseJobs - 1 } := by
    unfold removeDocument
    rw [hplan]
  have hnotin : ∀ q, A ∉ bucket s.m_documentsForPriority q := by
    intro q hq
    obtain ⟨e, he, _, h2⟩ := mem_bucket_entry _ q A hq
    exact hidx e he h2
  have hentries : ∀ e ∈ (removeDocument A (addDocument A f p l s)).m_documentsForPriority,
      A ∉ e.2 := by
    intro e he
    rw [hrem] at he
    simp only [] at he
    rcases mem_modifyBucket _ _ _ e he with ⟨hne, hmem⟩ | ⟨_, b, hb, _⟩
    · rw [addDocument_buckets_none s A f p l hpend] at hmem
      rcases mem_modifyBucket _ _ _ e hmem with ⟨_, hmem'⟩ | ⟨heq, _⟩
      · exact hidx e hmem'
      · exact absurd heq hne
    · rw [hb, mem_setRemove]
      intro h; exact h.2 rfl
  refine ⟨?_, ?_, ?_, ?_⟩
  · intro k
    rw [removeDocument_find]
    by_cases hk : k = A
    · subst hk; simp [hpend]
    · simp only [hk, if_false]
      exact addDocument_find_other s A f p l k hk
  · intro q u
    rw [hrem]
    simp only [bucket_modifyBucket]
    by_cases hq : q = p
    · rw [hq]
      simp only [if_true, mem_setRemove]
      rw [mem_bucket_addDocument_none s A f p l hpend]
      constructor
      · rintro ⟨h1 | h1, h2⟩
        · exact absurd h1.2 h2
        · exact h1
      · intro h
        refine ⟨Or.inr h, ?_⟩
        intro hu; rw [hu] at h; exact hnotin p h
    · simp only [hq, if_false]
      rw [mem_bucket_addDocument_none s A f p l hpend]
      simp only [hq, false_and, false_or]
  · rw [hrem]
    simp only []
    rw [addDocument_maxParseJobs]
    simp [mapContains, hpend]
  · intro j hj hd
    rcases batch_job_origin env _ A j hj hd with h | ⟨e, he, hk⟩
    · rw [(removeDocument_frame A _).2.1, (addDocument_frame A f p l s).2.1] at h
      exact h
    · exact absurd hk (hentries e he)

/-- Witness for C12 (amended), scenario 6 of the spec: `add(7, ., 0); remove(7)`
on the fresh scheduler brings `m_maxParseJobs` back to 0 and the tick creates
no job. -/
theorem add_remove_round_trip_witness :
    mapFind (initial acceptAll).m_documents 7 = none ∧
    (removeDocument 7 (addDocument 7 1 0 0 (initial acceptAll))).m_maxParseJobs = 0 ∧
    parseDocumentsBatch acceptAll (removeDocument 7 (addDocument 7 1 0 0 (initial acceptAll)))
      = [] ∧
    ((∀ k, mapFind (removeDocument 7 (addDocument 7 1 0 0 (initial acceptAll))).m_documents k
      = mapFind (initial acceptAll).m_documents k) ∧
    (∀ q u, u ∈ bucket (removeDocument 7
        (addDocument 7 1 0 0 (initial acceptAll))).m_documentsForPriority q ↔
      u ∈ bucket (initial acceptAll).m_documentsForPriority q) ∧
    (removeDocument 7 (addDocument 7 1 0 0 (initial acceptAll))).m_maxParseJobs
      = (initial acceptAll).m_maxParseJobs ∧
    (∀ j ∈ parseDocumentsBatch acceptAll
        (removeDocument 7 (addDocument 7 1 0 0 (initial acceptAll))),
      j.document = 7 → mapContains (initial acceptAll).m_delayedParseJobs 7 = true)) :=
  ⟨by decide, by decide, by decide,
   add_remove_round_trip acceptAll (initial acceptAll) 7 1 0 0 (by decide) (by decide)⟩

/-- C13, as stated, fails: after `add(7); notifyEdit(7)` the call
`removeDocument(7)` takes 7 out of `m_documents` and out of every bucket, but
the next tick still creates a job for 7, from the delayed table, although 7
was not added again. -/
theorem removed_document_parsed_from_delayed :
    ReachableBy acceptAll schedulerOp pendingEdited ∧
    mapContains (removeDocument 7 pendingEdited).m_documents 7 = false ∧
    (∀ e ∈ (removeDocument 7 pendingEdited).m_documentsForPriority, 7 ∉ e.2) ∧
    (parseDocumentsBatch acceptAll (removeDocument 7 pendingEdited)).map
      (fun j => j.document) = [7] := by
  have h0 : ReachableBy acceptAll schedulerOp (initial acceptAll) := ReachableBy.init
  have h1 := ReachableBy.step _ (Op.addDocument 7 1 1 0) h0 (by simp [schedulerOp])
  have h2 := ReachableBy.step _ (Op.rangeContentsChanged 7 33) h1 (by simp [schedulerOp])
  exact ⟨h2, by decide, by decide, by decide⟩

/-! ## The admission test -/

theorem parseDocumentsInternal_cap (env : Env) (s : BackgroundParserPrivate)
    (hd : s.m_delayedParseJobs = [])
    (hlen : (s.m_parseJobs.length : Int) ≤ 2 * s.m_threads + 1) :
    (collectJobs env s).1.m_threads = s.m_threads ∧
    ((collectJobs env s).1.m_parseJobs.length : Int) ≤ 2 * s.m_threads + 2 ∧
    ((collectJobs env s).1.m_parseJobs.length : Int) + ((collectJobs env s).2.length : Int)
      ≤ 2 * s.m_threads + 3 := by
  have key := collectJobs_invariant env s
    (fun s' jobs => s'.m_threads = s.m_threads ∧
      (s'.m_parseJobs.length : Int) ≤ 2 * s.m_threads + 2 ∧
      (s'.m_parseJobs.length : Int) + (jobs.length : Int) ≤ 2 * s.m_threads + 3)
    ⟨rfl, by omega, by simp only [List.length_nil, Int.ofNat_zero]; omega⟩
    (by intro e he; rw [hd] at he; simp at he)
    (by intro s' jobs hi; exact hi)
    (by
      rintro e _ url _ s' jobs ⟨h1, _, _⟩ _ hcap _
      have hc := capReached_false s' jobs hcap
      rw [h1] at hc
      refine ⟨by rw [dispatchDocument_threads]; exact h1, ?_, ?_⟩
      · rw [dispatchDocument_parseJobs]
        have hj : (0 : Int) ≤ (jobs.length : Int) := Int.ofNat_nonneg _
        cases backendAccepts env url
        · simp only [Bool.false_eq_true, if_false]; omega
        · simp only [if_true]
          have := length_mapInsert_le s'.m_parseJobs url s'.nextJobId
          omega
      · rw [dispatchDocument_parseJobs, dispatchDocument_jobs_eq]
        cases backendAccepts env url
        · simp only [Bool.false_eq_true, if_false]; omega
        · simp only [if_true, List.length_append, List.length_singleton]
          have := length_mapInsert_le s'.m_parseJobs url s'.nextJobId
          push_cast
          omega)
    (by intro s' jobs bk hi; exact hi)
  exact key

/-- C17, as stated, fails: one thread, empty delayed table, three entries in
`m_parseJobs` (`3 ≤ 2·1 + 1`) and document 10 pending; the tick creates a job
for 10 and `m_parseJobs` has four entries afterwards. -/
theorem admission_cap_exceeded :
    ReachableBy acceptAll schedulerOp threeRunning ∧
    threeRunning.m_threads = 1 ∧ threeRunning.m_delayedParseJobs = [] ∧
    threeRunning.m_parseJobs.length = 3 ∧
    (parseDocumentsBatch acceptAll threeRunning).map (fun j => j.document) = [10] ∧
    (parseDocuments acceptAll threeRunning).m_parseJobs.length = 4 := by
  have h0 : ReachableBy acceptAll schedulerOp (initial acceptAll) := ReachableBy.init
  have h1 := ReachableBy.step _ (Op.addDocument 7 1 0 0) h0 (by simp [schedulerOp])
  have h2 := ReachableBy.step _ (Op.addDocument 8 1 0 0) h1 (by simp [schedulerOp])
  have h3 := ReachableBy.step _ Op.parseDocuments h2 (by simp [schedulerOp])
  have h4 := ReachableBy.step _ (Op.addDocument 9 1 0 0) h3 (by simp [schedulerOp])
  have h5 := ReachableBy.step _ (Op.addDocument 10 1 0 0) h4 (by simp [schedulerOp])
  have h6 := ReachableBy.step _ Op.parseDocuments h5 (by simp [schedulerOp])
  exact ⟨h6, by decide, by decide, by decide, by decide, by decide⟩

/-- C17 (amended): for every state with an empty delayed table and at most
`2·m_threads + 1` entries in `m_parseJobs`, after one `parseDocuments` call
`m_parseJobs` has at most `2·m_threads + 2` entries, and its size plus the size
of the batch is at most `2·m_threads + 3`: the test is made before a job is
created and counts the jobs of the batch in both terms. -/
theorem admission_cap_after_tick (env : Env) (s : BackgroundParserPrivate)
    (hd : s.m_delayedParseJobs = [])
    (hlen : (s.m_parseJobs.length : Int) ≤ 2 * s.m_threads + 1) :
    (parseDocuments env s).m_threads = s.m_threads ∧
    ((parseDocuments env s).m_parseJobs.length : Int) ≤ 2 * s.m_threads + 2 ∧
    ((parseDocuments env s).m_parseJobs.length : Int)
      + ((parseDocumentsBatch env s).length : Int) ≤ 2 * s.m_threads + 3 := by
  unfold parseDocuments parseDocumentsBatch
  rw [parseDocumentsInternal_threads, parseDocumentsInternal_parseJobs]
  exact parseDocumentsInternal_cap env s hd hlen

/-- Witness for C17 (amended): the state with three running documents. -/
theorem admission_cap_after_tick_witness :
    threeRunning.m_delayedParseJobs = [] ∧
    (threeRunning.m_parseJobs.length : Int) ≤ 2 * threeRunning.m_threads + 1 ∧
    ((parseDocuments acceptAll threeRunning).m_threads = threeRunning.m_threads ∧
     ((parseDocuments acceptAll threeRunning).m_parseJobs.length : Int)
       ≤ 2 * threeRunning.m_threads + 2 ∧
     ((parseDocuments acceptAll threeRunning).m_parseJobs.length : Int)
       + ((parseDocumentsBatch acceptAll threeRunning).length : Int)
         ≤ 2 * threeRunning.m_threads + 3) :=
  ⟨by decide, by decide, admission_cap_after_tick acceptAll threeRunning (by decide) (by decide)⟩

/-! ## The delayed drain -/

theorem createDelayedJob_eq (env : Env) (url : KUrl) (tracker : List SmartRange)
    (s : BackgroundParserPrivate) (jobs : List ParseJob) :
    createDelayedJob env url tracker s jobs
      = if backendAccepts env url then
          ({ s with m_parseJobs := mapInsert s.m_parseJobs url s.nextJobId,
                    m_maxParseJobs := s.m_maxParseJobs + 1,
                    nextJobId := s.nextJobId + 1 },
           jobs ++ [{ id := s.nextJobId, document := url,
                      minimumFeatures := env.AllDeclarationsContextsAndUses,
                      notifyWhenReady := [], changedRanges := tracker }])
        else (s, jobs) := by
  unfold createDelayedJob
  cases h : backendAccepts env url
  · simp [createParseJob_declined env url _ _ s h]
  · simp [createParseJob_accepted env url _ _ s h]

theorem createDelayedJobs_jobs (env : Env) (ds : List (KUrl × List SmartRange))
    (s : BackgroundParserPrivate) (jobs : List ParseJob) :
    (createDelayedJobs env ds s jobs).2.map
        (fun j => (j.document, j.minimumFeatures, j.notifyWhenReady, j.changedRanges))
      = jobs.map (fun j => (j.document, j.minimumFeatures, j.notifyWhenReady, j.changedRanges))
        ++ (ds.filter (fun e => backendAccepts env e.1)).map
            (fun e => (e.1, env.AllDeclarationsContextsAndUses, [], e.2)) := by
  induction ds generalizing s jobs with
  | nil => simp [createDelayedJobs]
  | cons e rest ih =>
    obtain ⟨url, tracker⟩ := e
    unfold createDelayedJobs
    simp only []
    rw [ih, createDelayedJob_eq]
    cases h : backendAccepts env url
    · simp [List.filter_cons, h]
    · simp [List.filter_cons, h]

theorem createDelayedJobs_maxParseJobs (env : Env) (ds : List (KUrl × List SmartRange))
    (s : BackgroundParserPrivate) (jobs : List ParseJob) :
    (createDelayedJobs env ds s jobs).1.m_maxParseJobs
      = s.m_maxParseJobs + ((ds.filter (fun e => backendAccepts env e.1)).length : Int) := by
  induction ds generalizing s jobs with
  | nil => simp [createDelayedJobs]
  | cons e rest ih =>
    obtain ⟨url, tracker⟩ := e
    unfold createDelayedJobs
    simp only []
    rw [ih, createDelayedJob_eq]
    cases h : backendAccepts env url
    · simp [List.filter_cons, h]
    · simp only [if_true, List.filter_cons, h, List.length_cons]
      push_cast
      omega

theorem mem_of_mapContains {β : Type} (m : List (Nat × β)) (k : Nat)
    (h : mapContains m k = true) : ∃ v, (k, v) ∈ m := by
  induction m with
  | nil => simp [mapContains, mapFind] at h
  | cons e rest ih =>
    obtain ⟨a, b⟩ := e
    by_cases ha : a = k
    · exact ⟨b, by rw [ha]; exact List.mem_cons_self _ _⟩
    · have hrest : mapContains rest k = true := by
        simpa [mapContains, mapFind, ha] using h
      obtain ⟨v, hv⟩ := ih hrest
      exact ⟨v, List.mem_cons_of_mem _ hv⟩

theorem createDelayedJobs_registers (env : Env) (ds : List (KUrl × List SmartRange))
    (s : BackgroundParserPrivate) (jobs : List ParseJob) (k : KUrl)
    (hk : (∃ v, (k, v) ∈ ds) ∨ mapContains s.m_parseJobs k = true)
    (hacc : backendAccepts env k = true) :
    mapContains (createDelayedJobs env ds s jobs).1.m_parseJobs k = true := by
  induction ds generalizing s jobs with
  | nil =>
    rcases hk with ⟨v, hv⟩ | hk
    · simp at hv
    · exact hk
  | cons e rest ih =>
    obtain ⟨url, tracker⟩ := e
    unfold createDelayedJobs
    simp only []
    apply ih
    rcases hk with ⟨v, hv⟩ | hk
    · rcases List.mem_cons.mp hv with h1 | h1
      · right
        have hu : k = url := congrArg Prod.fst h1
        rw [createDelayedJob_parseJobs, ← hu, hacc]
        simp [mapContains_mapInsert]
      · exact Or.inl ⟨v, h1⟩
    · right
      rw [createDelayedJob_parseJobs]
      cases backendAccepts env url
      · simpa using hk
      · simp [mapContains_mapInsert, hk]

/-- C18: after every `parseDocuments` call `m_delayedParseJobs` is empty. The
first loop appends to the batch, in order, one job for each entry whose backend
accepts its key, with features `AllDeclarationsContextsAndUses`, no listeners
and the tracker's ranges as changed ranges, and raises `m_maxParseJobs` by the
number of these jobs; entries whose backend declines add nothing. The rest of
the batch has no job for a key of the delayed table. -/
theorem delayed_drain (env : Env) (s : BackgroundParserPrivate) :
    (parseDocuments env s).m_delayedParseJobs = [] ∧
    (createDelayedJobs env s.m_delayedParseJobs s []).2.map
        (fun j => (j.document, j.minimumFeatures, j.notifyWhenReady, j.changedRanges))
      = (s.m_delayedParseJobs.filter (fun e => backendAccepts env e.1)).map
          (fun e => (e.1, env.AllDeclarationsContextsAndUses, [], e.2)) ∧
    (createDelayedJobs env s.m_delayedParseJobs s []).1.m_maxParseJobs
      = s.m_maxParseJobs
        + ((s.m_delayedParseJobs.filter (fun e => backendAccepts env e.1)).length : Int) ∧
    (∃ rest, parseDocumentsBatch env s
        = (createDelayedJobs env s.m_delayedParseJobs s []).2 ++ rest ∧
      ∀ j ∈ rest, mapContains s.m_delayedParseJobs j.document = false) := by
  refine ⟨?_, ?_, createDelayedJobs_maxParseJobs env _ s [], ?_⟩
  · unfold parseDocuments
    rw [parseDocumentsInternal_delayed, collectJobs_delayed]
  · rw [createDelayedJobs_jobs]
    simp
  · unfold parseDocumentsBatch collectJobs
    simp only []
    have key := parseBuckets_invariant env
      (fun s' jobs' => (∃ rest, jobs' = (createDelayedJobs env s.m_delayedParseJobs s []).2 ++ rest ∧
          ∀ j ∈ rest, mapContains s.m_delayedParseJobs j.document = false) ∧
        (∀ k, mapContains s.m_delayedParseJobs k = true → backendAccepts env k = true →
          mapContains s'.m_parseJobs k = true))
      (createDelayedJobs env s.m_delayedParseJobs s []).1.m_documentsForPriority
      (by
        rintro e _ url _ s' jobs' ⟨⟨rest, hrest, hno⟩, hreg⟩ _ _ hrun
        rw [dispatchDocument_jobs_eq, dispatchDocument_parseJobs]
        cases hacc : backendAccepts env url
        · simp only [Bool.false_eq_true, if_false]
          exact ⟨⟨rest, hrest, hno⟩, hreg⟩
        · simp only [if_true]
          have hnd : mapContains s.m_delayedParseJobs url = false := by
            cases hd : mapContains s.m_delayedParseJobs url
            · rfl
            · rw [hreg url hd hacc] at hrun
              exact Bool.noConfusion hrun
          refine ⟨⟨rest ++ [_], by rw [hrest, List.append_assoc], ?_⟩, ?_⟩
          · intro j hj
            rcases List.mem_append.mp hj with h | h
            · exact hno j h
            · rw [List.mem_singleton.mp h]
              exact hnd
          · intro k hk hk'
            simp [mapContains_mapInsert, hreg k hk hk'])
      (dispatchDocument_neededPriority env)
      { (createDelayedJobs env s.m_delayedParseJobs s []).1 with m_delayedParseJobs := [] }
      (createDelayedJobs env s.m_delayedParseJobs s []).2
      ⟨⟨[], by simp, by intro j hj; simp at hj⟩, by
        intro k hk hacc
        exact createDelayedJobs_registers env _ s [] k (Or.inl (mem_of_mapContains _ k hk)) hacc⟩
    exact key.1

/-! ## A backend that declines -/

theorem dispatchDocument_declined (env : Env) (url : KUrl) (s : BackgroundParserPrivate)
    (jobs : List ParseJob) (h : backendAccepts env url = false) :
    dispatchDocument env url s jobs
      = ({ s with m_documents := mapRemove s.m_documents url,
                  m_maxParseJobs := s.m_maxParseJobs - 1 }, jobs) := by
  unfold dispatchDocument
  simp [createParseJob_declined env url _ _ s h]

theorem parseBucket_declined_frame (env : Env) (url : KUrl)
    (h : backendAccepts env url = false) (b : List KUrl) (s : BackgroundParserPrivate)
    (jobs : List ParseJob)
    (hdoc : mapContains s.m_documents url = false)
    (hrun : mapContains s.m_parseJobs url = false)
    (hjobs : ∀ j ∈ jobs, j.document ≠ url) :
    mapContains (parseBucket env b s jobs).2.1.m_documents url = false ∧
    mapContains (parseBucket env b s jobs).2.1.m_parseJobs url = false ∧
    ∀ j ∈ (parseBucket env b s jobs).2.2, j.document ≠ url :=
  parseBucket_invariant env
    (fun s' jobs' => mapContains s'.m_documents url = false ∧
      mapContains s'.m_parseJobs url = false ∧ ∀ j ∈ jobs', j.document ≠ url) b
    (by
      rintro u _ s' jobs' ⟨h1, h2, h3⟩ _ _
      refine ⟨?_, ?_, ?_⟩
      · rw [dispatchDocument_documents, mapContains_mapRemove, h1]
        simp
      · rw [dispatchDocument_parseJobs]
        by_cases hu : u = url
        · rw [hu, h]
          simpa using h2
        · have hu' : ¬ url = u := fun e => hu e.symm
          cases backendAccepts env u
          · simpa using h2
          · simp [mapContains_mapInsert, hu', h2]
      · intro j hj
        rw [dispatchDocument_jobs_eq] at hj
        by_cases hu : u = url
        · rw [hu, h] at hj
          simp only [Bool.false_eq_true, if_false] at hj
          exact h3 j hj
        · cases hacc : backendAccepts env u
          · rw [hacc] at hj
            simp only [Bool.false_eq_true, if_false] at hj
            exact h3 j hj
          · rw [hacc] at hj
            simp only [if_true, List.mem_append, List.mem_singleton] at hj
            rcases hj with hj | hj
            · exact h3 j hj
            · rw [hj]; exact hu)
    s jobs ⟨hdoc, hrun, hjobs⟩

/-- C20: when the inner loop of `parseDocumentsInternal` stands at a document
`url` of the bucket, the admission test passes, `url` is not in `m_parseJobs`
and no language yields a job, then the loop body removes `url` from
`m_documents`, erases it from the bucket, appends nothing to the batch, leaves
`m_parseJobs` alone and lowers `m_maxParseJobs` by exactly one; at the end of
the walk of this bucket `url` is neither pending nor in the bucket nor in
`m_parseJobs`, and the batch has no new job for it. The progress update at the
end of the tick resets both counters to 0 when they are equal. -/
theorem backend_declined (env : Env) (url : KUrl) (rest : List KUrl)
    (s : BackgroundParserPrivate) (jobs : List ParseJob)
    (_hpending : mapContains s.m_documents url = true)
    (hcap : capReached s jobs = false)
    (hrun : mapContains s.m_parseJobs url = false)
    (hdecl : backendAccepts env url = false)
    (hset : url ∉ rest)
    (hjobs : ∀ j ∈ jobs, j.document ≠ url) :
    (dispatchDocument env url s jobs).2 = jobs ∧
    (dispatchDocument env url s jobs).1.m_parseJobs = s.m_parseJobs ∧
    (dispatchDocument env url s jobs).1.m_documents = mapRemove s.m_documents url ∧
    (dispatchDocument env url s jobs).1.m_maxParseJobs = s.m_maxParseJobs - 1 ∧
    parseBucket env (url :: rest) s jobs
      = parseBucket env rest (dispatchDocument env url s jobs).1 jobs ∧
    url ∉ (parseBucket env (url :: rest) s jobs).1 ∧
    mapContains (parseBucket env (url :: rest) s jobs).2.1.m_documents url = false ∧
    mapContains (parseBucket env (url :: rest) s jobs).2.1.m_parseJobs url = false ∧
    (∀ j ∈ (parseBucket env (url :: rest) s jobs).2.2, j.document ≠ url) ∧
    (∀ s' : BackgroundParserPrivate, s'.m_doneParseJobs = s'.m_maxParseJobs →
      (updateProgressBar s').m_doneParseJobs = 0 ∧ (updateProgressBar s').m_maxParseJobs = 0) := by
  have hd := dispatchDocument_declined env url s jobs hdecl
  have hstep : parseBucket env (url :: rest) s jobs
      = parseBucket env rest (dispatchDocument env url s jobs).1 jobs := by
    conv_lhs => unfold parseBucket
    simp only [hcap, hrun, Bool.false_eq_true, if_false]
    rw [hd]
  have hframe := parseBucket_declined_frame env url hdecl rest
    (dispatchDocument env url s jobs).1 jobs
    (by rw [hd]; simp [mapContains_mapRemove])
    (by rw [hd]; exact hrun) hjobs
  refine ⟨by rw [hd], by rw [hd], by rw [hd], by rw [hd], hstep, ?_, ?_, ?_, ?_, ?_⟩
  · rw [hstep]
    intro hmem
    exact hset (parseBucket_subset env rest _ _ url hmem)
  · rw [hstep]; exact hframe.1
  · rw [hstep]; exact hframe.2.1
  · rw [hstep]; exact hframe.2.2
  · intro s' hs'
    unfold updateProgressBar
    simp [hs']

/-- Witness for C20: `add(7)` with a backend that has no language, then the
walk of bucket `[7]`; the whole tick leaves nothing pending, running or
enqueued and both counters at 0. -/
theorem backend_declined_witness :
    mapContains (onePending declineAll).m_documents 7 = true ∧
    (parseDocuments declineAll (onePending declineAll)).m_documents = [] ∧
    bucket (parseDocuments declineAll (onePending declineAll)).m_documentsForPriority 1 = [] ∧
    (parseDocuments declineAll (onePending declineAll)).m_parseJobs = [] ∧
    (parseDocuments declineAll (onePending declineAll)).m_weaver = [] ∧
    (collectJobs declineAll (onePending declineAll)).1.m_maxParseJobs = 0 ∧
    ((dispatchDocument declineAll 7 (onePending declineAll) []).2 = [] ∧
     (dispatchDocument declineAll 7 (onePending declineAll) []).1.m_parseJobs
       = (onePending declineAll).m_parseJobs ∧
     (dispatchDocument declineAll 7 (onePending declineAll) []).1.m_documents
       = mapRemove (onePending declineAll).m_documents 7 ∧
     (dispatchDocument declineAll 7 (onePending declineAll) []).1.m_maxParseJobs
       = (onePending declineAll).m_maxParseJobs - 1 ∧
     parseBucket declineAll (7 :: []) (onePending declineAll) []
       = parseBucket declineAll [] (dispatchDocument declineAll 7 (onePending declineAll) []).1 [] ∧
     7 ∉ (parseBucket declineAll (7 :: []) (onePending declineAll) []).1 ∧
     mapContains (parseBucket declineAll (7 :: []) (onePending declineAll) []).2.1.m_documents 7
       = false ∧
     mapContains (parseBucket declineAll (7 :: []) (onePending declineAll) []).2.1.m_parseJobs 7
       = false ∧
     (∀ j ∈ (parseBucket declineAll (7 :: []) (onePending declineAll) []).2.2,
       j.document ≠ 7) ∧
     (∀ s' : BackgroundParserPrivate, s'.m_doneParseJobs = s'.m_maxParseJobs →
       (updateProgressBar s').m_doneParseJobs = 0 ∧
       (updateProgressBar s').m_maxParseJobs = 0)) :=
  ⟨by decide, by decide, by decide, by decide, by decide, by decide,
   backend_declined declineAll 7 [] (onePending declineAll) [] (by decide) (by decide)
     (by decide) rfl (by simp) (by simp)⟩

/-! ## disableProcessing and enableProcessing -/

theorem setNeededPriority_fields (p : Int) (s : BackgroundParserPrivate) :
    (setNeededPriority p s).m_neededPriority = p ∧
    (setNeededPriority p s).m_documents = s.m_documents ∧
    (setNeededPriority p s).m_documentsForPriority = s.m_documentsForPriority ∧
    (setNeededPriority p s).m_parseJobs = s.m_parseJobs ∧
    (setNeededPriority p s).m_delayedParseJobs = s.m_delayedParseJobs ∧
    (setNeededPriority p s).m_weaver = s.m_weaver ∧
    (setNeededPriority p s).m_threads = s.m_threads ∧
    (setNeededPriority p s).m_maxParseJobs = s.m_maxParseJobs ∧
    (setNeededPriority p s).m_doneParseJobs = s.m_doneParseJobs ∧
    (setNeededPriority p s).nextJobId = s.nextJobId := by
  unfold setNeededPriority startTimer
  simp only []
  split <;> simp

theorem addDocument_nextJobId (url : KUrl) (f : Nat) (p : Int) (l : QObjectPtr)
    (s : BackgroundParserPrivate) : (addDocument url f p l s).nextJobId = s.nextJobId := by
  unfold addDocument startTimer
  cases h : mapFind s.m_documents url <;> simp only [] <;> split <;> rfl

theorem initial_nextJobId (env : Env) : (initial env).nextJobId = 0 := by
  unfold initial loadSettings resumePrivate suspendPrivate
  cases env.configEnabled <;> simp

@[simp] theorem updateProgressBar_nextJobId (s : BackgroundParserPrivate) :
    (updateProgressBar s).nextJobId = s.nextJobId := by
  unfold updateProgressBar; split <;> rfl

theorem parseDocumentsInternal_nextJobId (env : Env) (s : BackgroundParserPrivate) :
    (parseDocumentsInternal env s).nextJobId = (collectJobs env s).1.nextJobId := by
  unfold parseDocumentsInternal; simp only []; split <;> simp

theorem clear_delayed_eq (s : BackgroundParserPrivate) (hd : s.m_delayedParseJobs = []) :
    { s with m_delayedParseJobs := [] } = s := by
  cases s
  simp only [] at hd
  subst hd
  rfl

theorem collectJobs_no_delayed (env : Env) (s : BackgroundParserPrivate)
    (hd : s.m_delayedParseJobs = []) :
    collectJobs env s
      = ({ (parseBuckets env s.m_documentsForPriority s []).2.1 with
            m_documentsForPriority := (parseBuckets env s.m_documentsForPriority s []).1 },
         (parseBuckets env s.m_documentsForPriority s []).2.2) := by
  have hs : { s with m_delayedParseJobs := [] } = s := clear_delayed_eq s hd
  unfold collectJobs
  rw [hd]
  simp only [createDelayedJobs]
  rw [hs]

/-- A tick with an empty delayed table whose first bucket lies above the floor
changes nothing and builds an empty batch. -/
theorem collectJobs_above_floor (env : Env) (s : BackgroundParserPrivate) (p : Int)
    (b : List KUrl) (rest : List (Int × List KUrl))
    (hd : s.m_delayedParseJobs = [])
    (hB : s.m_documentsForPriority = (p, b) :: rest)
    (hp : p > s.m_neededPriority) :
    collectJobs env s = (s, []) := by
  rw [collectJobs_no_delayed env s hd]
  have h : parseBuckets env s.m_documentsForPriority s [] = (s.m_documentsForPriority, s, []) := by
    rw [hB]
    unfold parseBuckets
    simp only [hp, if_true]
  rw [h]

/-- A tick with an empty delayed table and a single bucket holding a single
document that is not being parsed, below the floor and the admission cap. -/
theorem collectJobs_single (env : Env) (s : BackgroundParserPrivate) (p : Int) (A : KUrl)
    (hd : s.m_delayedParseJobs = [])
    (hB : s.m_documentsForPriority = [(p, [A])])
    (hp : p ≤ s.m_neededPriority)
    (hcap : capReached s [] = false)
    (hrun : mapContains s.m_parseJobs A = false) :
    collectJobs env s
      = ({ (dispatchDocument env A s []).1 with m_documentsForPriority := [(p, [])] },
         (dispatchDocument env A s []).2) := by
  rw [collectJobs_no_delayed env s hd]
  have hp' : ¬ p > s.m_neededPriority := not_lt.mpr hp
  have h : parseBuckets env s.m_documentsForPriority s []
      = ([(p, [])], (dispatchDocument env A s []).1, (dispatchDocument env A s []).2) := by
    rw [hB]
    simp [parseBuckets, parseBucket, hp', hcap, hrun]
  rw [h]

theorem disabledScenario_fields (env : Env) (A : KUrl) (f : Nat) (l : QObjectPtr) :
    (disabledScenario env A f l).m_documents
      = [(A, { priority := 0, features := f, notifyWhenReady := [l] })] ∧
    (disabledScenario env A f l).m_documentsForPriority = [(0, [A])] ∧
    (disabledScenario env A f l).m_parseJobs = [] ∧
    (disabledScenario env A f l).m_delayedParseJobs = [] ∧
    (disabledScenario env A f l).m_weaver = [] ∧
    (disabledScenario env A f l).m_neededPriority = env.BestPriority ∧
    (disabledScenario env A f l).m_threads = env.configThreads ∧
    (disabledScenario env A f l).nextJobId = 0 := by
  have hi := initial_tables env
  have hs := setNeededPriority_fields env.BestPriority (addDocument A f 0 l (initial env))
  have ha := addDocument_frame A f 0 l (initial env)
  have hnone : mapFind (initial env).m_documents A = none := by rw [hi.1]; rfl
  unfold disabledScenario disableProcessing
  refine ⟨?_, ?_, ?_, ?_, ?_, hs.1, ?_, ?_⟩
  · rw [hs.2.1, addDocument_documents_none _ A f 0 l hnone, hi.1]; rfl
  · rw [hs.2.2.1, addDocument_buckets_none _ A f 0 l hnone, hi.2.1]
    simp [modifyBucket, hasBucket, insertBucket, setInsert]
  · rw [hs.2.2.2.1, ha.1, hi.2.2.1]
  · rw [hs.2.2.2.2.1, ha.2.1, hi.2.2.2.1]
  · rw [hs.2.2.2.2.2.1, ha.2.2.2.1, hi.2.2.2.2.1]
  · rw [hs.2.2.2.2.2.2.1, ha.2.2.1, hi.2.2.2.2.2.1]
  · rw [hs.2.2.2.2.2.2.2.2.2, addDocument_nextJobId, initial_nextJobId]

theorem disabledScenario_tick (env : Env) (A : KUrl) (f : Nat) (l : QObjectPtr)
    (hbest : env.BestPriority < 0) :
    collectJobs env (disabledScenario env A f l) = (disabledScenario env A f l, []) := by
  have hf := disabledScenario_fields env A f l
  exact collectJobs_above_floor env _ 0 [A] [] hf.2.2.2.1 hf.2.1 (by rw [hf.2.2.2.2.2.1]; exact hbest)

theorem enabledScenario_fields (env : Env) (A : KUrl) (f : Nat) (l : QObjectPtr)
    (hbest : env.BestPriority < 0) :
    (enabledScenario env A f l).m_documents
      = [(A, { priority := 0, features := f, notifyWhenReady := [l] })] ∧
    (enabledScenario env A f l).m_documentsForPriority = [(0, [A])] ∧
    (enabledScenario env A f l).m_parseJobs = [] ∧
    (enabledScenario env A f l).m_delayedParseJobs = [] ∧
    (enabledScenario env A f l).m_weaver = [] ∧
    (enabledScenario env A f l).m_neededPriority = env.WorstPriority ∧
    (enabledScenario env A f l).m_threads = env.configThreads ∧
    (enabledScenario env A f l).nextJobId = 0 := by
  have hf := disabledScenario_fields env A f l
  have ht := disabledScenario_tick env A f l hbest
  have hs := setNeededPriority_fields env.WorstPriority
    (parseDocuments env (disabledScenario env A f l))
  unfold enabledScenario enableProcessing
  unfold parseDocuments at hs ⊢
  refine ⟨?_, ?_, ?_, ?_, ?_, hs.1, ?_, ?_⟩
  · rw [hs.2.1, parseDocumentsInternal_documents, ht]; exact hf.1
  · rw [hs.2.2.1, parseDocumentsInternal_buckets, ht]; exact hf.2.1
  · rw [hs.2.2.2.1, parseDocumentsInternal_parseJobs, ht]; exact hf.2.2.1
  · rw [hs.2.2.2.2.1, parseDocumentsInternal_delayed, ht]; exact hf.2.2.2.1
  · rw [hs.2.2.2.2.2.1, parseDocumentsInternal_weaver, ht]; simp [hf.2.2.2.2.1]
  · rw [hs.2.2.2.2.2.2.1, parseDocumentsInternal_threads, ht]; exact hf.2.2.2.2.2.2.1
  · rw [hs.2.2.2.2.2.2.2.2.2, parseDocumentsInternal_nextJobId, ht]; exact hf.2.2.2.2.2.2.2

/-- C11: `disableProcessing` sets the floor to `BestPriority` and
`enableProcessing` sets it to `WorstPriority`. With `BestPriority < 0 ≤
WorstPriority`, an accepting backend and a worker count that is not negative,
from the initial state `add(A, f, 0); disableProcessing(); tick` builds an
empty batch, registers nothing and leaves `A` pending with its plan; a
following `enableProcessing(); tick` builds a batch of exactly one job, for
`A`, registers it in `m_parseJobs`, enqueues it and removes `A` from
`m_documents`. -/
theorem disable_enable_processing (env : Env) (A : KUrl) (f : Nat) (l : QObjectPtr)
    (hbest : env.BestPriority < 0) (hworst : 0 ≤ env.WorstPriority)
    (hacc : ∀ url, backendAccepts env url = true) (hthreads : 0 ≤ env.configThreads) :
    (∀ s, (disableProcessing env s).m_neededPriority = env.BestPriority) ∧
    (∀ s, (enableProcessing env s).m_neededPriority = env.WorstPriority) ∧
    parseDocumentsBatch env (disabledScenario env A f l) = [] ∧
    (parseDocuments env (disabledScenario env A f l)).m_parseJobs = [] ∧
    (parseDocuments env (disabledScenario env A f l)).m_weaver = [] ∧
    mapFind (parseDocuments env (disabledScenario env A f l)).m_documents A
      = some { priority := 0, features := f, notifyWhenReady := [l] } ∧
    parseDocumentsBatch env (enabledScenario env A f l)
      = [{ id := 0, document := A, minimumFeatures := f, notifyWhenReady := [l],
           changedRanges := [] }] ∧
    (parseDocuments env (enabledScenario env A f l)).m_parseJobs = [(A, 0)] ∧
    (parseDocuments env (enabledScenario env A f l)).m_weaver
      = [{ id := 0, document := A, minimumFeatures := f, notifyWhenReady := [l],
           changedRanges := [] }] ∧
    (parseDocuments env (enabledScenario env A f l)).m_documents = [] := by
  have hf := disabledScenario_fields env A f l
  have ht := disabledScenario_tick env A f l hbest
  have he := enabledScenario_fields env A f l hbest
  have hcap : capReached (enabledScenario env A f l) [] = false := by
    unfold capReached
    rw [he.2.2.1, he.2.2.2.2.2.2.1]
    simp only [List.length_nil, Int.ofNat_zero, decide_eq_false_iff_not]
    omega
  have hrun : mapContains (enabledScenario env A f l).m_parseJobs A = false := by
    rw [he.2.2.1]; rfl
  have ht2 := collectJobs_single env (enabledScenario env A f l) 0 A he.2.2.2.1 he.2.1
    (by rw [he.2.2.2.2.2.1]; exact hworst) hcap hrun
  have hplan : planOrDefault env (enabledScenario env A f l) A
      = { priority := 0, features := f, notifyWhenReady := [l] } := by
    unfold planOrDefault
    rw [he.1]
    simp [mapFind]
  have hjobs : (dispatchDocument env A (enabledScenario env A f l) []).2
      = [{ id := 0, document := A, minimumFeatures := f, notifyWhenReady := [l],
           changedRanges := [] }] := by
    rw [dispatchDocument_jobs_eq, hacc A, hplan, he.2.2.2.2.2.2.2]
    rfl
  refine ⟨fun s => (setNeededPriority_fields _ s).1, fun s => (setNeededPriority_fields _ s).1,
    ?_, ?_, ?_, ?_, ?_, ?_, ?_, ?_⟩
  · unfold parseDocumentsBatch; rw [ht]
  · unfold parseDocuments; rw [parseDocumentsInternal_parseJobs, ht]; exact hf.2.2.1
  · unfold parseDocuments; rw [parseDocumentsInternal_weaver, ht]; simp [hf.2.2.2.2.1]
  · unfold parseDocuments; rw [parseDocumentsInternal_documents, ht, hf.1]; simp [mapFind]
  · unfold parseDocumentsBatch; rw [ht2]; exact hjobs
  · unfold parseDocuments
    rw [parseDocumentsInternal_parseJobs, ht2]
    simp only []
    rw [dispatchDocument_parseJobs, hacc A, he.2.2.1, he.2.2.2.2.2.2.2]
    rfl
  · unfold parseDocuments
    rw [parseDocumentsInternal_weaver, ht2]
    simp only []
    rw [hjobs]
    have hw : (dispatchDocument env A (enabledScenario env A f l) []).1.m_weaver = [] := by
      unfold dispatchDocument
      simp [createParseJob_accepted env A _ _ _ (hacc A), he.2.2.2.2.1]
    rw [hw]
    rfl
  · unfold parseDocuments
    rw [parseDocumentsInternal_documents, ht2]
    simp only []
    rw [dispatchDocument_documents, he.1]
    simp [mapRemove]

/-- Witness for C11: the environment `acceptAll` and document 7. -/
theorem disable_enable_processing_witness :
    acceptAll.BestPriority < 0 ∧ 0 ≤ acceptAll.WorstPriority ∧
    (∀ url, backendAccepts acceptAll url = true) ∧ 0 ≤ acceptAll.configThreads ∧
    ((∀ s, (disableProcessing acceptAll s).m_neededPriority = acceptAll.BestPriority) ∧
     (∀ s, (enableProcessing acceptAll s).m_neededPriority = acceptAll.WorstPriority) ∧
     parseDocumentsBatch acceptAll (disabledScenario acceptAll 7 1 0) = [] ∧
     (parseDocuments acceptAll (disabledScenario acceptAll 7 1 0)).m_parseJobs = [] ∧
     (parseDocuments acceptAll (disabledScenario acceptAll 7 1 0)).m_weaver = [] ∧
     mapFind (parseDocuments acceptAll (disabledScenario acceptAll 7 1 0)).m_documents 7
       = some { priority := 0, features := 1, notifyWhenReady := [0] } ∧
     parseDocumentsBatch acceptAll (enabledScenario acceptAll 7 1 0)
       = [{ id := 0, document := 7, minimumFeatures := 1, notifyWhenReady := [0],
            changedRanges := [] }] ∧
     (parseDocuments acceptAll (enabledScenario acceptAll 7 1 0)).m_parseJobs = [(7, 0)] ∧
     (parseDocuments acceptAll (enabledScenario acceptAll 7 1 0)).m_weaver
       = [{ id := 0, document := 7, minimumFeatures := 1, notifyWhenReady := [0],
            changedRanges := [] }] ∧
     (parseDocuments acceptAll (enabledScenario acceptAll 7 1 0)).m_documents = []) :=
  ⟨by decide, by decide, fun _ => rfl, by decide,
   disable_enable_processing acceptAll 7 1 0 (by decide) (by decide) (fun _ => rfl)
     (by decide)⟩

/-! ## Edits during a parse -/

theorem runningScenario_fields (env : Env) (A : KUrl) (f : Nat) (l : QObjectPtr)
    (hworst : 0 ≤ env.WorstPriority) (hacc : backendAccepts env A = true)
    (hthreads : 0 ≤ env.configThreads) :
    parseDocumentsBatch env (addDocument A f 0 l (initial env)) = [runningJob A f l] ∧
    (runningScenario env A f l).m_documents = [] ∧
    (runningScenario env A f l).m_documentsForPriority = [(0, [])] ∧
    (runningScenario env A f l).m_parseJobs = [(A, 0)] ∧
    (runningScenario env A f l).m_delayedParseJobs = [] ∧
    (runningScenario env A f l).m_weaver = [runningJob A f l] ∧
    (runningScenario env A f l).m_threads = env.configThreads ∧
    (runningScenario env A f l).m_neededPriority = env.WorstPriority ∧
    (runningScenario env A f l).nextJobId = 1 := by
  have hi := initial_tables env
  have ha := addDocument_frame A f 0 l (initial env)
  have hnone : mapFind (initial env).m_documents A = none := by rw [hi.1]; rfl
  have hdocs : (addDocument A f 0 l (initial env)).m_documents
      = [(A, { priority := 0, features := f, notifyWhenReady := [l] })] := by
    rw [addDocument_documents_none _ A f 0 l hnone, hi.1]; rfl
  have hB : (addDocument A f 0 l (initial env)).m_documentsForPriority = [(0, [A])] := by
    rw [addDocument_buckets_none _ A f 0 l hnone, hi.2.1]
    simp [modifyBucket, hasBucket, insertBucket, setInsert]
  have hpj : (addDocument A f 0 l (initial env)).m_parseJobs = [] := by rw [ha.1, hi.2.2.1]
  have hdel : (addDocument A f 0 l (initial env)).m_delayedParseJobs = [] := by
    rw [ha.2.1, hi.2.2.2.1]
  have hth : (addDocument A f 0 l (initial env)).m_threads = env.configThreads := by
    rw [ha.2.2.1, hi.2.2.2.2.2.1]
  have hw : (addDocument A f 0 l (initial env)).m_weaver = [] := by
    rw [ha.2.2.2.1, hi.2.2.2.2.1]
  have hnp : (addDocument A f 0 l (initial env)).m_neededPriority = env.WorstPriority := by
    rw [ha.2.2.2.2.1, hi.2.2.2.2.2.2.2.2]
  have hid : (addDocument A f 0 l (initial env)).nextJobId = 0 := by
    rw [addDocument_nextJobId, initial_nextJobId]
  have hcap : capReached (addDocument A f 0 l (initial env)) [] = false := by
    unfold capReached
    rw [hpj, hth]
    simp only [List.length_nil, Int.ofNat_zero, decide_eq_false_iff_not]
    omega
  have hrun : mapContains (addDocument A f 0 l (initial env)).m_parseJobs A = false := by
    rw [hpj]; rfl
  have ht := collectJobs_single env (addDocument A f 0 l (initial env)) 0 A hdel hB
    (by rw [hnp]; exact hworst) hcap hrun
  have hplan : planOrDefault env (addDocument A f 0 l (initial env)) A
      = { priority := 0, features := f, notifyWhenReady := [l] } := by
    unfold planOrDefault
    rw [hdocs]
    simp [mapFind]
  have hjobs : (dispatchDocument env A (addDocument A f 0 l (initial env)) []).2
      = [runningJob A f l] := by
    rw [dispatchDocument_jobs_eq, hacc, hplan, hid]
    rfl
  have hstate : (dispatchDocument env A (addDocument A f 0 l (initial env)) []).1.m_weaver = [] ∧
      (dispatchDocument env A (addDocument A f 0 l (initial env)) []).1.nextJobId = 1 := by
    unfold dispatchDocument
    simp [createParseJob_accepted env A _ _ _ hacc, hw, hid]
  unfold runningScenario parseDocuments
  refine ⟨?_, ?_, ?_, ?_, ?_, ?_, ?_, ?_, ?_⟩
  · unfold parseDocumentsBatch; rw [ht]; exact hjobs
  · rw [parseDocumentsInternal_documents, ht]
    simp only []
    rw [dispatchDocument_documents, hdocs]
    simp [mapRemove]
  · rw [parseDocumentsInternal_buckets, ht]
  · rw [parseDocumentsInternal_parseJobs, ht]
    simp only []
    rw [dispatchDocument_parseJobs, hacc, hpj, hid]
    rfl
  · rw [parseDocumentsInternal_delayed, collectJobs_delayed]
  · rw [parseDocumentsInternal_weaver, ht]
    simp only []
    rw [hjobs, hstate.1]
    rfl
  · rw [parseDocumentsInternal_threads, ht]
    simp only []
    rw [dispatchDocument_threads, hth]
  · rw [parseDocumentsInternal_neededPriority, ht]
    simp only []
    rw [dispatchDocument_neededPriority, hnp]
  · rw [parseDocumentsInternal_nextJobId, ht]
    exact hstate.2

theorem parseBuckets_empty_buckets (env : Env) (bs : List (Int × List KUrl))
    (h : ∀ e ∈ bs, e.2 = []) (s : BackgroundParserPrivate) (jobs : List ParseJob) :
    (parseBuckets env bs s jobs).2.2 = jobs :=
  parseBuckets_invariant env (fun _ jobs' => jobs' = jobs) bs
    (by
      intro e he url hu
      rw [h e he] at hu
      simp at hu)
    (dispatchDocument_neededPriority env) s jobs rfl

/-- The batch of a tick on a state whose buckets are all empty is what the
delayed drain creates. -/
theorem batch_of_empty_buckets (env : Env) (s : BackgroundParserPrivate)
    (h : ∀ e ∈ s.m_documentsForPriority, e.2 = []) :
    parseDocumentsBatch env s = (createDelayedJobs env s.m_delayedParseJobs s []).2 := by
  unfold parseDocumentsBatch collectJobs
  simp only []
  apply parseBuckets_empty_buckets
  rw [createDelayedJobs_buckets]
  exact h

theorem editScenario_fields (env : Env) (A : KUrl) (l : QObjectPtr) (r1 r2 : SmartRange)
    (hworst : 0 ≤ env.WorstPriority) (hacc : backendAccepts env A = true)
    (hthreads : 0 ≤ env.configThreads) :
    (editScenario env A l r1 r2).m_documentsForPriority = [(0, [])] ∧
    (editScenario env A l r1 r2).m_delayedParseJobs
      = (if env.addChangedRange 0 r1 then
          (if env.addChangedRange 0 r2 then [] else [(A, [r2])])
         else
          (if env.addChangedRange 0 r2 then [(A, [r1])] else [(A, trackerAdd [r1] r2)])) := by
  have hr := runningScenario_fields env A env.AllDeclarationsContextsAndUses l hworst hacc
    hthreads
  have hfind : mapFind (runningScenario env A env.AllDeclarationsContextsAndUses l).m_parseJobs A
      = some 0 := by
    rw [hr.2.2.2.1]; simp [mapFind]
  unfold editScenario
  constructor
  · rw [(parseComplete_frame _ _).2.1, (rangeContentsChanged_frame env A r2 _).2.1,
      (rangeContentsChanged_frame env A r1 _).2.1]
    exact hr.2.2.1
  · rw [(parseComplete_frame _ _).2.2.2.1]
    cases h1 : env.addChangedRange 0 r1
    · have hs1 := rangeContentsChanged_refused env A r1 _ (Or.inr ⟨0, hfind, h1⟩)
      have hfind1 : mapFind (rangeContentsChanged env A r1
          (runningScenario env A env.AllDeclarationsContextsAndUses l)).m_parseJobs A
          = some 0 := by
        rw [(rangeContentsChanged_frame env A r1 _).2.2.1]; exact hfind
      have hd1 : (rangeContentsChanged env A r1
          (runningScenario env A env.AllDeclarationsContextsAndUses l)).m_delayedParseJobs
          = [(A, [r1])] := by
        rw [hs1, (startTimer_frame _).2.1]
        simp only []
        rw [hr.2.2.2.2.1]
        simp [mapFind, mapInsert, trackerAdd]
      cases h2 : env.addChangedRange 0 r2
      · rw [rangeContentsChanged_refused env A r2 _ (Or.inr ⟨0, hfind1, h2⟩),
          (startTimer_frame _).2.1]
        simp only []
        rw [hd1]
        simp [mapFind, mapInsert]
      · rw [rangeContentsChanged_accepted env A r2 _ 0 hfind1 h2, hd1]
        simp
    · rw [rangeContentsChanged_accepted env A r1 _ 0 hfind h1]
      cases h2 : env.addChangedRange 0 r2
      · rw [rangeContentsChanged_refused env A r2 _ (Or.inr ⟨0, hfind, h2⟩),
          (startTimer_frame _).2.1]
        simp only []
        rw [hr.2.2.2.2.1]
        simp [mapFind, mapInsert, trackerAdd]
      · rw [rangeContentsChanged_accepted env A r2 _ 0 hfind h2, hr.2.2.2.2.1]
        simp

/-- C15: in the sequence `add(A, full, 0); tick; notifyEdit(A, r1);
notifyEdit(A, r2); completion of the job of A; tick` with an accepting
backend, the first tick creates the job with id 0 for `A`; the final tick
builds an empty batch if that job accepted both ranges, and otherwise a batch
of exactly one job, for `A`, whose changed ranges contain every range the job
did not accept. -/
theorem no_edit_dropped (env : Env) (A : KUrl) (l : QObjectPtr) (r1 r2 : SmartRange)
    (hworst : 0 ≤ env.WorstPriority) (hacc : ∀ url, backendAccepts env url = true)
    (hthreads : 0 ≤ env.configThreads) :
    parseDocumentsBatch env (addDocument A env.AllDeclarationsContextsAndUses 0 l (initial env))
      = [runningJob A env.AllDeclarationsContextsAndUses l] ∧
    ((parseDocumentsBatch env (editScenario env A l r1 r2)).filter
      (fun j => decide (j.document = A))).length ≤ 1 ∧
    (env.addChangedRange 0 r1 = true → env.addChangedRange 0 r2 = true →
      parseDocumentsBatch env (editScenario env A l r1 r2) = []) ∧
    (env.addChangedRange 0 r1 = false ∨ env.addChangedRange 0 r2 = false →
      ∃ j, parseDocumentsBatch env (editScenario env A l r1 r2) = [j] ∧ j.document = A ∧
        (env.addChangedRange 0 r1 = false → r1 ∈ j.changedRanges) ∧
        (env.addChangedRange 0 r2 = false → r2 ∈ j.changedRanges)) := by
  have hr := runningScenario_fields env A env.AllDeclarationsContextsAndUses l hworst (hacc A)
    hthreads
  have he := editScenario_fields env A l r1 r2 hworst (hacc A) hthreads
  have hbatch := batch_of_empty_buckets env (editScenario env A l r1 r2)
    (by
      intro e hmem
      rw [he.1] at hmem
      simp only [List.mem_singleton] at hmem
      rw [hmem])
  rw [hbatch, he.2]
  refine ⟨hr.1, ?_, ?_, ?_⟩
  · cases h1 : env.addChangedRange 0 r1 <;> cases h2 : env.addChangedRange 0 r2 <;>
      simp [createDelayedJobs, createDelayedJob_eq, hacc A]
  · intro h1 h2
    simp [h1, h2, createDelayedJobs]
  · intro h
    cases h1 : env.addChangedRange 0 r1 <;> cases h2 : env.addChangedRange 0 r2
    · refine ⟨_, by simp [createDelayedJobs, createDelayedJob_eq, hacc A]; rfl, rfl, ?_, ?_⟩
      · intro _; simp [mem_trackerAdd]
      · intro _; simp [mem_trackerAdd]
    · refine ⟨_, by simp [createDelayedJobs, createDelayedJob_eq, hacc A]; rfl, rfl, ?_, ?_⟩
      · intro _; simp
      · intro hc; exact absurd hc (by simp)
    · refine ⟨_, by simp [createDelayedJobs, createDelayedJob_eq, hacc A]; rfl, rfl, ?_, ?_⟩
      · intro hc; exact absurd hc (by simp)
      · intro _; simp
    · rw [h1, h2] at h
      simp at h

/-- Witness for C15: the jobs of `acceptAll` refuse every range; document 7
is edited at ranges 33 and 34, and the final tick creates one job for 7 with
changed ranges 33 and 34. -/
theorem no_edit_dropped_witness :
    0 ≤ acceptAll.WorstPriority ∧ (∀ url, backendAccepts acceptAll url = true) ∧
    0 ≤ acceptAll.configThreads ∧
    (parseDocumentsBatch acceptAll (editScenario acceptAll 7 0 33 34)).map
      (fun j => (j.document, j.changedRanges)) = [(7, [33, 34])] ∧
    (parseDocumentsBatch acceptAll
        (addDocument 7 acceptAll.AllDeclarationsContextsAndUses 0 0 (initial acceptAll))
      = [runningJob 7 acceptAll.AllDeclarationsContextsAndUses 0] ∧
     ((parseDocumentsBatch acceptAll (editScenario acceptAll 7 0 33 34)).filter
       (fun j => decide (j.document = 7))).length ≤ 1 ∧
     (acceptAll.addChangedRange 0 33 = true → acceptAll.addChangedRange 0 34 = true →
       parseDocumentsBatch acceptAll (editScenario acceptAll 7 0 33 34) = []) ∧
     (acceptAll.addChangedRange 0 33 = false ∨ acceptAll.addChangedRange 0 34 = false →
       ∃ j, parseDocumentsBatch acceptAll (editScenario acceptAll 7 0 33 34) = [j] ∧
         j.document = 7 ∧
         (acceptAll.addChangedRange 0 33 = false → 33 ∈ j.changedRanges) ∧
         (acceptAll.addChangedRange 0 34 = false → 34 ∈ j.changedRanges))) :=
  ⟨by decide, fun _ => rfl, by decide, by decide,
   no_edit_dropped acceptAll 7 0 33 34 (by decide) (fun _ => rfl) (by decide)⟩

/-! ## Documents that are pending while they are parsed -/

theorem dispatchDocument_maxParseJobs (env : Env) (url : KUrl) (s : BackgroundParserPrivate)
    (jobs : List ParseJob) :
    (dispatchDocument env url s jobs).1.m_maxParseJobs
      = if backendAccepts env url then s.m_maxParseJobs else s.m_maxParseJobs - 1 := by
  unfold dispatchDocument
  cases h : backendAccepts env url
  · simp [createParseJob_declined env url _ _ s h]
  · simp [createParseJob_accepted env url _ _ s h]

/-- Accounting of one bucket walk: what `m_maxParseJobs` loses is the number
of documents erased from the bucket minus the number of jobs appended. -/
theorem parseBucket_accounting (env : Env) (b : List KUrl) (s : BackgroundParserPrivate)
    (jobs : List ParseJob) :
    (parseBucket env b s jobs).2.1.m_maxParseJobs + (b.length : Int) + (jobs.length : Int)
      = s.m_maxParseJobs + ((parseBucket env b s jobs).2.2.length : Int)
        + ((parseBucket env b s jobs).1.length : Int) := by
  induction b generalizing s jobs with
  | nil => simp [parseBucket]
  | cons url rest ih =>
    unfold parseBucket
    by_cases hcap : capReached s jobs = true
    · simp only [hcap, if_true]
      omega
    · have hcap' : capReached s jobs = false := by simpa using hcap
      by_cases hrun : mapContains s.m_parseJobs url = true
      · simp only [hcap', hrun, Bool.false_eq_true, if_false, if_true, List.length_cons]
        have := ih s jobs
        push_cast
        omega
      · have hrun' : mapContains s.m_parseJobs url = false := by simpa using hrun
        simp only [hcap', hrun', Bool.false_eq_true, if_false, List.length_cons]
        have h1 := ih (dispatchDocument env url s jobs).1 (dispatchDocument env url s jobs).2
        have hm := dispatchDocument_maxParseJobs env url s jobs
        have hj : (dispatchDocument env url s jobs).2.length
            = if backendAccepts env url then jobs.length + 1 else jobs.length := by
          rw [dispatchDocument_jobs_eq]
          split <;> simp
        cases hacc : backendAccepts env url
        · rw [hacc] at hm hj
          simp only [Bool.false_eq_true, if_false] at hm hj
          rw [hj] at h1
          push_cast
          omega
        · rw [hacc] at hm hj
          simp only [if_true] at hm hj
          rw [hj] at h1
          push_cast at h1 ⊢
          omega

theorem parseBuckets_accounting (env : Env) (bs : List (Int × List KUrl))
    (s : BackgroundParserPrivate) (jobs : List ParseJob) :
    (parseBuckets env bs s jobs).2.1.m_maxParseJobs
        + (bs.map (fun e => (e.2.length : Int))).sum + (jobs.length : Int)
      = s.m_maxParseJobs + ((parseBuckets env bs s jobs).2.2.length : Int)
        + ((parseBuckets env bs s jobs).1.map (fun e => (e.2.length : Int))).sum := by
  induction bs generalizing s jobs with
  | nil => simp [parseBuckets]
  | cons e rest ih =>
    obtain ⟨p, b⟩ := e
    unfold parseBuckets
    by_cases hp : p > s.m_neededPriority
    · simp only [hp, if_true]
      omega
    · simp only [hp, if_false, List.map_cons, List.sum_cons]
      have h1 := parseBucket_accounting env b s jobs
      have h2 := ih (parseBucket env b s jobs).2.1 (parseBucket env b s jobs).2.2
      omega

theorem createDelayedJobs_accounting (env : Env) (ds : List (KUrl × List SmartRange))
    (s : BackgroundParserPrivate) (jobs : List ParseJob) :
    (createDelayedJobs env ds s jobs).1.m_maxParseJobs + (jobs.length : Int)
      = s.m_maxParseJobs + ((createDelayedJobs env ds s jobs).2.length : Int) := by
  induction ds generalizing s jobs with
  | nil => simp [createDelayedJobs]
  | cons e rest ih =>
    obtain ⟨url, tracker⟩ := e
    unfold createDelayedJobs
    simp only []
    have h := ih (createDelayedJob env url tracker s jobs).1 (createDelayedJob env url tracker s jobs).2
    rw [createDelayedJob_eq] at h ⊢
    cases hacc : backendAccepts env url
    · rw [hacc] at h
      simp only [Bool.false_eq_true, if_false] at h ⊢
      exact h
    · rw [hacc] at h
      simp only [if_true, List.length_append, List.length_singleton] at h ⊢
      push_cast at h
      omega

/-- Accounting of one tick, before the progress update: `m_maxParseJobs`
changes by the number of jobs in the batch minus the number of documents
erased from the buckets. -/
theorem collectJobs_accounting (env : Env) (s : BackgroundParserPrivate) :
    (collectJobs env s).1.m_maxParseJobs
        + (s.m_documentsForPriority.map (fun e => (e.2.length : Int))).sum
      = s.m_maxParseJobs + ((collectJobs env s).2.length : Int)
        + ((collectJobs env s).1.m_documentsForPriority.map
            (fun e => (e.2.length : Int))).sum := by
  unfold collectJobs
  simp only []
  have h1 := createDelayedJobs_accounting env s.m_delayedParseJobs s []
  have h2 := parseBuckets_accounting env
    (createDelayedJobs env s.m_delayedParseJobs s []).1.m_documentsForPriority
    { (createDelayedJobs env s.m_delayedParseJobs s []).1 with m_delayedParseJobs := [] }
    (createDelayedJobs env s.m_delayedParseJobs s []).2
  simp only [createDelayedJobs_buckets] at h2 ⊢
  simp only [List.length_nil, Int.ofNat_zero] at h1
  omega

theorem createDelayedJobs_registers_any (env : Env) (ds : List (KUrl × List SmartRange))
    (s : BackgroundParserPrivate) (jobs : List ParseJob) (k : KUrl)
    (hk : mapContains s.m_parseJobs k = true) :
    mapContains (createDelayedJobs env ds s jobs).1.m_parseJobs k = true :=
  createDelayedJobs_invariant env (fun s' _ => mapContains s'.m_parseJobs k = true) ds
    (by
      intro e _ s' jobs' hi
      rw [createDelayedJob_parseJobs]
      cases backendAccepts env e.1
      · simpa using hi
      · simp [mapContains_mapInsert, hi])
    s jobs hk

theorem parseBucket_keeps_running (env : Env) (k : KUrl) (b : List KUrl)
    (s : BackgroundParserPrivate) (jobs : List ParseJob)
    (hrun : mapContains s.m_parseJobs k = true) :
    mapContains (parseBucket env b s jobs).2.1.m_parseJobs k = true :=
  parseBucket_invariant env (fun s' _ => mapContains s'.m_parseJobs k = true) b
    (by
      intro url _ s' jobs' hi _ _
      rw [dispatchDocument_parseJobs]
      cases backendAccepts env url
      · simpa using hi
      · simp [mapContains_mapInsert, hi])
    s jobs hrun

/-- A document that is in `m_parseJobs` stays in the bucket that is walked. -/
theorem parseBucket_skips_running (env : Env) (k : KUrl) (b : List KUrl)
    (s : BackgroundParserPrivate) (jobs : List ParseJob)
    (hrun : mapContains s.m_parseJobs k = true) (hk : k ∈ b) :
    k ∈ (parseBucket env b s jobs).1 := by
  induction b generalizing s jobs with
  | nil => simp at hk
  | cons url rest ih =>
    unfold parseBucket
    by_cases hcap : capReached s jobs = true
    · simp only [hcap, if_true]; exact hk
    · have hcap' : capReached s jobs = false := by simpa using hcap
      by_cases hr : mapContains s.m_parseJobs url = true
      · simp only [hcap', hr, Bool.false_eq_true, if_false, if_true]
        rcases List.mem_cons.mp hk with h1 | h1
        · rw [h1]; exact List.mem_cons_self _ _
        · exact List.mem_cons_of_mem _ (ih s jobs hrun h1)
      · have hr' : mapContains s.m_parseJobs url = false := by simpa using hr
        simp only [hcap', hr', Bool.false_eq_true, if_false]
        have hne : k ≠ url := by
          intro e; rw [e] at hrun; exact hr hrun
        have hrest : k ∈ rest := by
          rcases List.mem_cons.mp hk with h1 | h1
          · exact absurd h1 hne
          · exact h1
        apply ih _ _ _ hrest
        rw [dispatchDocument_parseJobs]
        cases backendAccepts env url
        · simpa using hrun
        · simp [mapContains_mapInsert, hrun]

theorem parseBuckets_skips_running (env : Env) (k : KUrl) (bs : List (Int × List KUrl))
    (s : BackgroundParserPrivate) (jobs : List ParseJob)
    (hrun : mapContains s.m_parseJobs k = true) (q : Int) :
    k ∈ bucket (parseBuckets env bs s jobs).1 q ↔ k ∈ bucket bs q := by
  induction bs generalizing s jobs with
  | nil => simp [parseBuckets]
  | cons e rest ih =>
    obtain ⟨p, b⟩ := e
    unfold parseBuckets
    by_cases hp : p > s.m_neededPriority
    · simp only [hp, if_true]
    · simp only [hp, if_false]
      by_cases hpq : p = q
      · simp only [bucket, hpq, if_true]
        exact ⟨parseBucket_subset env b s jobs k, parseBucket_skips_running env k b s jobs hrun⟩
      · simp only [bucket, hpq, if_false]
        exact ih _ _ (parseBucket_keeps_running env k b s jobs hrun)

theorem parseBuckets_keys (env : Env) (bs : List (Int × List KUrl))
    (s : BackgroundParserPrivate) (jobs : List ParseJob) :
    (parseBuckets env bs s jobs).1.map Prod.fst = bs.map Prod.fst := by
  induction bs generalizing s jobs with
  | nil => simp [parseBuckets]
  | cons e rest ih =>
    obtain ⟨p, b⟩ := e
    unfold parseBuckets
    by_cases hp : p > s.m_neededPriority
    · simp only [hp, if_true]
    · simp only [hp, if_false, List.map_cons, ih]

theorem collectJobs_keys (env : Env) (s : BackgroundParserPrivate) :
    (collectJobs env s).1.m_documentsForPriority.map Prod.fst
      = s.m_documentsForPriority.map Prod.fst := by
  unfold collectJobs
  simp only []
  rw [parseBuckets_keys, createDelayedJobs_buckets]

theorem createDelayedJobs_neededPriority (env : Env) (ds : List (KUrl × List SmartRange))
    (s : BackgroundParserPrivate) (jobs : List ParseJob) :
    (createDelayedJobs env ds s jobs).1.m_neededPriority = s.m_neededPriority :=
  createDelayedJobs_invariant env (fun s' _ => s'.m_neededPriority = s.m_neededPriority) ds
    (by intro e _ s' jobs' hi; rw [createDelayedJob_neededPriority]; exact hi) s jobs rfl

/-- One tick skips a document that is pending and in `m_parseJobs`. -/
theorem collectJobs_skips_running (env : Env) (s : BackgroundParserPrivate) (k : KUrl)
    (plan : DocumentParsePlan)
    (hk : mapFind s.m_documents k = some plan)
    (hrun : mapContains s.m_parseJobs k = true)
    (hdel : mapContains s.m_delayedParseJobs k = false) :
    mapContains (collectJobs env s).1.m_parseJobs k = true ∧
    mapFind (collectJobs env s).1.m_documents k = some plan ∧
    (∀ j ∈ (collectJobs env s).2, j.document ≠ k) ∧
    (∀ q, k ∈ bucket (collectJobs env s).1.m_documentsForPriority q ↔
      k ∈ bucket s.m_documentsForPriority q) := by
  have key := collectJobs_invariant env s
    (fun s' jobs => mapContains s'.m_parseJobs k = true ∧
      mapFind s'.m_documents k = some plan ∧ ∀ j ∈ jobs, j.document ≠ k)
    ⟨hrun, hk, by intro j hj; simp at hj⟩
    (by
      rintro ⟨url, tracker⟩ he s' jobs ⟨h1, h2, h3⟩
      have hne : url ≠ k := by
        intro e
        subst e
        rw [mapContains_of_mem _ _ _ he] at hdel
        exact Bool.noConfusion hdel
      refine ⟨?_, by rw [createDelayedJob_documents]; exact h2, ?_⟩
      · rw [createDelayedJob_parseJobs]
        cases backendAccepts env url
        · simpa using h1
        · simp [mapContains_mapInsert, h1]
      · intro j hj
        rcases createDelayedJob_jobs env url tracker s' jobs j hj with h | h
        · exact h3 j h
        · rw [h]; exact hne)
    (by intro s' jobs hi; exact hi)
    (by
      rintro e _ url _ s' jobs ⟨h1, h2, h3⟩ _ _ hr
      have hne : url ≠ k := by
        intro e'
        rw [e', h1] at hr
        exact Bool.noConfusion hr
      have hne' : ¬ k = url := fun e' => hne e'.symm
      refine ⟨?_, ?_, ?_⟩
      · rw [dispatchDocument_parseJobs]
        cases backendAccepts env url
        · simpa using h1
        · simp [mapContains_mapInsert, h1]
      · rw [dispatchDocument_documents, mapFind_mapRemove]
        simp only [hne', if_false]
        exact h2
      · intro j hj
        rcases dispatchDocument_jobs env url s' jobs j hj with h | h
        · exact h3 j h
        · rw [h]; exact hne)
    (by intro s' jobs bk hi; exact hi)
  refine ⟨key.1, key.2.1, key.2.2, ?_⟩
  intro q
  unfold collectJobs
  simp only []
  rw [parseBuckets_skips_running env k _ _ _ ?_ q, createDelayedJobs_buckets]
  exact createDelayedJobs_registers_any env _ s [] k hrun

theorem dispatchDocument_registered_key (env : Env) (k : KUrl)
    (hacc : backendAccepts env k = true) (url : KUrl) (s : BackgroundParserPrivate)
    (jobs : List ParseJob)
    (h : mapContains s.m_parseJobs k = true → ∃ j ∈ jobs, j.document = k) :
    mapContains (dispatchDocument env url s jobs).1.m_parseJobs k = true →
      ∃ j ∈ (dispatchDocument env url s jobs).2, j.document = k := by
  intro hk
  rw [dispatchDocument_parseJobs] at hk
  rw [dispatchDocument_jobs_eq]
  by_cases hu : url = k
  · rw [hu, hacc]
    simp only [if_true]
    exact ⟨_, List.mem_append_right _ (List.mem_singleton_self _), rfl⟩
  · have hu' : ¬ k = url := fun e => hu e.symm
    cases hb : backendAccepts env url
    · rw [hb] at hk
      simp only [Bool.false_eq_true, if_false] at hk ⊢
      exact h hk
    · rw [hb] at hk
      simp only [if_true, mapContains_mapInsert, hu', decide_False, Bool.false_or] at hk ⊢
      obtain ⟨j, hj, hd⟩ := h hk
      exact ⟨j, List.mem_append_left _ hj, hd⟩

theorem parseBucket_registered_key (env : Env) (k : KUrl)
    (hacc : backendAccepts env k = true) (b : List KUrl) (s : BackgroundParserPrivate)
    (jobs : List ParseJob)
    (h : mapContains s.m_parseJobs k = true → ∃ j ∈ jobs, j.document = k) :
    mapContains (parseBucket env b s jobs).2.1.m_parseJobs k = true →
      ∃ j ∈ (parseBucket env b s jobs).2.2, j.document = k :=
  parseBucket_invariant env
    (fun s' jobs' => mapContains s'.m_parseJobs k = true → ∃ j ∈ jobs', j.document = k) b
    (by
      intro url _ s' jobs' hi _ _
      exact dispatchDocument_registered_key env k hacc url s' jobs' hi)
    s jobs h

/-- Walking a bucket that contains `k`, whose backend accepts, ends either at
the admission test or with a job for `k` in the batch. -/
theorem parseBucket_reaches_key (env : Env) (k : KUrl) (hacc : backendAccepts env k = true)
    (b : List KUrl) (hk : k ∈ b) (s : BackgroundParserPrivate) (jobs : List ParseJob)
    (h : mapContains s.m_parseJobs k = true → ∃ j ∈ jobs, j.document = k) :
    capReached (parseBucket env b s jobs).2.1 (parseBucket env b s jobs).2.2 = true ∨
    ∃ j ∈ (parseBucket env b s jobs).2.2, j.document = k := by
  induction b generalizing s jobs with
  | nil => simp at hk
  | cons url rest ih =>
    unfold parseBucket
    by_cases hcap : capReached s jobs = true
    · left; simp only [hcap, if_true]
    · have hcap' : capReached s jobs = false := by simpa using hcap
      by_cases hrun : mapContains s.m_parseJobs url = true
      · simp only [hcap', hrun, Bool.false_eq_true, if_false, if_true]
        by_cases hu : url = k
        · right
          obtain ⟨j, hj, hd⟩ := h (by rw [← hu]; exact hrun)
          obtain ⟨extra, he⟩ := parseBucket_jobs_extend env rest s jobs
          rw [he]
          exact ⟨j, List.mem_append_left _ hj, hd⟩
        · have hk' : k ∈ rest := by
            rcases List.mem_cons.mp hk with h1 | h1
            · exact absurd h1.symm hu
            · exact h1
          exact ih hk' s jobs h
      · have hrun' : mapContains s.m_parseJobs url = false := by simpa using hrun
        simp only [hcap', hrun', Bool.false_eq_true, if_false]
        have hreg := dispatchDocument_registered_key env k hacc url s jobs h
        by_cases hu : url = k
        · right
          obtain ⟨extra, he⟩ := parseBucket_jobs_extend env rest
            (dispatchDocument env url s jobs).1 (dispatchDocument env url s jobs).2
          rw [he]
          have hj : ∃ j ∈ (dispatchDocument env url s jobs).2, j.document = k := by
            rw [dispatchDocument_jobs_eq, hu, hacc]
            simp only [if_true]
            exact ⟨_, List.mem_append_right _ (List.mem_singleton_self _), rfl⟩
          obtain ⟨j, hj, hd⟩ := hj
          exact ⟨j, List.mem_append_left _ hj, hd⟩
        · have hk' : k ∈ rest := by
            rcases List.mem_cons.mp hk with h1 | h1
            · exact absurd h1.symm hu
            · exact h1
          exact ih hk' _ _ hreg

theorem parseBuckets_reaches_key (env : Env) (k : KUrl) (hacc : backendAccepts env k = true)
    (q : Int) (bs : List (Int × List KUrl))
    (hsorted : bs.Pairwise (fun a b => a.1 < b.1))
    (hk : k ∈ bucket bs q)
    (s : BackgroundParserPrivate) (jobs : List ParseJob)
    (hfloor : q ≤ s.m_neededPriority)
    (h : mapContains s.m_parseJobs k = true → ∃ j ∈ jobs, j.document = k) :
    capReached (parseBuckets env bs s jobs).2.1 (parseBuckets env bs s jobs).2.2 = true ∨
    ∃ j ∈ (parseBuckets env bs s jobs).2.2, j.document = k := by
  induction bs generalizing s jobs with
  | nil => simp [bucket] at hk
  | cons e rest ih =>
    obtain ⟨p, b⟩ := e
    obtain ⟨hp_lt, hrest⟩ := List.pairwise_cons.mp hsorted
    have hnil_of_lt : q < p → False := by
      intro hlt
      have hne : ¬ p = q := fun e => by rw [e] at hlt; exact lt_irrefl _ hlt
      have : bucket rest q = [] :=
        bucket_eq_nil_of_lt rest q (fun e he => lt_trans hlt (hp_lt e he))
      simp only [bucket, hne, if_false, this] at hk
      simp at hk
    have hp : ¬ p > s.m_neededPriority := by
      intro hgt
      exact hnil_of_lt (lt_of_le_of_lt hfloor hgt)
    have hunfold : (parseBuckets env ((p, b) :: rest) s jobs).2
        = (parseBuckets env rest (parseBucket env b s jobs).2.1
            (parseBucket env b s jobs).2.2).2 := by
      conv_lhs => unfold parseBuckets
      simp only [hp, if_false]
    rw [hunfold]
    by_cases hpq : p = q
    · have hkb : k ∈ b := by simpa [bucket, hpq] using hk
      rcases parseBucket_reaches_key env k hacc b hkb s jobs h with hcap | ⟨j, hj, hd⟩
      · left
        rw [parseBuckets_capped env rest _ _ hcap]
        exact hcap
      · right
        obtain ⟨extra, he⟩ := parseBuckets_jobs_extend env rest
          (parseBucket env b s jobs).2.1 (parseBucket env b s jobs).2.2
        rw [he]
        exact ⟨j, List.mem_append_left _ hj, hd⟩
    · have hk' : k ∈ bucket rest q := by simpa [bucket, hpq] using hk
      exact ih hrest hk' _ _ (by rw [parseBucket_neededPriority]; exact hfloor)
        (parseBucket_registered_key env k hacc b s jobs h)

/-- A pending document that is not being parsed, has no recorded edit, lies in
a bucket at or below the floor and is accepted by its backend gets a job in
the batch of the tick, unless the walk ends at the admission test. -/
theorem tick_reaches (env : Env) (s : BackgroundParserPrivate) (k : KUrl) (q : Int)
    (hacc : backendAccepts env k = true)
    (hsorted : s.m_documentsForPriority.Pairwise (fun a b => a.1 < b.1))
    (hk : k ∈ bucket s.m_documentsForPriority q) (hfloor : q ≤ s.m_neededPriority)
    (hrun : mapContains s.m_parseJobs k = false)
    (hdel : mapContains s.m_delayedParseJobs k = false) :
    (∃ j ∈ parseDocumentsBatch env s, j.document = k) ∨
    capReached (collectJobs env s).1 (parseDocumentsBatch env s) = true := by
  have hd := createDelayedJobs_invariant env
    (fun s' jobs' => mapContains s'.m_parseJobs k = true → ∃ j ∈ jobs', j.document = k)
    s.m_delayedParseJobs
    (by
      rintro ⟨url, tracker⟩ he s' jobs' hi hc
      have hne : ¬ k = url := by
        intro e
        rw [e, mapContains_of_mem _ _ _ he] at hdel
        exact Bool.noConfusion hdel
      rw [createDelayedJob_parseJobs] at hc
      rw [createDelayedJob_eq]
      cases hb : backendAccepts env url
      · rw [hb] at hc
        simp only [Bool.false_eq_true, if_false] at hc ⊢
        exact hi hc
      · rw [hb] at hc
        simp only [if_true, mapContains_mapInsert, hne, decide_False, Bool.false_or] at hc ⊢
        obtain ⟨j, hj, hdoc⟩ := hi hc
        exact ⟨j, List.mem_append_left _ hj, hdoc⟩)
    s [] (by intro hc; rw [hrun] at hc; exact Bool.noConfusion hc)
  have key := parseBuckets_reaches_key env k hacc q
    (createDelayedJobs env s.m_delayedParseJobs s []).1.m_documentsForPriority
    (by rw [createDelayedJobs_buckets]; exact hsorted)
    (by rw [createDelayedJobs_buckets]; exact hk)
    { (createDelayedJobs env s.m_delayedParseJobs s []).1 with m_delayedParseJobs := [] }
    (createDelayedJobs env s.m_delayedParseJobs s []).2
    (by
      show q ≤ (createDelayedJobs env s.m_delayedParseJobs s []).1.m_neededPriority
      rw [createDelayedJobs_neededPriority]; exact hfloor)
    hd
  unfold parseDocumentsBatch collectJobs
  simp only []
  rcases key with h | h
  · right; exact h
  · left; exact h

theorem collectJobs_neededPriority (env : Env) (s : BackgroundParserPrivate) :
    (collectJobs env s).1.m_neededPriority = s.m_neededPriority :=
  collectJobs_invariant env s (fun s' _ => s'.m_neededPriority = s.m_neededPriority) rfl
    (by intro e _ s' jobs hi; rw [createDelayedJob_neededPriority]; exact hi)
    (by intro s' jobs hi; exact hi)
    (by intro e _ url _ s' jobs hi _ _ _; rw [dispatchDocument_neededPriority]; exact hi)
    (by intro s' jobs bk hi; exact hi)

theorem sorted_of_keys_eq (bs bs' : List (Int × List KUrl))
    (hkeys : bs'.map Prod.fst = bs.map Prod.fst)
    (h : bs.Pairwise (fun a b => a.1 < b.1)) : bs'.Pairwise (fun a b => a.1 < b.1) := by
  have h1 : (bs.map Prod.fst).Pairwise (fun a b => a < b) := List.pairwise_map.mpr h
  rw [← hkeys] at h1
  exact List.pairwise_map.mp h1

/-- C19: if `k` is pending with plan `plan`, is in `m_parseJobs` at the start
of a tick and has no entry in `m_delayedParseJobs`, then the batch of the tick
has no job for `k`, the plan of `k` and its membership in every bucket are
unchanged, and `m_maxParseJobs` (before the progress update) changes only by
the number of jobs of the batch minus the number of documents erased from the
buckets, of which `k` is none. After the completion of a job for `k` the
document is still pending with its plan and in its buckets but no longer in
`m_parseJobs`, and the next tick creates a job for it when its backend accepts
and its bucket lies at or below the floor, unless the walk ends at the
admission test. -/
theorem running_document_skipped (env : Env) (s : BackgroundParserPrivate) (k : KUrl)
    (plan : DocumentParsePlan)
    (hk : mapFind s.m_documents k = some plan)
    (hrun : mapContains s.m_parseJobs k = true)
    (hdel : mapContains s.m_delayedParseJobs k = false) :
    (∀ j ∈ parseDocumentsBatch env s, j.document ≠ k) ∧
    mapFind (parseDocuments env s).m_documents k = some plan ∧
    (∀ q, k ∈ bucket (parseDocuments env s).m_documentsForPriority q ↔
      k ∈ bucket s.m_documentsForPriority q) ∧
    (collectJobs env s).1.m_maxParseJobs
        + (s.m_documentsForPriority.map (fun e => (e.2.length : Int))).sum
      = s.m_maxParseJobs + ((parseDocumentsBatch env s).length : Int)
        + ((parseDocuments env s).m_documentsForPriority.map
            (fun e => (e.2.length : Int))).sum ∧
    (∀ job : ParseJob, job.document = k →
      mapFind (parseComplete job (parseDocuments env s)).m_documents k = some plan ∧
      mapContains (parseComplete job (parseDocuments env s)).m_parseJobs k = false ∧
      (∀ q, k ∈ bucket (parseComplete job (parseDocuments env s)).m_documentsForPriority q ↔
        k ∈ bucket s.m_documentsForPriority q) ∧
      (backendAccepts env k = true →
        s.m_documentsForPriority.Pairwise (fun a b => a.1 < b.1) →
        ∀ q, k ∈ bucket s.m_documentsForPriority q → q ≤ s.m_neededPriority →
          (∃ j ∈ parseDocumentsBatch env (parseComplete job (parseDocuments env s)),
            j.document = k) ∨
          capReached (collectJobs env (parseComplete job (parseDocuments env s))).1
            (parseDocumentsBatch env (parseComplete job (parseDocuments env s))) = true)) := by
  obtain ⟨_, h2, h3, h4⟩ := collectJobs_skips_running env s k plan hk hrun hdel
  have hacct := collectJobs_accounting env s
  unfold parseDocuments
  refine ⟨h3, by rw [parseDocumentsInternal_documents]; exact h2,
    by intro q; rw [parseDocumentsInternal_buckets]; exact h4 q,
    by rw [parseDocumentsInternal_buckets]; exact hacct, ?_⟩
  intro job hjob
  have hf := parseComplete_frame job (parseDocumentsInternal env s)
  have hB : ∀ q, k ∈ bucket (parseComplete job (parseDocumentsInternal env s)).m_documentsForPriority q ↔
      k ∈ bucket s.m_documentsForPriority q := by
    intro q
    rw [hf.2.1, parseDocumentsInternal_buckets]
    exact h4 q
  have hnot : mapContains (parseComplete job (parseDocumentsInternal env s)).m_parseJobs k
      = false := by
    rw [hf.2.2.1, hjob, mapContains_mapRemove]
    simp
  refine ⟨by rw [hf.1, parseDocumentsInternal_documents]; exact h2, hnot, hB, ?_⟩
  intro hacc hsorted q hkq hq
  apply tick_reaches env _ k q hacc
  · apply sorted_of_keys_eq s.m_documentsForPriority _ _ hsorted
    rw [hf.2.1, parseDocumentsInternal_buckets, collectJobs_keys]
  · exact (hB q).mpr hkq
  · rw [hf.2.2.2.2.2, parseDocumentsInternal_neededPriority, collectJobs_neededPriority]
    exact hq
  · exact hnot
  · rw [hf.2.2.2.1, parseDocumentsInternal_delayed, collectJobs_delayed]
    rfl

/-- Witness for C19: `add(7); tick; add(7)` leaves 7 pending while its job
runs; the tick skips it, and the tick after the completion of the job creates
the second job for 7. -/
theorem running_document_skipped_witness :
    mapFind pendingWhileRunning.m_documents 7
      = some { priority := 1, features := 1, notifyWhenReady := [0] } ∧
    mapContains pendingWhileRunning.m_parseJobs 7 = true ∧
    mapContains pendingWhileRunning.m_delayedParseJobs 7 = false ∧
    parseDocumentsBatch acceptAll pendingWhileRunning = [] ∧
    (parseDocumentsBatch acceptAll
      (parseComplete firstJob (parseDocuments acceptAll pendingWhileRunning))).map
        (fun j => (j.id, j.document)) = [(1, 7)] ∧
    (∀ j ∈ parseDocumentsBatch acceptAll pendingWhileRunning, j.document ≠ 7) ∧
    mapFind (parseDocuments acceptAll pendingWhileRunning).m_documents 7
      = some { priority := 1, features := 1, notifyWhenReady := [0] } :=
  have h := running_document_skipped acceptAll pendingWhileRunning 7
    { priority := 1, features := 1, notifyWhenReady := [0] } (by decide) (by decide) (by decide)
  ⟨by decide, by decide, by decide, by decide, by decide, h.1, h.2.1⟩

/-! ## SafetyCounter -/

theorem SafetyCounter.evaluations_fields (i : Nat) (c : SafetyCounter) :
    (SafetyCounter.evaluations i c).safetyCounter = c.safetyCounter + i ∧
    (SafetyCounter.evaluations i c).maxSafetyCounter = c.maxSafetyCounter := by
  induction i generalizing c with
  | zero => simp [SafetyCounter.evaluations]
  | succ i ih =>
    have h := ih c.toBool.2
    simp only [SafetyCounter.evaluations]
    refine ⟨?_, ?_⟩
    · rw [h.1]; simp only [SafetyCounter.toBool]; push_cast; ring
    · rw [h.2]; simp only [SafetyCounter.toBool]

theorem SafetyCounter.evaluations_succ (i : Nat) (c : SafetyCounter) :
    SafetyCounter.evaluations (i + 1) c = (SafetyCounter.evaluations i c).toBool.2 := by
  induction i generalizing c with
  | zero => rfl
  | succ i ih =>
    have h := ih c.toBool.2
    simp only [SafetyCounter.evaluations] at h ⊢
    exact h

/-- Claim C30. Starting from `init()` on a counter with maximum `n ≥ 1`, the
`i`-th successive evaluation of `operator bool` (`i ≥ 1`, no more evaluations
than an `int` can count) returns true exactly when `i < n`; it finds the
counter at `i - 1` and leaves it at `i`, and every evaluation increases the
counter by exactly one and keeps the maximum. `ok()`, a function of the
counter that returns no new state, is true exactly when the counter is below
the maximum. -/
theorem safetyCounter_guard (n : Int) (i : Nat) (c : SafetyCounter)
    (_hn : 1 ≤ n) (_hnmax : n ≤ INT_MAX) (hmax : c.maxSafetyCounter = n)
    (hi : 1 ≤ i) (_hbound : (i : Int) ≤ INT_MAX) :
    ((SafetyCounter.evaluations (i - 1) c.init).toBool.1 = true ↔ (i : Int) < n) ∧
    (SafetyCounter.evaluations (i - 1) c.init).safetyCounter = (i : Int) - 1 ∧
    (SafetyCounter.evaluations (i - 1) c.init).toBool.2 = SafetyCounter.evaluations i c.init ∧
    (SafetyCounter.evaluations i c.init).safetyCounter = (i : Int) ∧
    (∀ k : SafetyCounter, k.toBool.2.safetyCounter = k.safetyCounter + 1 ∧
      k.toBool.2.maxSafetyCounter = k.maxSafetyCounter) ∧
    (∀ k : SafetyCounter, k.maxSafetyCounter = n → (k.ok = true ↔ k.safetyCounter < n)) := by
  obtain ⟨m, rfl⟩ : ∃ m, i = m + 1 := ⟨i - 1, by omega⟩
  have h := SafetyCounter.evaluations_fields m c.init
  have h1 := SafetyCounter.evaluations_fields (m + 1) c.init
  have hc : c.init.safetyCounter = 0 := rfl
  have hm : c.init.maxSafetyCounter = n := hmax
  simp only [Nat.add_sub_cancel]
  refine ⟨?_, ?_, ?_, ?_, ?_, ?_⟩
  · simp only [SafetyCounter.toBool, decide_eq_true_eq, h.1, h.2, hc, hm]
    push_cast; constructor <;> intro hh <;> omega
  · rw [h.1, hc]; push_cast; ring
  · exact (SafetyCounter.evaluations_succ m c.init).symm
  · rw [h1.1, hc]; push_cast; ring
  · intro k; exact ⟨rfl, rfl⟩
  · intro k hk
    simp only [SafetyCounter.ok, decide_eq_true_eq, hk]

/-- With maximum 3 the second evaluation is the last one that returns true. -/
theorem safetyCounter_guard_witness :
    ((SafetyCounter.evaluations (2 - 1)
        (SafetyCounter.init { safetyCounter := 5, maxSafetyCounter := 3 })).toBool.1 = true ↔
      ((2 : Nat) : Int) < 3) ∧
    ((SafetyCounter.evaluations (3 - 1)
        (SafetyCounter.init { safetyCounter := 5, maxSafetyCounter := 3 })).toBool.1 = true ↔
      ((3 : Nat) : Int) < 3) :=
  ⟨(safetyCounter_guard 3 2 { safetyCounter := 5, maxSafetyCounter := 3 }
      (by decide) (by decide) rfl (by decide) (by decide)).1,
   (safetyCounter_guard 3 3 { safetyCounter := 5, maxSafetyCounter := 3 }
      (by decide) (by decide) rfl (by decide) (by decide)).1⟩

/-! ## Bookkeeping of a successful dispatch -/

theorem dispatchDocument_nextJobId (env : Env) (url : KUrl) (s : BackgroundParserPrivate)
    (jobs : List ParseJob) :
    (dispatchDocument env url s jobs).1.nextJobId
      = if backendAccepts env url then s.nextJobId + 1 else s.nextJobId := by
  unfold dispatchDocument
  cases h : backendAccepts env url
  · simp [createParseJob_declined env url _ _ s h]
  · simp [createParseJob_accepted env url _ _ s h]

theorem dispatchDocument_weaver (env : Env) (url : KUrl) (s : BackgroundParserPrivate)
    (jobs : List ParseJob) :
    (dispatchDocument env url s jobs).1.m_weaver = s.m_weaver := by
  unfold dispatchDocument
  cases h : backendAccepts env url
  · simp [createParseJob_declined env url _ _ s h]
  · simp [createParseJob_accepted env url _ _ s h]

theorem createDelayedJob_weaver (env : Env) (url : KUrl) (tracker : List SmartRange)
    (s : BackgroundParserPrivate) (jobs : List ParseJob) :
    (createDelayedJob env url tracker s jobs).1.m_weaver = s.m_weaver := by
  unfold createDelayedJob
  cases h : backendAccepts env url
  · simp [createParseJob_declined env url _ _ s h]
  · simp [createParseJob_accepted env url _ _ s h]

/-- The loops of a tick do not touch the weaver queue. -/
theorem collectJobs_weaver (env : Env) (s : BackgroundParserPrivate) :
    (collectJobs env s).1.m_weaver = s.m_weaver :=
  collectJobs_invariant env s (fun s' _ => s'.m_weaver = s.m_weaver) rfl
    (by intro e _ s' jobs hi; rw [createDelayedJob_weaver]; exact hi)
    (by intro s' jobs hi; exact hi)
    (by intro e _ url _ s' jobs hi _ _ _; rw [dispatchDocument_weaver]; exact hi)
    (by intro s' jobs bk hi; exact hi)

/-- The jobs a bucket walk appends carry ids from `nextJobId` on. -/
theorem parseBucket_fresh_ids (env : Env) (b : List KUrl) (s : BackgroundParserPrivate)
    (jobs : List ParseJob) :
    ∃ extra, (parseBucket env b s jobs).2.2 = jobs ++ extra ∧
      ∀ j ∈ extra, s.nextJobId ≤ j.id := by
  have h := parseBucket_invariant env
    (fun s' jobs' => s.nextJobId ≤ s'.nextJobId ∧
      ∃ extra, jobs' = jobs ++ extra ∧ ∀ j ∈ extra, s.nextJobId ≤ j.id) b
    (by
      rintro url _ s' jobs' ⟨hn, extra, he, hid⟩ _ _
      rw [dispatchDocument_jobs_eq, dispatchDocument_nextJobId, he]
      cases backendAccepts env url
      · exact ⟨by simpa using hn, extra, by simp, hid⟩
      · simp only [if_true, List.append_assoc]
        have hle : s.nextJobId ≤ s'.nextJobId + 1 := by omega
        refine ⟨hle, extra ++
          [{ id := s'.nextJobId, document := url,
             minimumFeatures := (planOrDefault env s' url).features,
             notifyWhenReady := (planOrDefault env s' url).notifyWhenReady,
             changedRanges := [] }], rfl, ?_⟩
        intro j hj
        rcases List.mem_append.mp hj with hj | hj
        · exact hid j hj
        · rw [List.mem_singleton.mp hj]; exact hn)
    s jobs ⟨le_refl _, [], by simp, by simp⟩
  exact h.2

theorem parseBucket_keeps_absent (env : Env) (k : KUrl) (b : List KUrl)
    (s : BackgroundParserPrivate) (jobs : List ParseJob)
    (hdoc : mapContains s.m_documents k = false) :
    mapContains (parseBucket env b s jobs).2.1.m_documents k = false :=
  parseBucket_invariant env (fun s' _ => mapContains s'.m_documents k = false) b
    (by
      intro url _ s' jobs' hi _ _
      rw [dispatchDocument_documents, mapContains_mapRemove, hi]
      simp)
    s jobs hdoc

/-- Claim C21. When the inner loop of `parseDocumentsInternal` stands at a
pending document `url` with stored plan `plan`, the admission test passes,
`url` is not in `m_parseJobs` and a language yields a job, then the loop body
appends to the batch exactly one job, for `url`, with the features and the
listener list of the plan; it registers that job under `url` in
`m_parseJobs`, removes `url` from `m_documents` and leaves `m_maxParseJobs` at
its value before the dispatch (one up in `createParseJob`, one down in the
loop). At the end of the walk of this bucket `url` is out of the bucket, not
pending, still registered, and the job occurs exactly once in the batch; the
tick appends the batch once to the weaver queue. -/
theorem dispatch_accepted (env : Env) (url : KUrl) (rest : List KUrl)
    (s : BackgroundParserPrivate) (jobs : List ParseJob) (plan : DocumentParsePlan)
    (hplan : mapFind s.m_documents url = some plan)
    (hcap : capReached s jobs = false)
    (hrun : mapContains s.m_parseJobs url = false)
    (hacc : backendAccepts env url = true)
    (hset : url ∉ rest)
    (hids : ∀ j ∈ jobs, j.id < s.nextJobId) :
    (dispatchDocument env url s jobs).2
      = jobs ++ [{ id := s.nextJobId, document := url, minimumFeatures := plan.features,
                   notifyWhenReady := plan.notifyWhenReady, changedRanges := [] }] ∧
    mapFind (dispatchDocument env url s jobs).1.m_parseJobs url = some s.nextJobId ∧
    (dispatchDocument env url s jobs).1.m_documents = mapRemove s.m_documents url ∧
    (dispatchDocument env url s jobs).1.m_maxParseJobs = s.m_maxParseJobs ∧
    parseBucket env (url :: rest) s jobs
      = parseBucket env rest (dispatchDocument env url s jobs).1
          (dispatchDocument env url s jobs).2 ∧
    url ∉ (parseBucket env (url :: rest) s jobs).1 ∧
    mapContains (parseBucket env (url :: rest) s jobs).2.1.m_documents url = false ∧
    mapContains (parseBucket env (url :: rest) s jobs).2.1.m_parseJobs url = true ∧
    (parseBucket env (url :: rest) s jobs).2.2.count
        { id := s.nextJobId, document := url, minimumFeatures := plan.features,
          notifyWhenReady := plan.notifyWhenReady, changedRanges := [] } = 1 ∧
    (∀ s' : BackgroundParserPrivate,
      (parseDocuments env s').m_weaver = s'.m_weaver ++ parseDocumentsBatch env s') := by
  have hpl : planOrDefault env s url = plan := by
    unfold planOrDefault; rw [hplan]
  have hjobs := dispatchDocument_jobs_eq env url s jobs
  rw [hacc, hpl] at hjobs
  simp only [if_true] at hjobs
  have hpj := dispatchDocument_parseJobs env url s jobs
  rw [hacc] at hpj
  simp only [if_true] at hpj
  have hmax := dispatchDocument_maxParseJobs env url s jobs
  rw [hacc] at hmax
  simp only [if_true] at hmax
  have hnext := dispatchDocument_nextJobId env url s jobs
  rw [hacc] at hnext
  simp only [if_true] at hnext
  have hstep : parseBucket env (url :: rest) s jobs
      = parseBucket env rest (dispatchDocument env url s jobs).1
          (dispatchDocument env url s jobs).2 := by
    conv_lhs => unfold parseBucket
    simp only [hcap, hrun, Bool.false_eq_true, if_false]
  refine ⟨hjobs, ?_, dispatchDocument_documents env url s jobs, hmax, hstep, ?_, ?_, ?_, ?_, ?_⟩
  · rw [hpj, mapFind_mapInsert]; simp
  · rw [hstep]
    intro hmem
    exact hset (parseBucket_subset env rest _ _ url hmem)
  · rw [hstep]
    apply parseBucket_keeps_absent
    rw [dispatchDocument_documents, mapContains_mapRemove]
    simp
  · rw [hstep]
    apply parseBucket_keeps_running
    rw [hpj, mapContains_mapInsert]
    simp
  · rw [hstep]
    obtain ⟨extra, he, hid⟩ := parseBucket_fresh_ids env rest
      (dispatchDocument env url s jobs).1 (dispatchDocument env url s jobs).2
    rw [he, hjobs, List.count_append, List.count_append]
    have h1 : jobs.count
        { id := s.nextJobId, document := url, minimumFeatures := plan.features,
          notifyWhenReady := plan.notifyWhenReady, changedRanges := [] } = 0 := by
      apply List.count_eq_zero.mpr
      intro hmem
      have := hids _ hmem
      simp at this
    have h2 : extra.count
        { id := s.nextJobId, document := url, minimumFeatures := plan.features,
          notifyWhenReady := plan.notifyWhenReady, changedRanges := [] } = 0 := by
      apply List.count_eq_zero.mpr
      intro hmem
      have := hid _ hmem
      rw [hnext] at this
      simp at this
    rw [h1, h2]
    simp
  · intro s'
    unfold parseDocuments parseDocumentsBatch
    rw [parseDocumentsInternal_weaver, collectJobs_weaver]

/-- Witness for C21: `add(7, f=1, p=1, listener 0)` with an accepting backend,
then the walk of bucket `[7]`. -/
theorem dispatch_accepted_witness :
    mapFind (onePending acceptAll).m_documents 7
      = some { priority := 1, features := 1, notifyWhenReady := [0] } ∧
    (parseDocuments acceptAll (onePending acceptAll)).m_weaver = [firstJob] ∧
    (onePending acceptAll).m_maxParseJobs = 1 ∧
    (collectJobs acceptAll (onePending acceptAll)).1.m_maxParseJobs = 1 ∧
    (dispatchDocument acceptAll 7 (onePending acceptAll) []).2
      = [] ++ [{ id := (onePending acceptAll).nextJobId, document := 7, minimumFeatures := 1,
                 notifyWhenReady := [0], changedRanges := [] }] :=
  ⟨by decide, by decide, by decide, by decide,
   (dispatch_accepted acceptAll 7 [] (onePending acceptAll) []
     { priority := 1, features := 1, notifyWhenReady := [0] }
     (by decide) (by decide) (by decide) (by decide) (by simp) (by simp)).1⟩

/-! ## The completion path -/

/-- Claim C22. The slot `parseComplete(job)`, to which `createParseJob`
connects both the `done` and the `failed` signal of a job, emits
`parseJobFinished(job)` exactly once, removes the document of the job from
`m_parseJobs` and the job from `m_jobProgress`, and adds one to
`m_doneParseJobs`; if the counters are then equal both become 0 and nothing
else is emitted, otherwise `m_maxParseJobs` keeps its value and one
`showProgress` follows. It leaves `m_documents`, `m_documentsForPriority`,
`m_delayedParseJobs` and `m_neededPriority` as they are: the document is not
queued again. -/
theorem parseComplete_bookkeeping (job : ParseJob) (s : BackgroundParserPrivate) :
    (parseComplete job s).m_parseJobs = mapRemove s.m_parseJobs job.document ∧
    mapContains (parseComplete job s).m_parseJobs job.document = false ∧
    (parseComplete job s).m_jobProgress = mapRemove s.m_jobProgress job.id ∧
    mapContains (parseComplete job s).m_jobProgress job.id = false ∧
    (if s.m_doneParseJobs + 1 = s.m_maxParseJobs then
       (parseComplete job s).m_doneParseJobs = 0 ∧
       (parseComplete job s).m_maxParseJobs = 0 ∧
       (parseComplete job s).emitted = s.emitted ++ [Signal.parseJobFinished job]
     else
       (parseComplete job s).m_doneParseJobs = s.m_doneParseJobs + 1 ∧
       (parseComplete job s).m_maxParseJobs = s.m_maxParseJobs ∧
       ∃ value, (parseComplete job s).emitted
         = s.emitted ++ [Signal.parseJobFinished job,
                         Signal.showProgress 0 (s.m_maxParseJobs * 1000) value]) ∧
    (parseComplete job s).emitted.count (Signal.parseJobFinished job)
      = s.emitted.count (Signal.parseJobFinished job) + 1 ∧
    (parseComplete job s).m_documents = s.m_documents ∧
    (parseComplete job s).m_documentsForPriority = s.m_documentsForPriority ∧
    (parseComplete job s).m_delayedParseJobs = s.m_delayedParseJobs ∧
    (parseComplete job s).m_neededPriority = s.m_neededPriority := by
  have hf := parseComplete_frame job s
  have hcases : (if s.m_doneParseJobs + 1 = s.m_maxParseJobs then
       (parseComplete job s).m_doneParseJobs = 0 ∧
       (parseComplete job s).m_maxParseJobs = 0 ∧
       (parseComplete job s).emitted = s.emitted ++ [Signal.parseJobFinished job]
     else
       (parseComplete job s).m_doneParseJobs = s.m_doneParseJobs + 1 ∧
       (parseComplete job s).m_maxParseJobs = s.m_maxParseJobs ∧
       ∃ value, (parseComplete job s).emitted
         = s.emitted ++ [Signal.parseJobFinished job,
                         Signal.showProgress 0 (s.m_maxParseJobs * 1000) value]) := by
    by_cases h : s.m_doneParseJobs + 1 = s.m_maxParseJobs
    · simp only [h, if_true]
      unfold parseComplete updateProgressBar
      simp [h]
    · simp only [h, if_false]
      unfold parseComplete updateProgressBar
      simp [h]
  refine ⟨hf.2.2.1, ?_, ?_, ?_, hcases, ?_, hf.1, hf.2.1, hf.2.2.2.1, hf.2.2.2.2.2⟩
  · rw [hf.2.2.1, mapContains_mapRemove]; simp
  · unfold parseComplete updateProgressBar
    simp only []
    split <;> rfl
  · have : (parseComplete job s).m_jobProgress = mapRemove s.m_jobProgress job.id := by
      unfold parseComplete updateProgressBar
      simp only []
      split <;> rfl
    rw [this, mapContains_mapRemove]; simp
  · by_cases h : s.m_doneParseJobs + 1 = s.m_maxParseJobs
    · simp only [h, if_true] at hcases
      rw [hcases.2.2, List.count_append]
      simp
    · simp only [h, if_false] at hcases
      obtain ⟨value, hv⟩ := hcases.2.2
      rw [hv, List.count_append]
      simp [List.count_cons]

/-! ## suspend and resume -/

theorem updateProgressBar_flags (s : BackgroundParserPrivate) :
    (updateProgressBar s).m_timerActive = s.m_timerActive ∧
    (updateProgressBar s).m_weaverSuspended = s.m_weaverSuspended := by
  unfold updateProgressBar; split <;> exact ⟨rfl, rfl⟩

theorem resumePrivate_flags (s : BackgroundParserPrivate) :
    (resumePrivate s).m_timerActive = true ∧ (resumePrivate s).m_weaverSuspended = false := by
  unfold resumePrivate
  cases h1 : s.m_timerActive <;> cases h2 : s.m_weaverSuspended <;> simp [h1, h2]

/-- Counterexample for C24: after `suspend(); add(7)` the pool is suspended and
`addDocument` has started the timer; the second `suspend()` returns at the
guard for an already suspended pool, so the timer is still active when it
returns. -/
theorem suspend_leaves_timer_active :
    ReachableBy acceptAll controlOp addedWhileSuspended ∧
    addedWhileSuspended.m_weaverSuspended = true ∧
    addedWhileSuspended.m_timerActive = true ∧
    (suspend addedWhileSuspended).m_timerActive = true ∧
    (suspend addedWhileSuspended).m_weaverSuspended = true := by
  refine ⟨?_, by decide, by decide, by decide, by decide⟩
  have h0 : ReachableBy acceptAll controlOp (initial acceptAll) := ReachableBy.init
  have h1 := ReachableBy.step _ Op.suspend h0 (by simp [controlOp])
  exact ReachableBy.step _ (Op.addDocument 7 1 0 0) h1 (by simp [controlOp])

/-- Claim C24, amended. In every state, when `suspend()` returns the pool is
suspended and `hideProgress` is the one signal it has emitted; the timer is
inactive if the pool was not suspended at the call, and keeps its state if it
was (the guard returns before `m_timer.stop()`). When `resume()` returns the
timer is active and the pool is not suspended. -/
theorem suspend_resume_post (s : BackgroundParserPrivate) :
    (suspend s).m_weaverSuspended = true ∧
    (suspend s).emitted = s.emitted ++ [Signal.hideProgress] ∧
    (s.m_weaverSuspended = false → (suspend s).m_timerActive = false) ∧
    (s.m_weaverSuspended = true → (suspend s).m_timerActive = s.m_timerActive) ∧
    (resume s).m_timerActive = true ∧
    (resume s).m_weaverSuspended = false := by
  refine ⟨?_, ?_, ?_, ?_, ?_, ?_⟩
  · unfold suspend suspendPrivate
    cases h : s.m_weaverSuspended <;> simp [h]
  · unfold suspend suspendPrivate
    cases h : s.m_weaverSuspended <;> simp
  · intro h
    unfold suspend suspendPrivate
    simp [h]
  · intro h
    unfold suspend suspendPrivate
    simp [h]
  · unfold resume
    rw [(updateProgressBar_flags _).1, (resumePrivate_flags s).1]
  · unfold resume
    rw [(updateProgressBar_flags _).2, (resumePrivate_flags s).2]

/-! ## 32 bit `float` arithmetic -/

theorem roundHalfEven_intCast (n : Int) : roundHalfEven (n : Rat) = n := by
  unfold roundHalfEven
  simp

theorem floatUlpExponent_le (q : Rat) (e : Int) (hq : q ≠ 0)
    (h2 : |q| < (2 : Rat) ^ (e + 1)) (he : -126 ≤ e) : floatUlpExponent q ≤ e - 23 := by
  have hpos : (0 : Rat) < |q| := abs_pos.mpr hq
  have := (Int.lt_zpow_iff_log_lt (b := 2) (by norm_num) hpos).mp (by simpa using h2)
  unfold floatUlpExponent
  have : max (Int.log 2 |q|) (-126) ≤ e := max_le (by omega) he
  omega


/-- A value `z·2^m` with `|z| < 2^24` is a `float`: rounding leaves it alone. -/
theorem roundToFloat_scaled (z : Int) (m : Nat) (hz : |z| < 2 ^ 24) :
    roundToFloat ((z : Rat) * (2 : Rat) ^ m) = (z : Rat) * (2 : Rat) ^ m := by
  by_cases h0 : z = 0
  · subst h0; simp [roundToFloat]
  · have hq : (z : Rat) * (2 : Rat) ^ m ≠ 0 := by
      apply mul_ne_zero
      · exact_mod_cast h0
      · positivity
    have habs : |(z : Rat) * (2 : Rat) ^ m| < (2 : Rat) ^ ((23 + (m : Int)) + 1) := by
      rw [abs_mul, abs_of_pos (by positivity : (0 : Rat) < (2 : Rat) ^ m)]
      have h1 : |(z : Rat)| < (2 : Rat) ^ (24 : Nat) := by
        have : ((|z| : Int) : Rat) < ((2 ^ 24 : Int) : Rat) := by exact_mod_cast hz
        simpa using this
      have h2 : (2 : Rat) ^ ((23 + (m : Int)) + 1) = (2 : Rat) ^ (24 : Nat) * (2 : Rat) ^ m := by
        rw [show (23 + (m : Int)) + 1 = ((24 + m : Nat) : Int) by push_cast; ring]
        rw [zpow_natCast, pow_add]
      rw [h2]
      exact mul_lt_mul_of_pos_right h1 (by positivity)
    have hk := floatUlpExponent_le _ (23 + (m : Int)) hq habs (by omega)
    obtain ⟨d, hd⟩ : ∃ d : Nat, floatUlpExponent ((z : Rat) * (2 : Rat) ^ m) = (m : Int) - d :=
      ⟨((m : Int) - floatUlpExponent ((z : Rat) * (2 : Rat) ^ m)).toNat, by omega⟩
    unfold roundToFloat
    rw [if_neg hq, hd]
    have hpow : (2 : Rat) ^ ((m : Int) - (d : Int)) = (2 : Rat) ^ m / (2 : Rat) ^ d := by
      rw [zpow_sub₀ (by norm_num), zpow_natCast, zpow_natCast]
    have hdiv : (z : Rat) * (2 : Rat) ^ m / (2 : Rat) ^ ((m : Int) - (d : Int))
        = ((z * 2 ^ d : Int) : Rat) := by
      rw [hpow]
      push_cast
      field_simp
      ring
    rw [hdiv, roundHalfEven_intCast, hpow]
    push_cast
    field_simp
    ring

theorem roundToFloat_intCast (z : Int) (hz : |z| < 2 ^ 24) :
    roundToFloat (z : Rat) = (z : Rat) := by
  have := roundToFloat_scaled z 0 hz
  simpa using this

theorem floatToInt_intCast (z : Int) : floatToInt (z : Rat) = z := by
  unfold floatToInt
  simp


theorem progressValue_nil (done : Int) (h : |125 * done| < 2 ^ 24) :
    progressValue [] done = 1000 * done := by
  have hd : |done| < 2 ^ 24 := by
    rw [abs_lt] at h ⊢
    constructor <;> omega
  have h1000 : roundToFloat 1000 = 1000 := by
    have := roundToFloat_intCast 1000 (by norm_num)
    simpa using this
  have hmul : (done : Rat) * 1000 = ((125 * done : Int) : Rat) * (2 : Rat) ^ 3 := by
    push_cast; ring
  unfold progressValue
  simp only [List.foldl_nil, zero_add]
  rw [roundToFloat_intCast done hd, roundToFloat_intCast done hd, h1000, hmul,
    roundToFloat_scaled (125 * done) 3 h]
  have : ((125 * done : Int) : Rat) * (2 : Rat) ^ 3 = ((1000 * done : Int) : Rat) := by
    push_cast; ring
  rw [this, floatToInt_intCast]

theorem updateProgressBar_emitted (s : BackgroundParserPrivate)
    (h : s.m_doneParseJobs ≠ s.m_maxParseJobs) :
    (updateProgressBar s).m_doneParseJobs = s.m_doneParseJobs ∧
    (updateProgressBar s).m_maxParseJobs = s.m_maxParseJobs ∧
    (updateProgressBar s).emitted = s.emitted ++
      [Signal.showProgress 0 (s.m_maxParseJobs * 1000)
        (progressValue (s.m_jobProgress.map Prod.snd) s.m_doneParseJobs)] := by
  unfold updateProgressBar
  simp only [h, if_false]
  exact ⟨trivial, trivial, trivial⟩

theorem addDocumentList_cons (k : KUrl) (urls : List KUrl) (f : Nat) (p : Int)
    (s : BackgroundParserPrivate) :
    addDocumentList (k :: urls) f p s = addDocumentList urls f p (addDocument k f p 0 s) := by
  unfold addDocumentList
  rfl

/-- Growth of `m_maxParseJobs` over a list of added keys. -/
theorem addDocumentList_maxParseJobs (urls : List KUrl) (f : Nat) (p : Int)
    (s : BackgroundParserPrivate) :
    (addDocumentList urls f p s).m_maxParseJobs
      = s.m_maxParseJobs
        + ((urls.toFinset.filter (fun k => mapContains s.m_documents k = false)).card : Int) := by
  induction urls generalizing s with
  | nil => simp [addDocumentList]
  | cons k urls ih =>
    rw [addDocumentList_cons, ih, addDocument_maxParseJobs]
    have hfilter : urls.toFinset.filter
          (fun u => mapContains (addDocument k f p 0 s).m_documents u = false)
        = (urls.toFinset.filter (fun u => mapContains s.m_documents u = false)).erase k := by
      ext u
      simp only [Finset.mem_filter, Finset.mem_erase, List.mem_toFinset, addDocument_contains,
        Bool.or_eq_false_iff, decide_eq_false_iff_not]
      tauto
    rw [hfilter, List.toFinset_cons, Finset.filter_insert]
    by_cases hk : mapContains s.m_documents k = true
    · have hk' : ¬ mapContains s.m_documents k = false := by simp [hk]
      have hnot : k ∉ urls.toFinset.filter (fun u => mapContains s.m_documents u = false) := by
        simp [hk]
      simp only [hk, if_true]
      rw [Finset.erase_eq_of_not_mem hnot]
      simp
    · have hk' : mapContains s.m_documents k = false := by simpa using hk
      simp only [hk', Bool.false_eq_true, if_false, if_true]
      by_cases hmem : k ∈ urls.toFinset.filter (fun u => mapContains s.m_documents u = false)
      · rw [Finset.insert_eq_of_mem hmem]
        have := Finset.card_erase_add_one hmem
        omega
      · rw [Finset.erase_eq_of_not_mem hmem, Finset.card_insert_of_not_mem hmem]
        push_cast
        ring

/-- Claim C26. For every state and every list of keys, `addDocumentList`
yields the state that results from calling `addDocument` with the null
listener for each key in list order, and `m_maxParseJobs` grows by the
number of distinct keys of the list that were not pending before. -/
theorem addDocumentList_refines (urls : List KUrl) (f : Nat) (p : Int)
    (s : BackgroundParserPrivate) :
    addDocumentList urls f p s = addAllSpec urls f p s ∧
    (addDocumentList urls f p s).m_maxParseJobs
      = s.m_maxParseJobs
        + ((urls.toFinset.filter (fun k => mapContains s.m_documents k = false)).card : Int) := by
  refine ⟨?_, addDocumentList_maxParseJobs urls f p s⟩
  induction urls generalizing s with
  | nil => rfl
  | cons k urls ih =>
    rw [addDocumentList_cons, ih]
    rfl

/-! ## `m_parseJobs` is keyed by document -/

/-- Claim C29. `createParseJob` stores the new job under the url whatever is
stored there, without adding an entry when the url has one, and
`parseComplete(job)` removes the entry of the job's document whichever job it
holds. After `add(7); tick; refused notifyEdit(7); tick; completion of the
first job of 7` the second job of 7 is still in the weaver queue while
`parseJobForDocument(7)` returns null, and a tick after another `add(7)`
creates a third job for 7. -/
theorem parseJobs_keyed_by_document :
    (∀ (env : Env) (url : KUrl) (features : Nat) (notifyWhenReady : List QObjectPtr)
        (s : BackgroundParserPrivate), backendAccepts env url = true →
      mapFind (createParseJob env url features notifyWhenReady s).2.m_parseJobs url
        = some s.nextJobId ∧
      (mapContains s.m_parseJobs url = true →
        (createParseJob env url features notifyWhenReady s).2.m_parseJobs.length
          = s.m_parseJobs.length)) ∧
    (∀ (job : ParseJob) (s : BackgroundParserPrivate),
      mapFind (parseComplete job s).m_parseJobs job.document = none) ∧
    ReachableBy acceptAll schedulerOp orphaned ∧
    editedWhileRunning.m_parseJobs = [(7, 0)] ∧
    overwritten.m_parseJobs = [(7, 1)] ∧
    overwritten.m_weaver = [firstJob, secondJob] ∧
    orphaned.m_weaver = [secondJob] ∧
    secondJob.document = 7 ∧
    orphaned.m_parseJobs = [] ∧
    parseJobForDocument orphaned 7 = none ∧
    (parseDocumentsBatch acceptAll (addDocument 7 1 1 0 orphaned)).map
      (fun j => (j.id, j.document)) = [(2, 7)] ∧
    (parseDocuments acceptAll (addDocument 7 1 1 0 orphaned)).m_weaver.map
      (fun j => (j.id, j.document)) = [(1, 7), (2, 7)] := by
  refine ⟨?_, ?_, ?_, by decide, by decide, by decide, by decide, rfl, by decide, by decide,
    by decide, by decide⟩
  · intro env url features notifyWhenReady s hacc
    rw [createParseJob_accepted env url features notifyWhenReady s hacc]
    refine ⟨?_, ?_⟩
    · simp only [mapFind_mapInsert]
      simp
    · intro hc
      exact length_mapInsert_of_contains _ _ _ hc
  · intro job s
    rw [(parseComplete_frame job s).2.2.1, mapFind_mapRemove]
    simp
  · have h0 : ReachableBy acceptAll schedulerOp (initial acceptAll) := ReachableBy.init
    have h1 := ReachableBy.step _ (Op.addDocument 7 1 1 0) h0 (by simp [schedulerOp])
    have h2 := ReachableBy.step _ Op.parseDocuments h1 (by simp [schedulerOp])
    have h3 := ReachableBy.step _ (Op.rangeContentsChanged 7 33) h2 (by simp [schedulerOp])
    have h4 := ReachableBy.step _ Op.parseDocuments h3 (by simp [schedulerOp])
    exact ReachableBy.step _ (Op.parseComplete firstJob) h4
      (by simp only [schedulerOp]; decide)

/-! ## The delayed drain and admission control -/

/-- The batch of a tick is the jobs of the delayed table followed by jobs for
documents of buckets at or below the floor. -/
theorem batch_delayed_then_pending (env : Env) (s : BackgroundParserPrivate) :
    ∃ rest, parseDocumentsBatch env s
        = (createDelayedJobs env s.m_delayedParseJobs s []).2 ++ rest ∧
      ∀ j ∈ rest, ∃ e ∈ s.m_documentsForPriority,
        j.document ∈ e.2 ∧ e.1 ≤ s.m_neededPriority := by
  unfold parseDocumentsBatch collectJobs
  simp only []
  have key := parseBuckets_invariant env
    (fun s' jobs' => s'.m_neededPriority = s.m_neededPriority ∧
      ∃ rest, jobs' = (createDelayedJobs env s.m_delayedParseJobs s []).2 ++ rest ∧
        ∀ j ∈ rest, ∃ e ∈ s.m_documentsForPriority,
          j.document ∈ e.2 ∧ e.1 ≤ s.m_neededPriority)
    (createDelayedJobs env s.m_delayedParseJobs s []).1.m_documentsForPriority
    (by
      rintro e he url hu s' jobs' ⟨hn, rest, hrest, horigin⟩ hle _ _
      rw [createDelayedJobs_buckets] at he
      rw [dispatchDocument_jobs_eq, dispatchDocument_neededPriority]
      refine ⟨hn, ?_⟩
      cases hacc : backendAccepts env url
      · simp only [Bool.false_eq_true, if_false]
        exact ⟨rest, hrest, horigin⟩
      · simp only [if_true]
        refine ⟨rest ++ [_], by rw [hrest, List.append_assoc], ?_⟩
        intro j hj
        rcases List.mem_append.mp hj with h | h
        · exact horigin j h
        · rw [List.mem_singleton.mp h]
          exact ⟨e, he, hu, by rw [← hn]; exact hle⟩)
    (dispatchDocument_neededPriority env)
    { (createDelayedJobs env s.m_delayedParseJobs s []).1 with m_delayedParseJobs := [] }
    (createDelayedJobs env s.m_delayedParseJobs s []).2
    ⟨createDelayedJobs_neededPriority env _ s [], [], by simp, by intro j hj; simp at hj⟩
  exact key.2

/-- Claim C28. In every state, whatever `m_neededPriority` and the size of
`m_parseJobs`, the batch of `parseDocuments` starts with one job for each
entry of `m_delayedParseJobs` whose backend accepts, in table order; every
job after them is for a document of a bucket at or below the floor. The same
jobs are created right after `disableProcessing()`, and when every bucket lies
above `BestPriority` they are then the whole batch. In `delayedBurst` the
floor is `BestPriority` and three jobs run on one thread, yet the tick creates
the jobs for the two edited documents. -/
theorem delayed_bypass_admission (env : Env) (s : BackgroundParserPrivate) :
    (∃ rest, parseDocumentsBatch env s
        = (createDelayedJobs env s.m_delayedParseJobs s []).2 ++ rest ∧
      ∀ j ∈ rest, ∃ e ∈ s.m_documentsForPriority,
        j.document ∈ e.2 ∧ e.1 ≤ s.m_neededPriority) ∧
    (createDelayedJobs env s.m_delayedParseJobs s []).2.map
        (fun j => (j.document, j.minimumFeatures, j.notifyWhenReady, j.changedRanges))
      = (s.m_delayedParseJobs.filter (fun e => backendAccepts env e.1)).map
          (fun e => (e.1, env.AllDeclarationsContextsAndUses, [], e.2)) ∧
    (createDelayedJobs env (disableProcessing env s).m_delayedParseJobs
        (disableProcessing env s) []).2.map
        (fun j => (j.document, j.minimumFeatures, j.notifyWhenReady, j.changedRanges))
      = (s.m_delayedParseJobs.filter (fun e => backendAccepts env e.1)).map
          (fun e => (e.1, env.AllDeclarationsContextsAndUses, [], e.2)) ∧
    ((∀ e ∈ s.m_documentsForPriority, env.BestPriority < e.1) →
      parseDocumentsBatch env (disableProcessing env s)
        = (createDelayedJobs env (disableProcessing env s).m_delayedParseJobs
            (disableProcessing env s) []).2) ∧
    (delayedBurst.m_neededPriority = acceptAll.BestPriority ∧
     delayedBurst.m_threads = 1 ∧
     delayedBurst.m_parseJobs.map Prod.fst = [7, 8, 9] ∧
     delayedBurst.m_documents.map Prod.fst = [10] ∧
     (parseDocumentsBatch acceptAll delayedBurst).map (fun j => j.document) = [20, 21] ∧
     (parseDocuments acceptAll delayedBurst).m_parseJobs.map Prod.fst = [7, 8, 9, 20, 21]) := by
  have hdis := setNeededPriority_fields env.BestPriority s
  refine ⟨batch_delayed_then_pending env s, ?_, ?_, ?_, ?_⟩
  · rw [createDelayedJobs_jobs]
    simp
  · rw [createDelayedJobs_jobs]
    unfold disableProcessing
    rw [hdis.2.2.2.2.1]
    simp
  · intro habove
    obtain ⟨rest, hb, horigin⟩ := batch_delayed_then_pending env (disableProcessing env s)
    have hnil : rest = [] := by
      apply List.eq_nil_iff_forall_not_mem.mpr
      intro j hj
      obtain ⟨e, he, _, hle⟩ := horigin j hj
      unfold disableProcessing at he hle
      rw [hdis.2.2.1] at he
      rw [hdis.1] at hle
      have := habove e he
      omega
    rw [hb, hnil, List.append_nil]
  · decide

/-! ## Progress through one tick -/

theorem initial_progress (env : Env) :
    (initial env).m_jobProgress = [] ∧ (initial env).emitted = [] := by
  unfold initial loadSettings resumePrivate suspendPrivate
  cases env.configEnabled <;> simp

theorem addDocument_progress (url : KUrl) (f : Nat) (p : Int) (l : QObjectPtr)
    (s : BackgroundParserPrivate) :
    (addDocument url f p l s).m_jobProgress = s.m_jobProgress ∧
    (addDocument url f p l s).emitted = s.emitted := by
  unfold addDocument startTimer
  cases h : mapFind s.m_documents url <;> simp only [] <;> split <;> exact ⟨rfl, rfl⟩

theorem dispatchDocument_progress (env : Env) (url : KUrl) (s : BackgroundParserPrivate)
    (jobs : List ParseJob) :
    (dispatchDocument env url s jobs).1.m_doneParseJobs = s.m_doneParseJobs ∧
    (dispatchDocument env url s jobs).1.m_jobProgress = s.m_jobProgress ∧
    (dispatchDocument env url s jobs).1.emitted = s.emitted := by
  unfold dispatchDocument
  cases h : backendAccepts env url
  · simp [createParseJob_declined env url _ _ s h]
  · simp [createParseJob_accepted env url _ _ s h]

theorem createDelayedJob_progress (env : Env) (url : KUrl) (tracker : List SmartRange)
    (s : BackgroundParserPrivate) (jobs : List ParseJob) :
    (createDelayedJob env url tracker s jobs).1.m_doneParseJobs = s.m_doneParseJobs ∧
    (createDelayedJob env url tracker s jobs).1.m_jobProgress = s.m_jobProgress ∧
    (createDelayedJob env url tracker s jobs).1.emitted = s.emitted := by
  unfold createDelayedJob
  cases h : backendAccepts env url
  · simp [createParseJob_declined env url _ _ s h]
  · simp [createParseJob_accepted env url _ _ s h]

/-- The loops of a tick emit nothing and leave the progress members alone. -/
theorem collectJobs_progress (env : Env) (s : BackgroundParserPrivate) :
    (collectJobs env s).1.m_doneParseJobs = s.m_doneParseJobs ∧
    (collectJobs env s).1.m_jobProgress = s.m_jobProgress ∧
    (collectJobs env s).1.emitted = s.emitted :=
  collectJobs_invariant env s
    (fun s' _ => s'.m_doneParseJobs = s.m_doneParseJobs ∧
      s'.m_jobProgress = s.m_jobProgress ∧ s'.emitted = s.emitted)
    ⟨rfl, rfl, rfl⟩
    (by
      intro e _ s' jobs hi
      have h := createDelayedJob_progress env e.1 e.2 s' jobs
      exact ⟨h.1.trans hi.1, h.2.1.trans hi.2.1, h.2.2.trans hi.2.2⟩)
    (by intro s' jobs hi; exact hi)
    (by
      intro e _ url _ s' jobs hi _ _ _
      have h := dispatchDocument_progress env url s' jobs
      exact ⟨h.1.trans hi.1, h.2.1.trans hi.2.1, h.2.2.trans hi.2.2⟩)
    (by intro s' jobs bk hi; exact hi)

theorem updateProgressBar_unequal (s : BackgroundParserPrivate)
    (h : s.m_doneParseJobs ≠ s.m_maxParseJobs) (hempty : s.m_jobProgress = [])
    (hsmall : |125 * s.m_doneParseJobs| < 2 ^ 24) :
    (updateProgressBar s).m_doneParseJobs = s.m_doneParseJobs ∧
    (updateProgressBar s).m_maxParseJobs = s.m_maxParseJobs ∧
    (updateProgressBar s).emitted
      = s.emitted ++ [Signal.showProgress 0 (s.m_maxParseJobs * 1000)
                        (1000 * s.m_doneParseJobs)] := by
  obtain ⟨h1, h2, h3⟩ := updateProgressBar_emitted s h
  rw [hempty, List.map_nil, progressValue_nil s.m_doneParseJobs hsmall] at h3
  exact ⟨h1, h2, h3⟩

theorem updateProgressBar_equal (s : BackgroundParserPrivate)
    (h : s.m_doneParseJobs = s.m_maxParseJobs) :
    (updateProgressBar s).m_doneParseJobs = 0 ∧
    (updateProgressBar s).m_maxParseJobs = 0 ∧
    (updateProgressBar s).emitted = s.emitted := by
  unfold updateProgressBar
  simp [h]

theorem updateProgressBar_unequal_of (s : BackgroundParserPrivate) (d m : Int)
    (em : List Signal) (hd : s.m_doneParseJobs = d) (hm : s.m_maxParseJobs = m)
    (he : s.emitted = em) (h : d ≠ m) (hempty : s.m_jobProgress = [])
    (hsmall : |125 * d| < 2 ^ 24) :
    (updateProgressBar s).m_doneParseJobs = d ∧
    (updateProgressBar s).m_maxParseJobs = m ∧
    (updateProgressBar s).emitted = em ++ [Signal.showProgress 0 (m * 1000) (1000 * d)] := by
  subst hd hm he
  exact updateProgressBar_unequal s h hempty hsmall

/-- The end of a tick whose counters differ: one `showProgress`, no
`hideProgress`, both counters kept. -/
theorem parseDocumentsInternal_showProgress (env : Env) (s : BackgroundParserPrivate)
    (h : s.m_doneParseJobs ≠ (collectJobs env s).1.m_maxParseJobs)
    (hempty : s.m_jobProgress = []) (hsmall : |125 * s.m_doneParseJobs| < 2 ^ 24) :
    (parseDocumentsInternal env s).m_doneParseJobs = s.m_doneParseJobs ∧
    (parseDocumentsInternal env s).m_maxParseJobs = (collectJobs env s).1.m_maxParseJobs ∧
    (parseDocumentsInternal env s).emitted
      = s.emitted ++ [Signal.showProgress 0 ((collectJobs env s).1.m_maxParseJobs * 1000)
                        (1000 * s.m_doneParseJobs)] := by
  have hp := collectJobs_progress env s
  have hu := updateProgressBar_unequal_of
    { (collectJobs env s).1 with
      m_weaver := (collectJobs env s).1.m_weaver ++ (collectJobs env s).2 }
    s.m_doneParseJobs (collectJobs env s).1.m_maxParseJobs s.emitted
    hp.1 rfl hp.2.2 h (hp.2.1.trans hempty) hsmall
  have hne : ¬ (updateProgressBar { (collectJobs env s).1 with
      m_weaver := (collectJobs env s).1.m_weaver ++ (collectJobs env s).2 }).m_doneParseJobs
      = (updateProgressBar { (collectJobs env s).1 with
      m_weaver := (collectJobs env s).1.m_weaver ++ (collectJobs env s).2 }).m_maxParseJobs := by
    rw [hu.1, hu.2.1]; exact h
  unfold parseDocumentsInternal
  simp only [hne, if_false]
  exact hu

theorem parseComplete_counters (job : ParseJob) (s : BackgroundParserPrivate)
    (h : s.m_doneParseJobs + 1 = s.m_maxParseJobs) :
    (parseComplete job s).m_doneParseJobs = 0 ∧
    (parseComplete job s).m_maxParseJobs = 0 ∧
    (parseComplete job s).emitted = s.emitted ++ [Signal.parseJobFinished job] := by
  unfold parseComplete updateProgressBar
  simp [h]

theorem parseComplete_weaver (job : ParseJob) (s : BackgroundParserPrivate) :
    (parseComplete job s).m_weaver = s.m_weaver.filter (fun j => decide (j.id ≠ job.id)) := by
  unfold parseComplete
  simp

/-! ## Scenario 1: the life cycle of a single document -/

/-- Claim C23. With a backend that accepts `A`, `add(A, f, 0); tick` on the
fresh scheduler builds a batch of exactly one job, for `A`, emits
`showProgress(0, 1000, 0)` and nothing else, and leaves `m_maxParseJobs = 1`,
`m_doneParseJobs = 0`. The completion of that job then emits
`parseJobFinished` for it and nothing else, leaves no document pending, none
in `m_parseJobs`, no job in the weaver queue and both counters at 0; the tick
queued by the completion creates no further job. -/
theorem single_document_life_cycle (env : Env) (A : KUrl) (f : Nat) (l : QObjectPtr)
    (hworst : 0 ≤ env.WorstPriority) (hacc : backendAccepts env A = true)
    (hthreads : 0 ≤ env.configThreads) :
    parseDocumentsBatch env (addDocument A f 0 l (initial env)) = [runningJob A f l] ∧
    (runningJob A f l).document = A ∧
    (runningScenario env A f l).m_weaver = [runningJob A f l] ∧
    (runningScenario env A f l).emitted = [Signal.showProgress 0 1000 0] ∧
    (runningScenario env A f l).m_maxParseJobs = 1 ∧
    (runningScenario env A f l).m_doneParseJobs = 0 ∧
    (finishedScenario env A f l).emitted
      = [Signal.showProgress 0 1000 0, Signal.parseJobFinished (runningJob A f l)] ∧
    (finishedScenario env A f l).m_documents = [] ∧
    (finishedScenario env A f l).m_parseJobs = [] ∧
    (finishedScenario env A f l).m_weaver = [] ∧
    (finishedScenario env A f l).m_maxParseJobs = 0 ∧
    (finishedScenario env A f l).m_doneParseJobs = 0 ∧
    parseDocumentsBatch env (finishedScenario env A f l) = [] := by
  have hr := runningScenario_fields env A f l hworst hacc hthreads
  have hi := initial_tables env
  have hip := initial_progress env
  have ha := addDocument_frame A f 0 l (initial env)
  have hap := addDocument_progress A f 0 l (initial env)
  have hnone : mapFind (initial env).m_documents A = none := by rw [hi.1]; rfl
  have hB : (addDocument A f 0 l (initial env)).m_documentsForPriority = [(0, [A])] := by
    rw [addDocument_buckets_none _ A f 0 l hnone, hi.2.1]
    simp [modifyBucket, hasBucket, insertBucket, setInsert]
  have hmax0 : (addDocument A f 0 l (initial env)).m_maxParseJobs = 1 := by
    rw [addDocument_maxParseJobs, hi.1, hi.2.2.2.2.2.2.1]
    simp [mapContains, mapFind]
  have hdone0 : (addDocument A f 0 l (initial env)).m_doneParseJobs = 0 := by
    rw [ha.2.2.2.2.2, hi.2.2.2.2.2.2.2.1]
  have hjp0 : (addDocument A f 0 l (initial env)).m_jobProgress = [] := by
    rw [hap.1, hip.1]
  have hem0 : (addDocument A f 0 l (initial env)).emitted = [] := by
    rw [hap.2, hip.2]
  have hbatch : (collectJobs env (addDocument A f 0 l (initial env))).2 = [runningJob A f l] :=
    hr.1
  have hBafter : (collectJobs env (addDocument A f 0 l (initial env))).1.m_documentsForPriority
      = [(0, [])] := by
    have := hr.2.2.1
    unfold runningScenario parseDocuments at this
    rw [parseDocumentsInternal_buckets] at this
    exact this
  have hcmax : (collectJobs env (addDocument A f 0 l (initial env))).1.m_maxParseJobs = 1 := by
    have hacct := collectJobs_accounting env (addDocument A f 0 l (initial env))
    rw [hB, hbatch, hBafter, hmax0] at hacct
    simp at hacct
    omega
  have hshow := parseDocumentsInternal_showProgress env (addDocument A f 0 l (initial env))
    (by rw [hdone0, hcmax]; decide) hjp0 (by rw [hdone0]; norm_num)
  rw [hdone0, hcmax, hem0] at hshow
  have hRdone : (runningScenario env A f l).m_doneParseJobs = 0 := hshow.1
  have hRmax : (runningScenario env A f l).m_maxParseJobs = 1 := hshow.2.1
  have hRem : (runningScenario env A f l).emitted = [Signal.showProgress 0 1000 0] := by
    have := hshow.2.2
    simpa using this
  have hfin := parseComplete_counters (runningJob A f l) (runningScenario env A f l)
    (by rw [hRdone, hRmax]; rfl)
  have hff := parseComplete_frame (runningJob A f l) (runningScenario env A f l)
  have hfd : (finishedScenario env A f l).m_delayedParseJobs = [] := by
    unfold finishedScenario; rw [hff.2.2.2.1, hr.2.2.2.2.1]
  have hfB : (finishedScenario env A f l).m_documentsForPriority = [(0, [])] := by
    unfold finishedScenario; rw [hff.2.1, hr.2.2.1]
  refine ⟨hr.1, rfl, hr.2.2.2.2.2.1, hRem, hRmax, hRdone, ?_, ?_, ?_, ?_, hfin.2.1, hfin.1, ?_⟩
  · unfold finishedScenario
    rw [hfin.2.2, hRem]
    rfl
  · unfold finishedScenario
    rw [hff.1, hr.2.1]
  · unfold finishedScenario
    rw [hff.2.2.1, hr.2.2.2.1]
    simp [mapRemove, runningJob]
  · unfold finishedScenario
    rw [parseComplete_weaver, hr.2.2.2.2.2.1]
    simp [runningJob]
  · rw [batch_of_empty_buckets env _ (by rw [hfB]; simp), hfd]
    rfl

/-- Witness for C23: document 7 with the backend of `acceptAll`. -/
theorem single_document_life_cycle_witness :
    (0 : Int) ≤ acceptAll.WorstPriority ∧ backendAccepts acceptAll 7 = true ∧
    (finishedScenario acceptAll 7 1 0).emitted
      = [Signal.showProgress 0 1000 0, Signal.parseJobFinished (runningJob 7 1 0)] ∧
    (finishedScenario acceptAll 7 1 0).m_maxParseJobs = 0 :=
  ⟨by decide, by decide,
   (single_document_life_cycle acceptAll 7 1 0 (by decide) (by decide)
     (by decide)).2.2.2.2.2.2.1,
   (single_document_life_cycle acceptAll 7 1 0 (by decide) (by decide)
     (by decide)).2.2.2.2.2.2.2.2.2.2.1⟩

/-! ## The size of the first batch -/

theorem mapInsert_of_absent {β : Type} (m : List (Nat × β)) (k : Nat) (v : β)
    (h : mapFind m k = none) : mapInsert m k v = m ++ [(k, v)] := by
  induction m with
  | nil => rfl
  | cons e rest ih =>
    obtain ⟨a, b⟩ := e
    by_cases ha : a = k
    · simp [mapFind, ha] at h
    · have hrest : mapFind rest k = none := by simpa [mapFind, ha] using h
      simp [mapInsert, ha, ih hrest]

theorem mapRemove_keys_nodup {β : Type} (m : List (Nat × β)) (k : Nat)
    (h : (m.map Prod.fst).Nodup) : ((mapRemove m k).map Prod.fst).Nodup := by
  unfold mapRemove
  exact List.Nodup.sublist (List.Sublist.map _ (List.filter_sublist _)) h

theorem mapContains_iff_mem_keys {β : Type} (m : List (Nat × β)) (k : Nat) :
    mapContains m k = true ↔ k ∈ m.map Prod.fst := by
  induction m with
  | nil => simp [mapContains, mapFind]
  | cons e rest ih =>
    obtain ⟨a, b⟩ := e
    by_cases ha : a = k
    · simp [mapContains, mapFind, ha]
    · have hne : ¬ k = a := fun h => ha h.symm
      simp only [mapContains, mapFind, ha, if_false, List.map_cons, List.mem_cons, hne,
        false_or]
      exact ih

theorem length_mapRemove {β : Type} (m : List (Nat × β)) (k : Nat)
    (hkeys : (m.map Prod.fst).Nodup) (hk : mapContains m k = true) :
    (mapRemove m k).length + 1 = m.length := by
  induction m with
  | nil => simp [mapContains, mapFind] at hk
  | cons e rest ih =>
    obtain ⟨a, b⟩ := e
    have hnd := List.nodup_cons.mp hkeys
    by_cases ha : a = k
    · have hnot : k ∉ rest.map Prod.fst := by rw [← ha]; exact hnd.1
      have hall : mapRemove rest k = rest := by
        unfold mapRemove
        apply List.filter_eq_self.mpr
        intro e he
        simp only [decide_eq_true_eq]
        intro hek
        exact hnot (hek ▸ List.mem_map_of_mem Prod.fst he)
      have : mapRemove ((a, b) :: rest) k = mapRemove rest k := by
        simp [mapRemove, List.filter_cons, ha]
      rw [this, hall]
      simp
    · have hrest : mapContains rest k = true := by
        simpa [mapContains, mapFind, ha] using hk
      have : mapRemove ((a, b) :: rest) k = (a, b) :: mapRemove rest k := by
        simp [mapRemove, List.filter_cons, ha]
      rw [this]
      simp only [List.length_cons]
      have := ih hnd.2 hrest
      omega

theorem capReached_iff (s : BackgroundParserPrivate) (jobs : List ParseJob) (t : Nat)
    (ht : s.m_threads = (t : Int)) (hlen : s.m_parseJobs.length = jobs.length) :
    capReached s jobs = true ↔ t + 1 ≤ jobs.length := by
  unfold capReached
  rw [ht, hlen]
  simp only [decide_eq_true_eq]
  constructor <;> intro h <;> omega

/-- From a state in which every job of `m_parseJobs` was created in this tick,
a bucket of pending documents that are not being parsed yields jobs until the
batch holds `t + 1` of them. -/
theorem parseBucket_count (env : Env) (hacc : ∀ url, backendAccepts env url = true) (t : Nat)
    (b : List KUrl) (s : BackgroundParserPrivate) (jobs : List ParseJob)
    (ht : s.m_threads = (t : Int)) (hlen : s.m_parseJobs.length = jobs.length)
    (hnodup : b.Nodup) (hfresh : ∀ u ∈ b, mapContains s.m_parseJobs u = false)
    (hdocs : ∀ u ∈ b, mapContains s.m_documents u = true)
    (hkeys : (s.m_documents.map Prod.fst).Nodup) :
    (parseBucket env b s jobs).2.2.length
      = max jobs.length (min (jobs.length + b.length) (t + 1)) ∧
    (parseBucket env b s jobs).2.1.m_parseJobs.length = (parseBucket env b s jobs).2.2.length ∧
    (parseBucket env b s jobs).2.1.m_documents.length + (parseBucket env b s jobs).2.2.length
      = s.m_documents.length + jobs.length ∧
    (parseBucket env b s jobs).2.1.m_threads = (t : Int) ∧
    ((parseBucket env b s jobs).2.1.m_documents.map Prod.fst).Nodup ∧
    (∀ u, u ∉ b → mapContains (parseBucket env b s jobs).2.1.m_parseJobs u
        = mapContains s.m_parseJobs u) ∧
    (∀ u, u ∉ b → mapContains (parseBucket env b s jobs).2.1.m_documents u
        = mapContains s.m_documents u) := by
  induction b generalizing s jobs with
  | nil =>
    simp only [parseBucket, List.length_nil, Nat.add_zero]
    refine ⟨by omega, hlen, trivial, ht, hkeys, fun _ _ => trivial, fun _ _ => trivial⟩
  | cons url rest ih =>
    by_cases hcap : capReached s jobs = true
    · have hc := parseBucket_capped env (url :: rest) s jobs hcap
      have hj := (capReached_iff s jobs t ht hlen).mp hcap
      rw [hc]
      simp only [List.length_cons]
      refine ⟨by omega, hlen, trivial, ht, hkeys, fun _ _ => trivial, fun _ _ => trivial⟩
    · have hcap' : capReached s jobs = false := by simpa using hcap
      have hj : ¬ t + 1 ≤ jobs.length := fun h => hcap ((capReached_iff s jobs t ht hlen).mpr h)
      have hrun : mapContains s.m_parseJobs url = false := hfresh url (List.mem_cons_self _ _)
      have hstep : parseBucket env (url :: rest) s jobs
          = parseBucket env rest (dispatchDocument env url s jobs).1
              (dispatchDocument env url s jobs).2 := by
        conv_lhs => unfold parseBucket
        simp only [hcap', hrun, Bool.false_eq_true, if_false]
      have hnd := List.nodup_cons.mp hnodup
      have hpj : (dispatchDocument env url s jobs).1.m_parseJobs
          = mapInsert s.m_parseJobs url s.nextJobId := by
        rw [dispatchDocument_parseJobs, hacc url]; rfl
      have hjobs : (dispatchDocument env url s jobs).2.length = jobs.length + 1 := by
        rw [dispatchDocument_jobs_eq, hacc url]; simp
      have hdoc := dispatchDocument_documents env url s jobs
      have hdl : (dispatchDocument env url s jobs).1.m_documents.length + 1
          = s.m_documents.length := by
        rw [hdoc]
        exact length_mapRemove _ _ hkeys (hdocs url (List.mem_cons_self _ _))
      have hne : ∀ u ∈ rest, ¬ u = url := by
        intro u hu he
        exact hnd.1 (he ▸ hu)
      have key := ih (dispatchDocument env url s jobs).1 (dispatchDocument env url s jobs).2
        (by rw [dispatchDocument_threads]; exact ht)
        (by rw [hpj, length_mapInsert_of_absent _ _ _ hrun, hjobs, hlen])
        hnd.2
        (by
          intro u hu
          rw [hpj, mapContains_mapInsert, hfresh u (List.mem_cons_of_mem _ hu)]
          simp [hne u hu])
        (by
          intro u hu
          rw [hdoc, mapContains_mapRemove, hdocs u (List.mem_cons_of_mem _ hu)]
          simp [hne u hu])
        (by rw [hdoc]; exact mapRemove_keys_nodup _ _ hkeys)
      rw [hstep]
      obtain ⟨k1, k2, k3, k4, k5, k6, k7⟩ := key
      refine ⟨?_, k2, ?_, k4, k5, ?_, ?_⟩
      · rw [k1, hjobs]
        simp only [List.length_cons]
        omega
      · omega
      · intro u hu
        have hu1 : ¬ u = url := fun h => hu (h ▸ List.mem_cons_self _ _)
        have hu2 : u ∉ rest := fun h => hu (List.mem_cons_of_mem _ h)
        rw [k6 u hu2, hpj, mapContains_mapInsert]
        simp [hu1]
      · intro u hu
        have hu1 : ¬ u = url := fun h => hu (h ▸ List.mem_cons_self _ _)
        have hu2 : u ∉ rest := fun h => hu (List.mem_cons_of_mem _ h)
        rw [k7 u hu2, hdoc, mapContains_mapRemove]
        simp [hu1]

theorem parseBuckets_count (env : Env) (hacc : ∀ url, backendAccepts env url = true) (t : Nat)
    (bs : List (Int × List KUrl)) (s : BackgroundParserPrivate) (jobs : List ParseJob)
    (ht : s.m_threads = (t : Int)) (hlen : s.m_parseJobs.length = jobs.length)
    (hfloor : ∀ e ∈ bs, e.1 ≤ s.m_neededPriority)
    (hnodup : (pendingUrls bs).Nodup)
    (hfresh : ∀ u ∈ pendingUrls bs, mapContains s.m_parseJobs u = false)
    (hdocs : ∀ u ∈ pendingUrls bs, mapContains s.m_documents u = true)
    (hkeys : (s.m_documents.map Prod.fst).Nodup) :
    (parseBuckets env bs s jobs).2.2.length
      = max jobs.length (min (jobs.length + (pendingUrls bs).length) (t + 1)) ∧
    (parseBuckets env bs s jobs).2.1.m_parseJobs.length
      = (parseBuckets env bs s jobs).2.2.length ∧
    (parseBuckets env bs s jobs).2.1.m_documents.length
        + (parseBuckets env bs s jobs).2.2.length
      = s.m_documents.length + jobs.length := by
  induction bs generalizing s jobs with
  | nil =>
    simp only [parseBuckets, pendingUrls, List.length_nil, Nat.add_zero]
    exact ⟨by omega, hlen, trivial⟩
  | cons e rest ih =>
    obtain ⟨p, b⟩ := e
    have hp : ¬ p > s.m_neededPriority := not_lt.mpr (hfloor (p, b) (List.mem_cons_self _ _))
    have hnd := List.nodup_append.mp hnodup
    have hb := parseBucket_count env hacc t b s jobs ht hlen hnd.1
      (fun u hu => hfresh u (List.mem_append_left _ hu))
      (fun u hu => hdocs u (List.mem_append_left _ hu)) hkeys
    obtain ⟨b1, b2, b3, b4, b5, b6, b7⟩ := hb
    have hnotb : ∀ u ∈ pendingUrls rest, u ∉ b := by
      intro u hu hub
      exact hnd.2.2 hub hu
    have key := ih (parseBucket env b s jobs).2.1 (parseBucket env b s jobs).2.2 b4 b2
      (by
        intro e he
        rw [parseBucket_neededPriority]
        exact hfloor e (List.mem_cons_of_mem _ he))
      hnd.2.1
      (by
        intro u hu
        rw [b6 u (hnotb u hu)]
        exact hfresh u (List.mem_append_right _ hu))
      (by
        intro u hu
        rw [b7 u (hnotb u hu)]
        exact hdocs u (List.mem_append_right _ hu))
      b5
    obtain ⟨k1, k2, k3⟩ := key
    have hstep : (parseBuckets env ((p, b) :: rest) s jobs).2
        = (parseBuckets env rest (parseBucket env b s jobs).2.1
            (parseBucket env b s jobs).2.2).2 := by
      conv_lhs => unfold parseBuckets
      simp only [hp, if_false]
    rw [hstep]
    refine ⟨?_, k2, ?_⟩
    · rw [k1, b1]
      simp only [pendingUrls, List.length_append]
      omega
    · omega

theorem hasBucket_iff_mem_keys (m : List (Int × List KUrl)) (p : Int) :
    hasBucket m p = true ↔ p ∈ m.map Prod.fst := by
  unfold hasBucket
  simp only [List.any_eq_true, decide_eq_true_eq, List.mem_map]

theorem pendingUrls_insertBucket (m : List (Int × List KUrl)) (p : Int) (k : KUrl) :
    (pendingUrls (insertBucket p [k] m)).Perm (k :: pendingUrls m) := by
  induction m with
  | nil => simp [insertBucket, pendingUrls]
  | cons e rest ih =>
    obtain ⟨q, c⟩ := e
    by_cases h : p < q
    · simp [insertBucket, h, pendingUrls]
    · simp only [insertBucket, h, if_false, pendingUrls]
      exact (List.Perm.append_left c ih).trans List.perm_middle

theorem keys_insertBucket (m : List (Int × List KUrl)) (p : Int) (b : List KUrl) :
    ((insertBucket p b m).map Prod.fst).Perm (p :: m.map Prod.fst) := by
  induction m with
  | nil => simp [insertBucket]
  | cons e rest ih =>
    obtain ⟨q, c⟩ := e
    by_cases h : p < q
    · simp [insertBucket, h]
    · simp only [insertBucket, h, if_false, List.map_cons]
      exact (List.Perm.cons q ih).trans (List.Perm.swap p q _)

theorem pendingUrls_map_insert (m : List (Int × List KUrl)) (p : Int) (k : KUrl)
    (hkeys : (m.map Prod.fst).Nodup) (hhas : hasBucket m p = true)
    (hk : k ∉ pendingUrls m) :
    (pendingUrls (m.map (fun e => (e.1, if e.1 = p then setInsert e.2 k else e.2)))).Perm
      (k :: pendingUrls m) := by
  induction m with
  | nil => simp [hasBucket] at hhas
  | cons e rest ih =>
    obtain ⟨q, c⟩ := e
    have hnd := List.nodup_cons.mp hkeys
    simp only [pendingUrls, List.mem_append, not_or] at hk
    by_cases hq : q = p
    · have hrest : rest.map (fun e => (e.1, if e.1 = p then setInsert e.2 k else e.2)) = rest := by
        have : ∀ e ∈ rest, (fun e : Int × List KUrl =>
            (e.1, if e.1 = p then setInsert e.2 k else e.2)) e = e := by
          intro e he
          have hne : ¬ e.1 = p := by
            intro hep
            apply hnd.1
            rw [hq, ← hep]
            exact List.mem_map.mpr ⟨e, he, rfl⟩
          simp [hne]
        calc rest.map (fun e => (e.1, if e.1 = p then setInsert e.2 k else e.2))
            = rest.map id := List.map_congr_left this
          _ = rest := List.map_id _
      simp only [List.map_cons, hq, if_true, pendingUrls, hrest]
      have hins : setInsert c k = c ++ [k] := by
        unfold setInsert
        simp [hk.1]
      rw [hins, List.append_assoc]
      exact List.perm_middle
    · have hhas' : hasBucket rest p = true := by
        rw [hasBucket_cons] at hhas
        simpa [hq] using hhas
      simp only [List.map_cons, hq, if_false, pendingUrls]
      exact (List.Perm.append_left c (ih hnd.2 hhas' hk.2)).trans List.perm_middle

theorem pendingUrls_modifyBucket (m : List (Int × List KUrl)) (p : Int) (k : KUrl)
    (hkeys : (m.map Prod.fst).Nodup) (hk : k ∉ pendingUrls m) :
    (pendingUrls (modifyBucket p (fun b => setInsert b k) m)).Perm (k :: pendingUrls m) := by
  unfold modifyBucket
  by_cases h : hasBucket m p = true
  · simp only [h, if_true]
    exact pendingUrls_map_insert m p k hkeys h hk
  · simp only [h, if_false]
    have : setInsert [] k = [k] := by simp [setInsert]
    rw [this]
    exact pendingUrls_insertBucket m p k

theorem keys_modifyBucket (m : List (Int × List KUrl)) (p : Int) (f : List KUrl → List KUrl)
    (hkeys : (m.map Prod.fst).Nodup) : ((modifyBucket p f m).map Prod.fst).Nodup := by
  unfold modifyBucket
  by_cases h : hasBucket m p = true
  · simp only [h, if_true, List.map_map]
    exact hkeys
  · simp only [h, if_false]
    apply (List.Perm.nodup_iff (keys_insertBucket m p (f []))).mpr
    apply List.nodup_cons.mpr
    refine ⟨?_, hkeys⟩
    intro hp
    exact h ((hasBucket_iff_mem_keys m p).mpr hp)

theorem initial_idle (env : Env) :
    IdleWith [] env.WorstPriority env.configThreads (initial env) := by
  have hi := initial_tables env
  unfold IdleWith
  rw [hi.1, hi.2.1, hi.2.2.1, hi.2.2.2.1, hi.2.2.2.2.2.1, hi.2.2.2.2.2.2.2.2]
  simp [pendingUrls]

theorem addDocument_idle (keys : List KUrl) (floor t : Int) (s : BackgroundParserPrivate)
    (k : KUrl) (f : Nat) (p : Int) (l : QObjectPtr)
    (h : IdleWith keys floor t s) (hk : k ∉ keys) (hp : p ≤ floor) :
    IdleWith (keys ++ [k]) floor t (addDocument k f p l s) := by
  obtain ⟨h1, h2, h3, h4, h5, h6, h7, h8⟩ := h
  have hnone : mapFind s.m_documents k = none := by
    cases hf : mapFind s.m_documents k with
    | none => rfl
    | some v =>
      exfalso
      apply hk
      rw [← h1]
      apply (mapContains_iff_mem_keys _ _).mp
      simp [mapContains, hf]
  have ha := addDocument_frame k f p l s
  have hkB : k ∉ pendingUrls s.m_documentsForPriority := fun hmem => hk (h2.subset hmem)
  refine ⟨?_, ?_, ?_, ?_, ?_, ?_, ?_, ?_⟩
  · rw [addDocument_documents_none s k f p l hnone, mapInsert_of_absent _ _ _ hnone, ← h1]
    simp
  · rw [addDocument_buckets_none s k f p l hnone]
    exact ((pendingUrls_modifyBucket _ p k h3 hkB).trans (List.Perm.cons k h2)).trans
      (List.perm_append_singleton k keys).symm
  · rw [addDocument_buckets_none s k f p l hnone]
    exact keys_modifyBucket _ p _ h3
  · rw [addDocument_buckets_none s k f p l hnone]
    intro e he
    rcases mem_modifyBucket p _ _ e he with hm | hm
    · exact h4 e hm.2
    · rw [hm.1]; exact hp
  · rw [ha.1, h5]
  · rw [ha.2.1, h6]
  · rw [ha.2.2.1, h7]
  · rw [ha.2.2.2.2.1, h8]

theorem addDocuments_idle (adds : List (KUrl × Nat × Int × QObjectPtr)) (keys : List KUrl)
    (floor t : Int) (s : BackgroundParserPrivate)
    (h : IdleWith keys floor t s)
    (hnodup : (keys ++ adds.map (fun a => a.1)).Nodup)
    (hp : ∀ a ∈ adds, a.2.2.1 ≤ floor) :
    IdleWith (keys ++ adds.map (fun a => a.1)) floor t (addDocuments adds s) := by
  induction adds generalizing keys s with
  | nil => simpa [addDocuments] using h
  | cons a rest ih =>
    have hk : a.1 ∉ keys := by
      intro hmem
      have := (List.nodup_append.mp hnodup).2.2 hmem (List.mem_cons_self _ _)
      exact this
    have hstep := addDocument_idle keys floor t s a.1 a.2.1 a.2.2.1 a.2.2.2 h hk
      (hp a (List.mem_cons_self _ _))
    have := ih (keys ++ [a.1]) (addDocument a.1 a.2.1 a.2.2.1 a.2.2.2 s) hstep
      (by simpa [List.append_assoc] using hnodup)
      (fun b hb => hp b (List.mem_cons_of_mem _ hb))
    simpa [addDocuments, List.append_assoc] using this

/-- Claim C27. On the fresh scheduler with `t ≥ 0` threads and an accepting
backend, after `addDocument` calls for `n` distinct documents with priorities
at or below the floor `WorstPriority`, all `n` documents are pending and the
first `parseDocuments` call builds a batch of exactly `min n (t + 1)` jobs:
the admission test counts every job of this tick in `m_parseJobs` and in the
batch. As many documents are in `m_parseJobs` afterwards, and the other
`n - min n (t + 1)` are still in `m_documents`. -/
theorem batch_size_from_idle (env : Env) (t : Nat)
    (adds : List (KUrl × Nat × Int × QObjectPtr))
    (hacc : ∀ url, backendAccepts env url = true)
    (ht : env.configThreads = (t : Int))
    (hnodup : (adds.map (fun a => a.1)).Nodup)
    (hfloor : ∀ a ∈ adds, a.2.2.1 ≤ env.WorstPriority) :
    (addDocuments adds (initial env)).m_documents.length = adds.length ∧
    (addDocuments adds (initial env)).m_parseJobs = [] ∧
    (parseDocumentsBatch env (addDocuments adds (initial env))).length
      = min adds.length (t + 1) ∧
    (parseDocuments env (addDocuments adds (initial env))).m_parseJobs.length
      = min adds.length (t + 1) ∧
    (parseDocuments env (addDocuments adds (initial env))).m_documents.length
      = adds.length - min adds.length (t + 1) := by
  have hidle := addDocuments_idle adds [] env.WorstPriority env.configThreads (initial env)
    (initial_idle env) (by simpa using hnodup) hfloor
  simp only [List.nil_append] at hidle
  obtain ⟨h1, h2, h3, h4, h5, h6, h7, h8⟩ := hidle
  have hlen : (addDocuments adds (initial env)).m_documents.length = adds.length := by
    have := congrArg List.length h1
    simpa using this
  have hcount := parseBuckets_count env hacc t
    (addDocuments adds (initial env)).m_documentsForPriority
    (addDocuments adds (initial env)) [] (h7.trans ht) (by rw [h5]; rfl)
    (by intro e he; rw [h8]; exact h4 e he)
    (h2.nodup_iff.mpr hnodup)
    (by intro u _; rw [h5]; rfl)
    (by
      intro u hu
      apply (mapContains_iff_mem_keys _ _).mpr
      rw [h1]
      exact h2.subset hu)
    (by rw [h1]; exact hnodup)
  have hn : (pendingUrls (addDocuments adds (initial env)).m_documentsForPriority).length
      = adds.length := by
    rw [h2.length_eq]; simp
  rw [hn] at hcount
  simp only [List.length_nil, Nat.zero_add] at hcount
  have hc := collectJobs_no_delayed env (addDocuments adds (initial env)) h6
  obtain ⟨c1, c2, c3⟩ := hcount
  unfold parseDocuments parseDocumentsBatch
  rw [parseDocumentsInternal_parseJobs, parseDocumentsInternal_documents, hc]
  simp only []
  refine ⟨hlen, h5, ?_, ?_, ?_⟩
  · rw [c1]; omega
  · rw [c2, c1]; omega
  · omega

/-- Witness for C27: three documents on one thread give a batch of two. -/
theorem batch_size_from_idle_witness :
    (parseDocumentsBatch acceptAll
      (addDocuments [(7, 1, 0, 0), (8, 1, 5, 0), (9, 7, 2, 0)] (initial acceptAll))).length
      = min [((7 : KUrl), (1 : Nat), (0 : Int), (0 : QObjectPtr)), (8, 1, 5, 0),
             (9, 7, 2, 0)].length (1 + 1) ∧
    (parseDocumentsBatch acceptAll
      (addDocuments [(7, 1, 0, 0), (8, 1, 5, 0), (9, 7, 2, 0)] (initial acceptAll))).map
        (fun j => j.document) = [7, 9] ∧
    (parseDocuments acceptAll
      (addDocuments [(7, 1, 0, 0), (8, 1, 5, 0), (9, 7, 2, 0)]
        (initial acceptAll))).m_documents.map Prod.fst = [8] :=
  ⟨(batch_size_from_idle acceptAll 1 [(7, 1, 0, 0), (8, 1, 5, 0), (9, 7, 2, 0)]
      (by intro url; rfl) rfl (by decide) (by decide)).2.2.1,
   by decide, by decide⟩

/-! ## A removed document stays out -/

theorem modifyBucket_absent (p : Int) (f : List KUrl → List KUrl)
    (m : List (Int × List KUrl)) (k : KUrl)
    (hf : ∀ b, k ∈ f b → k ∈ b) (hm : ∀ e ∈ m, k ∉ e.2) :
    ∀ e ∈ modifyBucket p f m, k ∉ e.2 := by
  intro e he hk
  rcases mem_modifyBucket p f m e he with ⟨_, hmem⟩ | ⟨_, b, hb, hor⟩
  · exact hm e hmem hk
  · rw [hb] at hk
    have hkb := hf b hk
    rcases hor with h | h
    · exact hm (p, b) h hkb
    · rw [h] at hkb
      simp at hkb

theorem addDocument_absent (url : KUrl) (f : Nat) (p : Int) (l : QObjectPtr) (k : KUrl)
    (s : BackgroundParserPrivate) (hne : url ≠ k)
    (hm : ∀ e ∈ s.m_documentsForPriority, k ∉ e.2) :
    ∀ e ∈ (addDocument url f p l s).m_documentsForPriority, k ∉ e.2 := by
  have hins : ∀ b, k ∈ setInsert b url → k ∈ b := by
    intro b hb
    rcases (mem_setInsert b url k).mp hb with h | h
    · exact h
    · exact absurd h.symm hne
  have hrem : ∀ b, k ∈ setRemove b url → k ∈ b := fun b hb => ((mem_setRemove b url k).mp hb).1
  cases hf : mapFind s.m_documents url with
  | none =>
    rw [addDocument_buckets_none s url f p l hf]
    exact modifyBucket_absent p _ _ k hins hm
  | some stored =>
    rw [addDocument_buckets_some s url f p l stored hf]
    exact modifyBucket_absent p _ _ k hins (modifyBucket_absent stored.priority _ _ k hrem hm)

theorem removeDocument_absent (url k : KUrl) (s : BackgroundParserPrivate)
    (hm : ∀ e ∈ s.m_documentsForPriority, k ∉ e.2) :
    ∀ e ∈ (removeDocument url s).m_documentsForPriority, k ∉ e.2 := by
  have hrem : ∀ b, k ∈ setRemove b url → k ∈ b := fun b hb => ((mem_setRemove b url k).mp hb).1
  unfold removeDocument
  cases hf : mapFind s.m_documents url with
  | none => exact hm
  | some stored => exact modifyBucket_absent stored.priority _ _ k hrem hm

theorem parseDocumentsInternal_absent (env : Env) (k : KUrl) (s : BackgroundParserPrivate)
    (hdoc : mapContains s.m_documents k = false)
    (hm : ∀ e ∈ s.m_documentsForPriority, k ∉ e.2) :
    mapContains (parseDocumentsInternal env s).m_documents k = false ∧
    (∀ e ∈ (parseDocumentsInternal env s).m_documentsForPriority, k ∉ e.2) ∧
    mapContains (parseDocumentsInternal env s).m_delayedParseJobs k = false := by
  refine ⟨?_, ?_, ?_⟩
  · rw [parseDocumentsInternal_documents]
    exact collectJobs_invariant env s (fun s' _ => mapContains s'.m_documents k = false) hdoc
      (by intro e _ s' jobs hi; rw [createDelayedJob_documents]; exact hi)
      (by intro s' jobs hi; exact hi)
      (by
        intro e _ url _ s' jobs hi _ _ _
        rw [dispatchDocument_documents, mapContains_mapRemove, hi]
        simp)
      (by intro s' jobs bk hi; exact hi)
  · intro e' he' hk
    rw [parseDocumentsInternal_buckets] at he'
    obtain ⟨e, he, _, h2⟩ := collectJobs_buckets_entries env s e' he'
    exact hm e he (h2 k hk)
  · rw [parseDocumentsInternal_delayed, collectJobs_delayed]
    rfl

/-- A document that is not pending, in no bucket and not in the delayed table
stays so under every call that neither adds nor edits it. -/
theorem absent_step (env : Env) (k : KUrl) (s : BackgroundParserPrivate) (op : Op)
    (hop : notAddedOrEditedOp k s op)
    (hdoc : mapContains s.m_documents k = false)
    (hm : ∀ e ∈ s.m_documentsForPriority, k ∉ e.2)
    (hdel : mapContains s.m_delayedParseJobs k = false) :
    mapContains (op.apply env s).m_documents k = false ∧
    (∀ e ∈ (op.apply env s).m_documentsForPriority, k ∉ e.2) ∧
    mapContains (op.apply env s).m_delayedParseJobs k = false := by
  cases op with
  | addDocument url f p l =>
    have hne : url ≠ k := hop
    have hne' : ¬ k = url := fun h => hne h.symm
    refine ⟨?_, addDocument_absent url f p l k s hne hm, ?_⟩
    · show mapContains (addDocument url f p l s).m_documents k = false
      rw [addDocument_contains, hdoc]
      simp [hne']
    · show mapContains (addDocument url f p l s).m_delayedParseJobs k = false
      rw [(addDocument_frame url f p l s).2.1]
      exact hdel
  | removeDocument url =>
    refine ⟨?_, removeDocument_absent url k s hm, ?_⟩
    · show mapContains (removeDocument url s).m_documents k = false
      rw [removeDocument_contains, hdoc]
      simp
    · show mapContains (removeDocument url s).m_delayedParseJobs k = false
      rw [(removeDocument_frame url s).2.1]
      exact hdel
  | rangeContentsChanged url r =>
    have hne : url ≠ k := hop
    have hf := rangeContentsChanged_frame env url r s
    refine ⟨?_, ?_, ?_⟩
    · show mapContains (rangeContentsChanged env url r s).m_documents k = false
      rw [hf.1]; exact hdoc
    · show ∀ e ∈ (rangeContentsChanged env url r s).m_documentsForPriority, k ∉ e.2
      rw [hf.2.1]; exact hm
    · show mapContains (rangeContentsChanged env url r s).m_delayedParseJobs k = false
      rw [rangeContentsChanged_delayed env url r k s (fun h => hne h.symm)]
      exact hdel
  | setNeededPriority p =>
    have hf := setNeededPriority_fields p s
    refine ⟨?_, ?_, ?_⟩
    · show mapContains (setNeededPriority p s).m_documents k = false
      rw [hf.2.1]; exact hdoc
    · show ∀ e ∈ (setNeededPriority p s).m_documentsForPriority, k ∉ e.2
      rw [hf.2.2.1]; exact hm
    · show mapContains (setNeededPriority p s).m_delayedParseJobs k = false
      rw [hf.2.2.2.2.1]; exact hdel
  | disableProcessing =>
    have hf := setNeededPriority_fields env.BestPriority s
    refine ⟨?_, ?_, ?_⟩
    · show mapContains (setNeededPriority env.BestPriority s).m_documents k = false
      rw [hf.2.1]; exact hdoc
    · show ∀ e ∈ (setNeededPriority env.BestPriority s).m_documentsForPriority, k ∉ e.2
      rw [hf.2.2.1]; exact hm
    · show mapContains (setNeededPriority env.BestPriority s).m_delayedParseJobs k = false
      rw [hf.2.2.2.2.1]; exact hdel
  | enableProcessing =>
    have hf := setNeededPriority_fields env.WorstPriority s
    refine ⟨?_, ?_, ?_⟩
    · show mapContains (setNeededPriority env.WorstPriority s).m_documents k = false
      rw [hf.2.1]; exact hdoc
    · show ∀ e ∈ (setNeededPriority env.WorstPriority s).m_documentsForPriority, k ∉ e.2
      rw [hf.2.2.1]; exact hm
    · show mapContains (setNeededPriority env.WorstPriority s).m_delayedParseJobs k = false
      rw [hf.2.2.2.2.1]; exact hdel
  | parseDocuments => exact parseDocumentsInternal_absent env k s hdoc hm
  | timeout =>
    exact parseDocumentsInternal_absent env k { s with m_timerActive := false } hdoc hm
  | parseComplete job =>
    have hf := parseComplete_frame job s
    refine ⟨?_, ?_, ?_⟩
    · show mapContains (parseComplete job s).m_documents k = false
      rw [hf.1]; exact hdoc
    · show ∀ e ∈ (parseComplete job s).m_documentsForPriority, k ∉ e.2
      rw [hf.2.1]; exact hm
    · show mapContains (parseComplete job s).m_delayedParseJobs k = false
      rw [hf.2.2.2.1]; exact hdel
  | parseProgress job value =>
    refine ⟨?_, ?_, ?_⟩
    · show mapContains (parseProgress job value s).m_documents k = false
      unfold parseProgress
      rw [updateProgressBar_documents]; exact hdoc
    · show ∀ e ∈ (parseProgress job value s).m_documentsForPriority, k ∉ e.2
      unfold parseProgress
      rw [updateProgressBar_buckets]; exact hm
    · show mapContains (parseProgress job value s).m_delayedParseJobs k = false
      unfold parseProgress
      rw [updateProgressBar_delayed]; exact hdel
  | suspend =>
    have h : (suspend s).m_documents = s.m_documents ∧
        (suspend s).m_documentsForPriority = s.m_documentsForPriority ∧
        (suspend s).m_delayedParseJobs = s.m_delayedParseJobs := by
      unfold suspend suspendPrivate
      cases s.m_weaverSuspended <;> simp
    refine ⟨?_, ?_, ?_⟩
    · show mapContains (suspend s).m_documents k = false
      rw [h.1]; exact hdoc
    · show ∀ e ∈ (suspend s).m_documentsForPriority, k ∉ e.2
      rw [h.2.1]; exact hm
    · show mapContains (suspend s).m_delayedParseJobs k = false
      rw [h.2.2]; exact hdel
  | resume =>
    have h : (resumePrivate s).m_documents = s.m_documents ∧
        (resumePrivate s).m_documentsForPriority = s.m_documentsForPriority ∧
        (resumePrivate s).m_delayedParseJobs = s.m_delayedParseJobs := by
      unfold resumePrivate
      split <;> simp
    refine ⟨?_, ?_, ?_⟩
    · show mapContains (resume s).m_documents k = false
      unfold resume
      rw [updateProgressBar_documents, h.1]; exact hdoc
    · show ∀ e ∈ (resume s).m_documentsForPriority, k ∉ e.2
      unfold resume
      rw [updateProgressBar_buckets, h.2.1]; exact hm
    · show mapContains (resume s).m_delayedParseJobs k = false
      unfold resume
      rw [updateProgressBar_delayed, h.2.2]; exact hdel
  | setThreadCount n =>
    have h : (setThreadCount n s).m_documents = s.m_documents ∧
        (setThreadCount n s).m_documentsForPriority = s.m_documentsForPriority ∧
        (setThreadCount n s).m_delayedParseJobs = s.m_delayedParseJobs := by
      unfold setThreadCount
      split <;> simp
    refine ⟨?_, ?_, ?_⟩
    · show mapContains (setThreadCount n s).m_documents k = false
      rw [h.1]; exact hdoc
    · show ∀ e ∈ (setThreadCount n s).m_documentsForPriority, k ∉ e.2
      rw [h.2.1]; exact hm
    · show mapContains (setThreadCount n s).m_delayedParseJobs k = false
      rw [h.2.2]; exact hdel
  | setDelay n =>
    have h : (setDelay n s).m_documents = s.m_documents ∧
        (setDelay n s).m_documentsForPriority = s.m_documentsForPriority ∧
        (setDelay n s).m_delayedParseJobs = s.m_delayedParseJobs := by
      unfold setDelay
      split <;> simp
    refine ⟨?_, ?_, ?_⟩
    · show mapContains (setDelay n s).m_documents k = false
      rw [h.1]; exact hdoc
    · show ∀ e ∈ (setDelay n s).m_documentsForPriority, k ∉ e.2
      rw [h.2.1]; exact hm
    · show mapContains (setDelay n s).m_delayedParseJobs k = false
      rw [h.2.2]; exact hdel

theorem absent_reachable (env : Env) (k : KUrl) (origin s : BackgroundParserPrivate)
    (hdoc : mapContains origin.m_documents k = false)
    (hm : ∀ e ∈ origin.m_documentsForPriority, k ∉ e.2)
    (hdel : mapContains origin.m_delayedParseJobs k = false)
    (h : ReachableFrom env (notAddedOrEditedOp k) origin s) :
    mapContains s.m_documents k = false ∧
    (∀ e ∈ s.m_documentsForPriority, k ∉ e.2) ∧
    mapContains s.m_delayedParseJobs k = false := by
  induction h with
  | refl => exact ⟨hdoc, hm, hdel⟩
  | step s' op _ hop ih => exact absent_step env k s' op hop ih.1 ih.2.1 ih.2.2

theorem batch_absent (env : Env) (k : KUrl) (s : BackgroundParserPrivate)
    (hm : ∀ e ∈ s.m_documentsForPriority, k ∉ e.2)
    (hdel : mapContains s.m_delayedParseJobs k = false) :
    ∀ j ∈ parseDocumentsBatch env s, j.document ≠ k := by
  intro j hj hd
  rcases batch_job_origin env s k j hj hd with h | ⟨e, he, hk⟩
  · rw [hdel] at h; exact Bool.noConfusion h
  · exact hm e he hk

/-- C13 (amended): after `removeDocument k` the key `k` is not in
`m_documents`. If every bucket that contained `k` was the bucket of the stored
priority of `k`, then `k` is a member of no bucket afterwards; and if moreover
`k` has no entry in `m_delayedParseJobs`, then in every state reached from
there by calls that neither add `k` again nor notify an edit of `k`, whatever
else they do, `k` is not pending, is in no bucket, and a tick, called
directly or by the timer, creates no job for `k`. -/
theorem removeDocument_post (env : Env) (s : BackgroundParserPrivate) (k : KUrl) :
    mapContains (removeDocument k s).m_documents k = false ∧
    mapFind (removeDocument k s).m_documents k = none ∧
    ((∀ e ∈ s.m_documentsForPriority, k ∈ e.2 →
        ∃ plan, mapFind s.m_documents k = some plan ∧ plan.priority = e.1) →
      (∀ e ∈ (removeDocument k s).m_documentsForPriority, k ∉ e.2) ∧
      (mapContains s.m_delayedParseJobs k = false →
        ∀ s', ReachableFrom env (notAddedOrEditedOp k) (removeDocument k s) s' →
          mapContains s'.m_documents k = false ∧
          (∀ e ∈ s'.m_documentsForPriority, k ∉ e.2) ∧
          (∀ j ∈ parseDocumentsBatch env s', j.document ≠ k) ∧
          (∀ j ∈ parseDocumentsBatch env { s' with m_timerActive := false },
            j.document ≠ k) ∧
          (∀ j ∈ (parseDocuments env s').m_weaver, j ∈ s'.m_weaver ∨ j.document ≠ k))) := by
  have hdoc : mapContains (removeDocument k s).m_documents k = false := by
    rw [removeDocument_contains]; simp
  refine ⟨hdoc, by rw [removeDocument_find]; simp, ?_⟩
  intro hidx
  have hentries : ∀ e ∈ (removeDocument k s).m_documentsForPriority, k ∉ e.2 := by
    intro e he hk
    unfold removeDocument at he
    cases hf : mapFind s.m_documents k with
    | none =>
      rw [hf] at he
      obtain ⟨plan, hplan, _⟩ := hidx e he hk
      rw [hf] at hplan
      exact Option.noConfusion hplan
    | some stored =>
      rw [hf] at he
      simp only [] at he
      rcases mem_modifyBucket _ _ _ e he with ⟨hne, hmem⟩ | ⟨_, b, hb, _⟩
      · obtain ⟨plan, hplan, hprio⟩ := hidx e hmem hk
        rw [hf] at hplan
        have : stored = plan := Option.some.inj hplan
        rw [this] at hne
        exact hne hprio.symm
      · rw [hb, mem_setRemove] at hk
        exact hk.2 rfl
  refine ⟨hentries, ?_⟩
  intro hdel s' hreach
  have habs := absent_reachable env k (removeDocument k s) s' hdoc hentries
    (by rw [(removeDocument_frame k s).2.1]; exact hdel) hreach
  have hbatch := batch_absent env k s' habs.2.1 habs.2.2
  refine ⟨habs.1, habs.2.1, hbatch, batch_absent env k { s' with m_timerActive := false }
    habs.2.1 habs.2.2, ?_⟩
  intro j hj
  unfold parseDocuments at hj
  rw [parseDocumentsInternal_weaver, collectJobs_weaver] at hj
  rcases List.mem_append.mp hj with h | h
  · exact Or.inl h
  · exact Or.inr (hbatch j h)

/-- Witness for C13 (amended): `add(7, p=1); remove(7)`, then `add(8)`, a tick,
a change of the floor and a second tick; no job for 7 is created. -/
theorem removeDocument_post_witness :
    mapContains (removeDocument 7 (onePending acceptAll)).m_documents 7 = false ∧
    (∀ j ∈ parseDocumentsBatch acceptAll
        (setNeededPriority 3 (parseDocuments acceptAll
          (addDocument 8 1 0 0 (removeDocument 7 (onePending acceptAll))))),
      j.document ≠ 7) := by
  have hidx : ∀ e ∈ (onePending acceptAll).m_documentsForPriority, 7 ∈ e.2 →
      ∃ plan, mapFind (onePending acceptAll).m_documents 7 = some plan ∧
        plan.priority = e.1 := by
    intro e he _
    have hb : (onePending acceptAll).m_documentsForPriority = [(1, [7])] := by decide
    rw [hb] at he
    simp only [List.mem_singleton] at he
    rw [he]
    exact ⟨{ priority := 1, features := 1, notifyWhenReady := [0] }, by decide, rfl⟩
  have h0 : ReachableFrom acceptAll (notAddedOrEditedOp 7)
      (removeDocument 7 (onePending acceptAll)) (removeDocument 7 (onePending acceptAll)) :=
    ReachableFrom.refl
  have h1 := ReachableFrom.step _ (Op.addDocument 8 1 0 0) h0 (by simp [notAddedOrEditedOp])
  have h2 := ReachableFrom.step _ Op.parseDocuments h1 (by simp [notAddedOrEditedOp])
  have h3 := ReachableFrom.step _ (Op.setNeededPriority 3) h2 (by simp [notAddedOrEditedOp])
  have hpost := removeDocument_post acceptAll (onePending acceptAll) 7
  exact ⟨hpost.1, (((hpost.2.2 hidx).2 (by decide)) _ h3).2.2.1⟩

end KDevelop
